import Mathlib

/-!
# BasicJsonStringifier (src/json-stringifier.h)

A shallow embedding of V8's `BasicJsonStringifier`: the escape table, the
two-encoding output accumulator, the string emitter, the value serializer and
the cycle stack, followed by theorems about them.

Conventions of the embedding
* a code unit is a `Nat` (`char` values are below 128, `uc16` values below 65536);
* `int` arithmetic that can leave the 32-bit range is wrapped with `wrap32`;
* a store outside the active part (`SeqAsciiStringSet` / `*(dest++) = ...` past
  the end of `current_part_`) is a memory fault, rendered as `none`;
* the JavaScript heap, the `toJSON` calls, the number formatters and the stack
  limit check belong to the host and are parameters (`Host`, `Heap`).
-/

namespace JsonStringifier

/-! ## Constants -/

def kInitialPartLength : Nat := 32

def kMaxPartLength : Nat := 16 * 1024

def kPartLengthGrowthFactor : Nat := 2

def kJsonEscapeTableEntrySize : Nat := 8

/-- The enum `Result`, in declaration order (the source compares `result >= EXCEPTION`). -/
inductive Result
  | UNCHANGED | SUCCESS | EXCEPTION | CIRCULAR | STACK_OVERFLOW
  deriving DecidableEq, Repr

/-- Position of a `Result` in the enum. -/
def Result.toNat : Result → Nat
  | .UNCHANGED => 0 | .SUCCESS => 1 | .EXCEPTION => 2 | .CIRCULAR => 3 | .STACK_OVERFLOW => 4

/-! ## Escape table

`JsonEscapeTable` is the 1024-byte string literal of the source, one 8-byte
slot per ASCII code point, each slot holding the escape text, a NUL and padding
blanks. -/

def JsonEscapeTable : List Nat :=
  [92, 117, 48, 48, 48, 48, 0, 32, 92, 117, 48, 48, 48, 49, 0, 32, 92, 117, 48, 48, 48, 50, 0, 32, 92, 117, 48, 48, 48, 51, 0, 32,
   92, 117, 48, 48, 48, 52, 0, 32, 92, 117, 48, 48, 48, 53, 0, 32, 92, 117, 48, 48, 48, 54, 0, 32, 92, 117, 48, 48, 48, 55, 0, 32,
   92, 98, 0, 32, 32, 32, 32, 32, 92, 116, 0, 32, 32, 32, 32, 32, 92, 110, 0, 32, 32, 32, 32, 32, 92, 117, 48, 48, 48, 98, 0, 32,
   92, 102, 0, 32, 32, 32, 32, 32, 92, 114, 0, 32, 32, 32, 32, 32, 92, 117, 48, 48, 48, 101, 0, 32, 92, 117, 48, 48, 48, 102, 0, 32,
   92, 117, 48, 48, 49, 48, 0, 32, 92, 117, 48, 48, 49, 49, 0, 32, 92, 117, 48, 48, 49, 50, 0, 32, 92, 117, 48, 48, 49, 51, 0, 32,
   92, 117, 48, 48, 49, 52, 0, 32, 92, 117, 48, 48, 49, 53, 0, 32, 92, 117, 48, 48, 49, 54, 0, 32, 92, 117, 48, 48, 49, 55, 0, 32,
   92, 117, 48, 48, 49, 56, 0, 32, 92, 117, 48, 48, 49, 57, 0, 32, 92, 117, 48, 48, 49, 97, 0, 32, 92, 117, 48, 48, 49, 98, 0, 32,
   92, 117, 48, 48, 49, 99, 0, 32, 92, 117, 48, 48, 49, 100, 0, 32, 92, 117, 48, 48, 49, 101, 0, 32, 92, 117, 48, 48, 49, 102, 0, 32,
   32, 0, 32, 32, 32, 32, 32, 32, 33, 0, 32, 32, 32, 32, 32, 32, 92, 34, 0, 32, 32, 32, 32, 32, 35, 0, 32, 32, 32, 32, 32, 32,
   36, 0, 32, 32, 32, 32, 32, 32, 37, 0, 32, 32, 32, 32, 32, 32, 38, 0, 32, 32, 32, 32, 32, 32, 39, 0, 32, 32, 32, 32, 32, 32,
   40, 0, 32, 32, 32, 32, 32, 32, 41, 0, 32, 32, 32, 32, 32, 32, 42, 0, 32, 32, 32, 32, 32, 32, 43, 0, 32, 32, 32, 32, 32, 32,
   44, 0, 32, 32, 32, 32, 32, 32, 45, 0, 32, 32, 32, 32, 32, 32, 46, 0, 32, 32, 32, 32, 32, 32, 47, 0, 32, 32, 32, 32, 32, 32,
   48, 0, 32, 32, 32, 32, 32, 32, 49, 0, 32, 32, 32, 32, 32, 32, 50, 0, 32, 32, 32, 32, 32, 32, 51, 0, 32, 32, 32, 32, 32, 32,
   52, 0, 32, 32, 32, 32, 32, 32, 53, 0, 32, 32, 32, 32, 32, 32, 54, 0, 32, 32, 32, 32, 32, 32, 55, 0, 32, 32, 32, 32, 32, 32,
   56, 0, 32, 32, 32, 32, 32, 32, 57, 0, 32, 32, 32, 32, 32, 32, 58, 0, 32, 32, 32, 32, 32, 32, 59, 0, 32, 32, 32, 32, 32, 32,
   60, 0, 32, 32, 32, 32, 32, 32, 61, 0, 32, 32, 32, 32, 32, 32, 62, 0, 32, 32, 32, 32, 32, 32, 63, 0, 32, 32, 32, 32, 32, 32,
   64, 0, 32, 32, 32, 32, 32, 32, 65, 0, 32, 32, 32, 32, 32, 32, 66, 0, 32, 32, 32, 32, 32, 32, 67, 0, 32, 32, 32, 32, 32, 32,
   68, 0, 32, 32, 32, 32, 32, 32, 69, 0, 32, 32, 32, 32, 32, 32, 70, 0, 32, 32, 32, 32, 32, 32, 71, 0, 32, 32, 32, 32, 32, 32,
   72, 0, 32, 32, 32, 32, 32, 32, 73, 0, 32, 32, 32, 32, 32, 32, 74, 0, 32, 32, 32, 32, 32, 32, 75, 0, 32, 32, 32, 32, 32, 32,
   76, 0, 32, 32, 32, 32, 32, 32, 77, 0, 32, 32, 32, 32, 32, 32, 78, 0, 32, 32, 32, 32, 32, 32, 79, 0, 32, 32, 32, 32, 32, 32,
   80, 0, 32, 32, 32, 32, 32, 32, 81, 0, 32, 32, 32, 32, 32, 32, 82, 0, 32, 32, 32, 32, 32, 32, 83, 0, 32, 32, 32, 32, 32, 32,
   84, 0, 32, 32, 32, 32, 32, 32, 85, 0, 32, 32, 32, 32, 32, 32, 86, 0, 32, 32, 32, 32, 32, 32, 87, 0, 32, 32, 32, 32, 32, 32,
   88, 0, 32, 32, 32, 32, 32, 32, 89, 0, 32, 32, 32, 32, 32, 32, 90, 0, 32, 32, 32, 32, 32, 32, 91, 0, 32, 32, 32, 32, 32, 32,
   92, 92, 0, 32, 32, 32, 32, 32, 93, 0, 32, 32, 32, 32, 32, 32, 94, 0, 32, 32, 32, 32, 32, 32, 95, 0, 32, 32, 32, 32, 32, 32,
   96, 0, 32, 32, 32, 32, 32, 32, 97, 0, 32, 32, 32, 32, 32, 32, 98, 0, 32, 32, 32, 32, 32, 32, 99, 0, 32, 32, 32, 32, 32, 32,
   100, 0, 32, 32, 32, 32, 32, 32, 101, 0, 32, 32, 32, 32, 32, 32, 102, 0, 32, 32, 32, 32, 32, 32, 103, 0, 32, 32, 32, 32, 32, 32,
   104, 0, 32, 32, 32, 32, 32, 32, 105, 0, 32, 32, 32, 32, 32, 32, 106, 0, 32, 32, 32, 32, 32, 32, 107, 0, 32, 32, 32, 32, 32, 32,
   108, 0, 32, 32, 32, 32, 32, 32, 109, 0, 32, 32, 32, 32, 32, 32, 110, 0, 32, 32, 32, 32, 32, 32, 111, 0, 32, 32, 32, 32, 32, 32,
   112, 0, 32, 32, 32, 32, 32, 32, 113, 0, 32, 32, 32, 32, 32, 32, 114, 0, 32, 32, 32, 32, 32, 32, 115, 0, 32, 32, 32, 32, 32, 32,
   116, 0, 32, 32, 32, 32, 32, 32, 117, 0, 32, 32, 32, 32, 32, 32, 118, 0, 32, 32, 32, 32, 32, 32, 119, 0, 32, 32, 32, 32, 32, 32,
   120, 0, 32, 32, 32, 32, 32, 32, 121, 0, 32, 32, 32, 32, 32, 32, 122, 0, 32, 32, 32, 32, 32, 32, 123, 0, 32, 32, 32, 32, 32, 32,
   124, 0, 32, 32, 32, 32, 32, 32, 125, 0, 32, 32, 32, 32, 32, 32, 126, 0, 32, 32, 32, 32, 32, 32, 127, 0, 32, 32, 32, 32, 32, 32]

/-- The C string starting at `p`: the bytes read by `while (*chars != 0)`. -/
def cstr (mem : List Nat) (p : Nat) : List Nat :=
  (mem.drop p).takeWhile (fun b => b != 0)

/-- The text at `&JsonEscapeTable[c * kJsonEscapeTableEntrySize]`. -/
def escapeEntry (c : Nat) : List Nat :=
  cstr JsonEscapeTable (c * kJsonEscapeTableEntrySize)

/-- Both `DoNotEscape` specialisations; `two_byte` selects the `uc16` one. -/
def DoNotEscape (two_byte : Bool) (c : Nat) : Bool :=
  if two_byte then
    (c ≥ 0x80) || (c ≥ 0x23 && c ≤ 0x7E && c != 0x5C)
  else
    c ≥ 0x23 && c ≤ 0x7E && c != 0x5C

/-! ## Host strings and the output accumulator -/

/-- A flat host string: its representation (`flat.IsAscii()` is `!two_byte`)
and its code units; the `char` vector of an ASCII string holds values below 128. -/
structure HString where
  two_byte : Bool
  units : List Nat
  ascii : two_byte = false → ∀ c ∈ units, c < 128
  deriving DecidableEq, Repr

/-- A sequential string used as an output part. -/
structure Part where
  two_byte : Bool
  chars : List Nat
  deriving DecidableEq, Repr

/-- The accumulator fields of `BasicJsonStringifier`: `accumulator()` (the cons
string, kept as the list of parts consed so far), `current_part_`,
`current_index_`, `part_length_`, `is_ascii_`. -/
structure Builder where
  accumulator : List Part
  current_part : Part
  current_index : Nat
  part_length : Nat
  is_ascii : Bool
  deriving DecidableEq, Repr

/-- `NewRawAsciiString(n)` / `NewRawTwoByteString(n)`: `n` units, contents unspecified (zeros). -/
def NewRawString (two_byte : Bool) (n : Nat) : Part :=
  { two_byte := two_byte, chars := List.replicate n 0 }

/-- The accumulator part of the constructor. -/
def Builder.init : Builder :=
  { accumulator := [], current_part := NewRawString false kInitialPartLength,
    current_index := 0, part_length := kInitialPartLength, is_ascii := true }

/-- The logical output: the consed parts followed by `current_part_[0 .. current_index_)`. -/
def Builder.output (b : Builder) : List Nat :=
  (b.accumulator.map Part.chars).flatten ++ b.current_part.chars.take b.current_index

/-- Two's-complement wrap of an `int` expression. -/
def wrap32 (x : Int) : Int := (x + 2147483648) % 4294967296 - 2147483648

/-- One store `dest[i] = c`; `none` when `i` is outside the part. -/
def store (dest : List Nat) (i c : Nat) : Option (List Nat) :=
  if i < dest.length then some (dest.set i c) else none

/-- `Extend<is_ascii>()`. -/
def Extend (is_ascii : Bool) (b : Builder) : Builder :=
  let part_length :=
    if b.part_length ≤ kMaxPartLength / kPartLengthGrowthFactor
    then b.part_length * kPartLengthGrowthFactor else b.part_length
  { b with
    accumulator := b.accumulator ++ [b.current_part]
    part_length := part_length
    current_part := NewRawString (!is_ascii) part_length
    current_index := 0 }

/-- `Append_<is_ascii, Char>(Char c)`. -/
def Append_ (is_ascii : Bool) (c : Nat) (b : Builder) : Option Builder :=
  match store b.current_part.chars b.current_index c with
  | none => none
  | some chars =>
    let b1 := { b with current_part := { b.current_part with chars := chars },
                       current_index := b.current_index + 1 }
    some (if b1.current_index = b1.part_length then Extend is_ascii b1 else b1)

/-- `Append_<is_ascii, Char>(const Char* chars)`, on the text before the NUL. -/
def Append_chars (is_ascii : Bool) : List Nat → Builder → Option Builder
  | [], b => some b
  | c :: cs, b =>
    match Append_ is_ascii c b with
    | none => none
    | some b1 => Append_chars is_ascii cs b1

/-- `Append(char c)`. -/
def Append (c : Nat) (b : Builder) : Option Builder :=
  if b.is_ascii then Append_ true c b else Append_ false c b

/-- `Append(const char* chars)`. -/
def Append_str (chars : List Nat) (b : Builder) : Option Builder :=
  if b.is_ascii then Append_chars true chars b else Append_chars false chars b

/-- `ShrinkCurrentPart()` (the debug assertion is `ShrinkAssert`). -/
def ShrinkCurrentPart (b : Builder) : Builder :=
  if b.current_index = 0 then
    { b with current_part := { two_byte := false, chars := [] } }
  else
    { b with current_part := { b.current_part with chars := b.current_part.chars.take b.current_index } }

/-- The `ASSERT(current_index_ < part_length_)` at the head of `ShrinkCurrentPart`. -/
def ShrinkAssert (b : Builder) : Bool := decide (b.current_index < b.part_length)

/-- `ChangeEncoding()`. -/
def ChangeEncoding (b : Builder) : Builder :=
  let b1 := ShrinkCurrentPart b
  { b1 with
    accumulator := b1.accumulator ++ [b1.current_part]
    current_part := NewRawString true b1.part_length
    current_index := 0
    is_ascii := false }

/-! ## String emitter -/

/-- The copy loop `while (*chars != 0) *(dest++) = *(chars++)`: stores `cs` from
index `i` on and returns the new `dest` index. -/
def storeAll : List Nat → List Nat → Nat → Option (List Nat × Nat)
  | [], dest, i => some (dest, i)
  | c :: cs, dest, i =>
    match store dest i c with
    | none => none
    | some dest1 => storeAll cs dest1 (i + 1)

/-- The `for` loop of `SerializeStringUnchecked_`. -/
def uncheckedLoop (two_byte_src : Bool) : List Nat → List Nat → Nat → Option (List Nat × Nat)
  | [], dest, i => some (dest, i)
  | c :: src, dest, i =>
    if DoNotEscape two_byte_src c then
      match store dest i c with
      | none => none
      | some dest1 => uncheckedLoop two_byte_src src dest1 (i + 1)
    else
      match storeAll (escapeEntry c) dest i with
      | none => none
      | some (dest1, i1) => uncheckedLoop two_byte_src src dest1 i1

/-- `SerializeStringUnchecked_<SrcChar, DestChar>(src, dest, length)`; `dest` is
the character array of `current_part_`. -/
def SerializeStringUnchecked_ (two_byte_src : Bool) (src : List Nat) (b : Builder) :
    Option Builder :=
  match store b.current_part.chars b.current_index 0x22 with
  | none => none
  | some dest1 =>
    match uncheckedLoop two_byte_src src dest1 (b.current_index + 1) with
    | none => none
    | some (dest2, i2) =>
      match store dest2 i2 0x22 with
      | none => none
      | some dest3 =>
        some { b with current_part := { b.current_part with chars := dest3 },
                      current_index := b.current_index + (i2 + 1 - b.current_index) }

/-- The checked `for` loop of `SerializeString_`. -/
def checkedLoop (is_ascii two_byte_src : Bool) : List Nat → Builder → Option Builder
  | [], b => some b
  | c :: src, b =>
    match (if DoNotEscape two_byte_src c then Append_ is_ascii c b
           else Append_chars is_ascii (escapeEntry c) b) with
    | none => none
    | some b1 => checkedLoop is_ascii two_byte_src src b1

/-- The fast-path test `current_index_ + (length << 3) + kEnclosingQuotesLength < part_length_`
in `int` arithmetic. -/
def fastPathTest (current_index length part_length : Nat) : Bool :=
  decide (wrap32 (wrap32 ((current_index : Int) + wrap32 ((length : Int) * 8)) + 2)
    < (part_length : Int))

/-- `SerializeString_<is_ascii, Char>(vector, string)`. -/
def SerializeString_ (is_ascii two_byte_src : Bool) (vector : List Nat) (b : Builder) :
    Option Builder :=
  if fastPathTest b.current_index vector.length b.part_length then
    SerializeStringUnchecked_ two_byte_src vector b
  else
    match Append_ is_ascii 0x22 b with
    | none => none
    | some b1 =>
      match checkedLoop is_ascii two_byte_src vector b1 with
      | none => none
      | some b2 => Append_ is_ascii 0x22 b2

/-- `SerializeString(object)`. The recursive call after `ChangeEncoding()` runs
with `is_ascii_` false, so it is the two-byte branch. -/
def SerializeString (s : HString) (b : Builder) : Option Builder :=
  if b.is_ascii then
    if !s.two_byte then SerializeString_ true false s.units b
    else SerializeString_ false true s.units (ChangeEncoding b)
  else
    if !s.two_byte then SerializeString_ false false s.units b
    else SerializeString_ false true s.units b

/-! ## Host values -/

/-- A `double`, as far as the serializer looks at it: `isinf`, `isnan`, or a
finite number known to the host formatter by `id`. -/
inductive Dbl
  | finite (id : Nat)
  | infinite
  | nan
  deriving DecidableEq, Repr

/-- `Oddball::kind()`. -/
inductive OddballKind
  | kFalse | kTrue | kTheHole | kNull | kArgumentMarker | kUndefined | kOther
  deriving DecidableEq, Repr

/-- A `Handle<Object>`: a Smi, a heap number, a string, an oddball, a `JSObject`
(by identity) or any other heap object. -/
inductive Value
  | Smi (value : Int)
  | HeapNumber (value : Dbl)
  | String (s : HString)
  | Oddball (kind : OddballKind)
  | JSObject (id : Nat)
  | Other
  deriving DecidableEq, Repr

/-- A key of `GetKeysInFixedArrayFor`: a string or a number (an element index). -/
inductive Key
  | name (s : HString)
  | index (i : Nat)
  deriving DecidableEq, Repr

/-- The elements of a `JSArray` by `GetElementsKind()`; `OTHER` stands for every
kind handled by the `default:` case, its list being what `GetElement` returns
(a hole reads as undefined). -/
inductive Elements
  | FAST_SMI_ELEMENTS (elements : List Int)
  | FAST_DOUBLE_ELEMENTS (elements : List Dbl)
  | FAST_ELEMENTS (elements : List Value)
  | OTHER (elements : List Value)
  deriving DecidableEq, Repr

/-- The result of `Execution::ToNumber`. -/
inductive Num
  | Smi (value : Int)
  | HeapNumber (value : Dbl)
  deriving DecidableEq, Repr

/-- What a `JSObject` is: a function, an array, a `JSValue` wrapper by class
name (with the outcome of its `ToString` / `ToNumber` conversion, `none` when
the conversion raises), or a plain object. -/
inductive Shape
  | JSFunction
  | JSArray (elements : Elements)
  | JSValue_String (to_string : Option HString)
  | JSValue_Number (to_number : Option Num)
  | JSValue_Boolean (value : Bool)
  | JSObject
  deriving DecidableEq, Repr

/-- A heap object as the serializer sees it.
* `toJSON`: the value of the property found by `LookupRealNamedProperty(toJSON)`;
* `global_proxy`: the prototype of a `JSGlobalProxy`;
* `keys`: `GetKeysInFixedArrayFor(object, LOCAL_ONLY)`, `none` when it raises;
* `props`: own properties and elements, `none` for a fetch that raises. -/
structure HeapObject where
  shape : Shape
  toJSON : Option Value
  global_proxy : Option Nat
  keys : Option (List Key)
  props : List (Key × Option Value)
  deriving Repr

/-- The JavaScript heap: the object behind each identity. -/
abbrev Heap := Nat → HeapObject

/-- The collaborators of the serializer that live in the host:
`IntToCString`, `DoubleToCString`, `Execution::Call` (function, receiver, one
argument; `none` when the call raises; the call may change the heap) and
`StackLimitCheck::HasOverflowed`, asked at a given depth of the cycle stack. -/
structure Host where
  IntToCString : Int → List Nat
  DoubleToCString : Dbl → List Nat
  Call : Heap → Value → Value → Value → Option (Value × Heap)
  HasOverflowed : Nat → Bool

/-- The outcome of running serializer code: a value, a memory fault (a store
outside the active part, or a cast the source does not check), or out of fuel. -/
inductive Run (α : Type)
  | done (a : α)
  | fault
  | timeout
  deriving DecidableEq, Repr

/-- The mutable state of a serialization: the accumulator, the cycle stack
`stack_` (top at the end) and the heap. -/
structure State where
  builder : Builder
  stack : List Nat
  heap : Heap

/-- The constructor `BasicJsonStringifier(isolate)` on a given heap. -/
def State.init (heap : Heap) : State :=
  { builder := Builder.init, stack := [], heap := heap }

/-- The decimal digits (as numbers) of `n` before `acc`, most significant first. -/
def decimalAux : Nat → Nat → List Nat → List Nat
  | 0, _, acc => acc
  | fuel + 1, n, acc =>
    if n / 10 = 0 then (n % 10) :: acc
    else decimalAux fuel (n / 10) ((n % 10) :: acc)

/-- Decimal digits of a natural number as code units `0x30 + digit`. -/
def decimal (n : Nat) : List Nat := (decimalAux (n + 1) n []).map (fun d => 0x30 + d % 10)

/-- The decimal text of an integer: a minus sign for a negative one, then the digits. -/
def decimalText (i : Int) : List Nat :=
  if i < 0 then 0x2D :: decimal i.natAbs else decimal i.natAbs

/-- Modelled from the spec: `Factory::NumberToString` on an integer key is absent
from the sources; the key is converted to its decimal text (an ASCII string). -/
def NumberToString (i : Int) : HString :=
  { two_byte := false
    units := decimalText i
    ascii := by
      intro _ c hc
      unfold decimalText decimal at hc
      split at hc
      · rcases List.mem_cons.mp hc with rfl | hc
        · decide
        · obtain ⟨d, _, rfl⟩ := List.mem_map.mp hc
          omega
      · obtain ⟨d, _, rfl⟩ := List.mem_map.mp hc
        omega }

/-- The empty string of the factory. -/
def empty_string : HString :=
  { two_byte := false, units := [], ascii := by simp }

def Value.IsJSObject : Value → Bool
  | .JSObject _ => true
  | _ => false

def IsJSFunction (heap : Heap) : Value → Bool
  | .JSObject id => (heap id).shape == Shape.JSFunction
  | _ => false

/-- Runs an accumulator operation inside a state. -/
def State.build (st : State) (op : Builder → Option Builder) : Run State :=
  match op st.builder with
  | none => .fault
  | some b => .done { st with builder := b }

/-! ## Cycle stack -/

/-- `StackPush(object)`. -/
def StackPush (host : Host) (object : Nat) (st : State) : Result × State :=
  if host.HasOverflowed st.stack.length then (.STACK_OVERFLOW, st)
  else if st.stack.any (fun e => e == object) then (.CIRCULAR, st)
  else (.SUCCESS, { st with stack := st.stack ++ [object] })

/-- `StackPop()`. -/
def StackPop (st : State) : State :=
  { st with stack := st.stack.take (st.stack.length - 1) }

/-! ## Value serializer -/

/-- The argument of the `toJSON` call: `if (key->IsSmi()) key = NumberToString(key)`. -/
def toJsonArgument (key : Value) : Value :=
  match key with
  | .Smi i => .String (NumberToString i)
  | k => k

/-- `ApplyToJsonFunction(object, key)`; `none` is the empty handle that signals
an exception. -/
def ApplyToJsonFunction (host : Host) (heap : Heap) (object : Nat) (key : Value) :
    Option (Value × Heap) :=
  match (heap object).toJSON with
  | none => some (.JSObject object, heap)
  | some func =>
    if !IsJSFunction heap func then some (.JSObject object, heap)
    else host.Call heap func (.JSObject object) (toJsonArgument key)

/-- `SerializeDeferredKey(deferred_comma, deferred_key)`. -/
def SerializeDeferredKey (deferred_comma : Bool) (deferred_key : Value) (st : State) :
    Run State :=
  match deferred_key with
  | .String key =>
    match (if deferred_comma then st.build (Append 0x2C) else .done st) with
    | .done st1 =>
      match st1.build (SerializeString key) with
      | .done st2 => st2.build (Append 0x3A)
      | .fault => .fault
      | .timeout => .timeout
    | .fault => .fault
    | .timeout => .timeout
  | _ => .fault

/-- `SerializeSmi(object)`. -/
def SerializeSmi (host : Host) (value : Int) (st : State) : Run (Result × State) :=
  match st.build (Append_str (host.IntToCString value)) with
  | .done st1 => .done (.SUCCESS, st1)
  | .fault => .fault
  | .timeout => .timeout

def str_null : List Nat := [0x6E, 0x75, 0x6C, 0x6C]

def str_true : List Nat := [0x74, 0x72, 0x75, 0x65]

def str_false : List Nat := [0x66, 0x61, 0x6C, 0x73, 0x65]

def Dbl.isinf : Dbl → Bool
  | .infinite => true
  | _ => false

def Dbl.isnan : Dbl → Bool
  | .nan => true
  | _ => false

/-- `SerializeDouble(number)` (and `SerializeHeapNumber`). -/
def SerializeDouble (host : Host) (number : Dbl) (st : State) : Run (Result × State) :=
  if number.isinf || number.isnan then
    match st.build (Append_str str_null) with
    | .done st1 => .done (.SUCCESS, st1)
    | .fault => .fault
    | .timeout => .timeout
  else
    match st.build (Append_str (host.DoubleToCString number)) with
    | .done st1 => .done (.SUCCESS, st1)
    | .fault => .fault
    | .timeout => .timeout

/-- `SerializeJSValue(object)` by class name. -/
def SerializeJSValue (host : Host) (shape : Shape) (st : State) : Run (Result × State) :=
  match shape with
  | .JSValue_String none => .done (.EXCEPTION, st)
  | .JSValue_String (some value) =>
    match st.build (SerializeString value) with
    | .done st1 => .done (.SUCCESS, st1)
    | .fault => .fault
    | .timeout => .timeout
  | .JSValue_Number none => .done (.EXCEPTION, st)
  | .JSValue_Number (some (.Smi value)) => SerializeSmi host value st
  | .JSValue_Number (some (.HeapNumber value)) =>
    match SerializeDouble host value st with
    | .done (_, st1) => .done (.SUCCESS, st1)
    | .fault => .fault
    | .timeout => .timeout
  | .JSValue_Boolean value =>
    match st.build (Append_str (if value then str_true else str_false)) with
    | .done st1 => .done (.SUCCESS, st1)
    | .fault => .fault
    | .timeout => .timeout
  | _ => .fault

/-- The recursive entry `Serialize_<deferred_string_key>(object, comma, key)` as seen
by the array and object serializers. -/
abbrev Recurse := Bool → Value → Bool → Value → State → Run (Result × State)

/-- The logical elements of an array. -/
def Elements.toList : Elements → List Value
  | .FAST_SMI_ELEMENTS es => es.map Value.Smi
  | .FAST_DOUBLE_ELEMENTS es => es.map Value.HeapNumber
  | .FAST_ELEMENTS es => es
  | .OTHER es => es

/-- `Object::GetElement(object, index)`: an array element (undefined past the
end or at a hole), or the indexed property of an object; `none` when it raises. -/
def GetElement (heap : Heap) (object : Nat) (index : Nat) : Option Value :=
  match (heap object).shape with
  | .JSArray elements => some (elements.toList.getD index (.Oddball .kUndefined))
  | _ =>
    match (heap object).props.lookup (Key.index index) with
    | none => some (.Oddball .kUndefined)
    | some property => property

/-- `GetProperty(object, key)`: undefined when the object has no such own
property; `none` when the fetch raises. -/
def GetProperty (heap : Heap) (object : Nat) (key : HString) : Option Value :=
  match (heap object).props.lookup (Key.name key) with
  | none => some (.Oddball .kUndefined)
  | some property => property

/-- The separator `if (i > 0) Append(',')` of the array loops. -/
def appendSeparator (i : Nat) (st : State) : Run State :=
  if i > 0 then st.build (Append 0x2C) else .done st

/-- The `FAST_SMI_ELEMENTS` loop, from index `i`. -/
def smiLoop (host : Host) : List Int → Nat → State → Run State
  | [], _, st => .done st
  | e :: es, i, st =>
    match appendSeparator i st with
    | .done st1 =>
      match SerializeSmi host e st1 with
      | .done (_, st2) => smiLoop host es (i + 1) st2
      | .fault => .fault
      | .timeout => .timeout
    | .fault => .fault
    | .timeout => .timeout

/-- The `FAST_DOUBLE_ELEMENTS` loop, from index `i`. -/
def doubleLoop (host : Host) : List Dbl → Nat → State → Run State
  | [], _, st => .done st
  | e :: es, i, st =>
    match appendSeparator i st with
    | .done st1 =>
      match SerializeDouble host e st1 with
      | .done (_, st2) => doubleLoop host es (i + 1) st2
      | .fault => .fault
      | .timeout => .timeout
    | .fault => .fault
    | .timeout => .timeout

/-- `SerializeElement(object, i)`. -/
def SerializeElement (recurse : Recurse) (object : Value) (i : Nat) (st : State) :
    Run (Result × State) :=
  recurse false object false (.Smi i) st

/-- What the array loops do with the result of `SerializeElement`: `none` to go
on with the next element, `some r` to return `r`. -/
def elementResult (r : Result) (st : State) : Run (Option Result × State) :=
  if r = .SUCCESS then .done (none, st)
  else if r = .UNCHANGED then
    match st.build (Append_str str_null) with
    | .done st1 => .done (none, st1)
    | .fault => .fault
    | .timeout => .timeout
  else .done (some r, st)

/-- The `FAST_ELEMENTS` loop over the elements array taken before the loop, from
index `i`; the result `SUCCESS` is the `break` at the end of the loop. -/
def elementsLoop (recurse : Recurse) : List Value → Nat → State → Run (Result × State)
  | [], _, st => .done (.SUCCESS, st)
  | e :: es, i, st =>
    match appendSeparator i st with
    | .done st1 =>
      match SerializeElement recurse e i st1 with
      | .done (r, st2) =>
        match elementResult r st2 with
        | .done (none, st3) => elementsLoop recurse es (i + 1) st3
        | .done (some r1, st3) => .done (r1, st3)
        | .fault => .fault
        | .timeout => .timeout
      | .fault => .fault
      | .timeout => .timeout
    | .fault => .fault
    | .timeout => .timeout

/-- `SerializeJSArraySlow(object, length)`: the loop from index `i` with
`remaining = length - i` iterations to go; each element is read from the
current heap. -/
def SerializeJSArraySlow (recurse : Recurse) (object : Nat) :
    Nat → Nat → State → Run (Result × State)
  | 0, _, st => .done (.SUCCESS, st)
  | remaining + 1, i, st =>
    match appendSeparator i st with
    | .done st1 =>
      match GetElement st1.heap object i with
      | none => .fault
      | some element =>
        if element = .Oddball .kUndefined then
          match st1.build (Append_str str_null) with
          | .done st2 => SerializeJSArraySlow recurse object remaining (i + 1) st2
          | .fault => .fault
          | .timeout => .timeout
        else
          match SerializeElement recurse element i st1 with
          | .done (r, st2) =>
            match elementResult r st2 with
            | .done (none, st3) => SerializeJSArraySlow recurse object remaining (i + 1) st3
            | .done (some r1, st3) => .done (r1, st3)
            | .fault => .fault
            | .timeout => .timeout
          | .fault => .fault
          | .timeout => .timeout
    | .fault => .fault
    | .timeout => .timeout

/-- The `switch (object->GetElementsKind())` of `SerializeJSArray`. -/
def arrayBody (host : Host) (recurse : Recurse) (object : Nat) (elements : Elements)
    (st : State) : Run (Result × State) :=
  match elements with
  | .FAST_SMI_ELEMENTS es =>
    match smiLoop host es 0 st with
    | .done st1 => .done (.SUCCESS, st1)
    | .fault => .fault
    | .timeout => .timeout
  | .FAST_DOUBLE_ELEMENTS es =>
    match doubleLoop host es 0 st with
    | .done st1 => .done (.SUCCESS, st1)
    | .fault => .fault
    | .timeout => .timeout
  | .FAST_ELEMENTS es => elementsLoop recurse es 0 st
  | .OTHER es => SerializeJSArraySlow recurse object es.length 0 st

/-- `SerializeJSArray(object)`. -/
def SerializeJSArray (host : Host) (recurse : Recurse) (object : Nat) (elements : Elements)
    (st : State) : Run (Result × State) :=
  match StackPush host object st with
  | (.SUCCESS, st0) =>
    match st0.build (Append 0x5B) with
    | .done st1 =>
      match arrayBody host recurse object elements st1 with
      | .done (.SUCCESS, st2) =>
        match st2.build (Append 0x5D) with
        | .done st3 => .done (.SUCCESS, StackPop st3)
        | .fault => .fault
        | .timeout => .timeout
      | .done (r, st2) => .done (r, st2)
      | .fault => .fault
      | .timeout => .timeout
    | .fault => .fault
    | .timeout => .timeout
  | (stack_push, st0) => .done (stack_push, st0)

/-- The key handle and the property fetched for one key of `contents`. -/
def fetchProperty (heap : Heap) (object : Nat) : Key → HString × Option Value
  | .name s => (s, GetProperty heap object s)
  | .index i => (NumberToString i, GetElement heap object i)

/-- `SerializeProperty(object, deferred_comma, deferred_key)`. -/
def SerializeProperty (recurse : Recurse) (object : Value) (deferred_comma : Bool)
    (deferred_key : HString) (st : State) : Run (Result × State) :=
  recurse true object deferred_comma (.String deferred_key) st

/-- The `for` loop of `SerializeJSObject` over `contents`, with the current `comma`;
the result `SUCCESS` is the normal end of the loop. -/
def propertiesLoop (recurse : Recurse) (object : Nat) :
    List Key → Bool → State → Run (Result × State)
  | [], _, st => .done (.SUCCESS, st)
  | key :: contents, comma, st =>
    match fetchProperty st.heap object key with
    | (_, none) => .done (.EXCEPTION, st)
    | (key_handle, some property) =>
      match SerializeProperty recurse property comma key_handle st with
      | .done (result, st1) =>
        let comma1 := if !comma && result = .SUCCESS then true else comma
        if result.toNat ≥ Result.EXCEPTION.toNat then .done (result, st1)
        else propertiesLoop recurse object contents comma1 st1
      | .fault => .fault
      | .timeout => .timeout

/-- `SerializeJSObject(object)`. -/
def SerializeJSObject (host : Host) (recurse : Recurse) (object : Nat) (st : State) :
    Run (Result × State) :=
  match StackPush host object st with
  | (.SUCCESS, st0) =>
    let object := match (st0.heap object).global_proxy with
      | some prototype => prototype
      | none => object
    match (st0.heap object).keys with
    | none => .done (.EXCEPTION, st0)
    | some contents =>
      match st0.build (Append 0x7B) with
      | .done st1 =>
        match propertiesLoop recurse object contents false st1 with
        | .done (.SUCCESS, st2) =>
          match st2.build (Append 0x7D) with
          | .done st3 => .done (.SUCCESS, StackPop st3)
          | .fault => .fault
          | .timeout => .timeout
        | .done (r, st2) => .done (r, st2)
        | .fault => .fault
        | .timeout => .timeout
      | .fault => .fault
      | .timeout => .timeout
  | (stack_push, st0) => .done (stack_push, st0)

/-- `if (deferred_string_key) SerializeDeferredKey(comma, key)`. -/
def deferredKey (deferred_string_key : Bool) (comma : Bool) (key : Value) (st : State) :
    Run State :=
  if deferred_string_key then SerializeDeferredKey comma key st else .done st

/-- The body of `Serialize_` after the `toJSON` step: the dispatch on `object`. -/
def dispatch (host : Host) (recurse : Recurse) (deferred_string_key : Bool)
    (object : Value) (comma : Bool) (key : Value) (st : State) : Run (Result × State) :=
  match object with
  | .JSObject id =>
    match (st.heap id).shape with
    | .JSFunction => .done (.UNCHANGED, st)
    | .JSArray elements =>
      match deferredKey deferred_string_key comma key st with
      | .done st1 => SerializeJSArray host recurse id elements st1
      | .fault => .fault
      | .timeout => .timeout
    | .JSObject =>
      match deferredKey deferred_string_key comma key st with
      | .done st1 => SerializeJSObject host recurse id st1
      | .fault => .fault
      | .timeout => .timeout
    | shape =>
      match deferredKey deferred_string_key comma key st with
      | .done st1 => SerializeJSValue host shape st1
      | .fault => .fault
      | .timeout => .timeout
  | .String s =>
    match deferredKey deferred_string_key comma key st with
    | .done st1 =>
      match st1.build (SerializeString s) with
      | .done st2 => .done (.SUCCESS, st2)
      | .fault => .fault
      | .timeout => .timeout
    | .fault => .fault
    | .timeout => .timeout
  | .Smi value =>
    match deferredKey deferred_string_key comma key st with
    | .done st1 => SerializeSmi host value st1
    | .fault => .fault
    | .timeout => .timeout
  | .HeapNumber value =>
    match deferredKey deferred_string_key comma key st with
    | .done st1 => SerializeDouble host value st1
    | .fault => .fault
    | .timeout => .timeout
  | .Oddball kind =>
    let literal : Option (List Nat) := match kind with
      | .kFalse => some str_false
      | .kTrue => some str_true
      | .kNull => some str_null
      | _ => none
    match literal with
    | none => .done (.UNCHANGED, st)
    | some text =>
      match deferredKey deferred_string_key comma key st with
      | .done st1 =>
        match st1.build (Append_str text) with
        | .done st2 => .done (.SUCCESS, st2)
        | .fault => .fault
        | .timeout => .timeout
      | .fault => .fault
      | .timeout => .timeout
  | .Other => .done (.UNCHANGED, st)

/-- The `toJSON` step at the head of `Serialize_`: `none` is the exception. -/
def toJsonStep (host : Host) (object : Value) (key : Value) (st : State) :
    Option (Value × State) :=
  match object with
  | .JSObject id =>
    match ApplyToJsonFunction host st.heap id key with
    | none => none
    | some (object1, heap1) => some (object1, { st with heap := heap1 })
  | _ => some (object, st)

/-- `Serialize_<deferred_string_key>(object, comma, key)`; `fuel` bounds the depth
of the recursion through arrays and objects. -/
def Serialize_ (host : Host) : Nat → Recurse
  | 0, _, _, _, _, _ => .timeout
  | fuel + 1, deferred_string_key, object, comma, key, st =>
    match toJsonStep host object key st with
    | none => .done (.EXCEPTION, st)
    | some (object1, st1) =>
      dispatch host (Serialize_ host fuel) deferred_string_key object1 comma key st1

/-- `SerializeObject(obj)`: the entry point, with the empty string as key. -/
def SerializeObject (host : Host) (fuel : Nat) (obj : Value) (st : State) :
    Run (Result × State) :=
  Serialize_ host fuel false obj false (.String empty_string) st

/-- What `Stringify` hands back to its caller. -/
inductive Returned
  | undefined
  | string (two_byte : Bool) (chars : List Nat)
  | throw_circular_structure
  | stack_overflow
  | exception
  deriving DecidableEq, Repr

/-- `NewConsString(accumulator(), current_part_)` as a flat string. -/
def NewConsString (b : Builder) : Returned :=
  .string ((b.accumulator ++ [b.current_part]).any Part.two_byte)
    ((b.accumulator ++ [b.current_part]).map Part.chars).flatten

/-- `Stringify(object)` on a fresh stringifier. -/
def Stringify (host : Host) (fuel : Nat) (object : Value) (heap : Heap) : Run Returned :=
  match SerializeObject host fuel object (State.init heap) with
  | .done (.UNCHANGED, _) => .done .undefined
  | .done (.SUCCESS, st) => .done (NewConsString (ShrinkCurrentPart st.builder))
  | .done (.CIRCULAR, _) => .done .throw_circular_structure
  | .done (.STACK_OVERFLOW, _) => .done .stack_overflow
  | .done (.EXCEPTION, _) => .done .exception
  | .fault => .fault
  | .timeout => .timeout

/-! ## The accumulator invariant and the logical output -/

/-- The escaped text of a sequence of code units. -/
def escaped (two_byte_src : Bool) (units : List Nat) : List Nat :=
  units.flatMap (fun c => if DoNotEscape two_byte_src c then [c] else escapeEntry c)

/-- The JSON string literal the serializer writes for a host string. -/
def quoted (s : HString) : List Nat := 0x22 :: escaped s.two_byte s.units ++ [0x22]

/-- The accumulator invariant: the active part has `part_length_` units, the
cursor is inside it and `part_length_` is at most `kMaxPartLength`. -/
structure Builder.WF (b : Builder) : Prop where
  length_eq : b.current_part.chars.length = b.part_length
  index_lt : b.current_index < b.part_length
  length_le : b.part_length ≤ kMaxPartLength

/-- Length up to which the fast-path test of `SerializeString_` cannot wrap. -/
def maxSafeLength : Nat := 268433408

/-- An ASCII string of `2^28` letters `a`. -/
def longString : HString :=
  { two_byte := false
    units := List.replicate 268435456 0x61
    ascii := by
      intro _ c hc
      rw [List.eq_of_mem_replicate hc]
      decide }

/-! ## What a serialization appends -/

/-- Texts joined by single commas; `first` tells whether the first text starts the list. -/
def commaSep : Bool → List (List Nat) → List Nat
  | _, [] => []
  | first, t :: ts => (if first then [] else [0x2C]) ++ t ++ commaSep false ts

/-- The text of one object member: the key as a JSON string, a colon, the value text. -/
def memberText (m : HString × List Nat) : List Nat := quoted m.1 ++ 0x3A :: m.2

/-- The deferred `[,]"key":` written in front of a property value. -/
def keyPrefix (deferred_string_key comma : Bool) (key : Value) : List Nat :=
  if deferred_string_key then
    match key with
    | .String s => (if comma then [0x2C] else []) ++ quoted s ++ [0x3A]
    | _ => []
  else []

/-- The texts a successful value serialization can append. -/
inductive Emitted (host : Host) : List Nat → Prop
  | null : Emitted host str_null
  | true_ : Emitted host str_true
  | false_ : Emitted host str_false
  | smi (i : Int) : Emitted host (host.IntToCString i)
  | double (id : Nat) : Emitted host (host.DoubleToCString (.finite id))
  | string (s : HString) : Emitted host (quoted s)
  | array (items : List (List Nat)) (h : ∀ t ∈ items, Emitted host t) :
      Emitted host (0x5B :: commaSep true items ++ [0x5D])
  | object (members : List (HString × List Nat)) (h : ∀ m ∈ members, Emitted host m.2) :
      Emitted host (0x7B :: commaSep true (members.map memberText) ++ [0x7D])

/-- The postcondition of one `Serialize_` call from `st` to `st1` with result `r`. -/
structure Post (host : Host) (deferred_string_key comma : Bool) (key : Value)
    (st : State) (r : Result) (st1 : State) : Prop where
  wf : st1.builder.WF
  unchanged : r = .UNCHANGED → st1.builder = st.builder ∧ st1.stack = st.stack
  success : r = .SUCCESS → st1.stack = st.stack ∧ ∃ text, Emitted host text ∧
    st1.builder.output = st.builder.output ++ keyPrefix deferred_string_key comma key ++ text

/-- A recursive entry all of whose completed calls satisfy `Post`. -/
def RecOK (host : Host) (recurse : Recurse) : Prop :=
  ∀ d object comma key st r st1, st.builder.WF →
    recurse d object comma key st = .done (r, st1) → Post host d comma key st r st1

/-- The postcondition of a value serializer that never answers `UNCHANGED`. -/
structure ValPost (host : Host) (st : State) (r : Result) (st1 : State) : Prop where
  wf : st1.builder.WF
  changed : r ≠ .UNCHANGED
  success : r = .SUCCESS → st1.stack = st.stack ∧ ∃ text, Emitted host text ∧
    st1.builder.output = st.builder.output ++ text

/-- The text `SerializeDouble` appends. -/
def doubleText (host : Host) (number : Dbl) : List Nat :=
  if number.isinf || number.isnan then str_null else host.DoubleToCString number

/-! ## The JSON grammar (ECMA-404, without insignificant whitespace) -/

def isDigit (c : Nat) : Bool := 0x30 ≤ c && c ≤ 0x39

def isHexDigit (c : Nat) : Bool :=
  isDigit c || (0x41 ≤ c && c ≤ 0x46) || (0x61 ≤ c && c ≤ 0x66)

/-- The characters that may follow a backslash on their own: `" \\ / b f n r t`. -/
def isSimpleEscape (c : Nat) : Bool :=
  c == 0x22 || c == 0x5C || c == 0x2F || c == 0x62 || c == 0x66 || c == 0x6E
    || c == 0x72 || c == 0x74

/-- The body of a JSON string literal: unescaped code units from 0x20 on other
than the quote and the backslash, two-character escapes and `\\uXXXX`. -/
def jsonChars : List Nat → Bool
  | [] => true
  | c :: rest =>
    if c = 0x5C then
      match rest with
      | [] => false
      | e :: rest1 =>
        if isSimpleEscape e then jsonChars rest1
        else if e = 0x75 then
          match rest1 with
          | a :: b :: x :: y :: rest2 =>
            isHexDigit a && isHexDigit b && isHexDigit x && isHexDigit y && jsonChars rest2
          | _ => false
        else false
    else 0x20 ≤ c && c != 0x22 && jsonChars rest

/-- A JSON string literal. -/
def JsonString (t : List Nat) : Prop :=
  ∃ body, t = 0x22 :: body ++ [0x22] ∧ jsonChars body = true

/-- One or more digits and nothing else. -/
def jsonDigits (t : List Nat) : Bool := !t.isEmpty && t.all isDigit

/-- The optional exponent at the end of a number. -/
def jsonExponent : List Nat → Bool
  | [] => true
  | c :: rest =>
    (c == 0x65 || c == 0x45) &&
      match rest with
      | [] => false
      | s :: rest1 => if s == 0x2B || s == 0x2D then jsonDigits rest1 else jsonDigits rest

/-- The optional fraction and exponent at the end of a number. -/
def jsonFraction : List Nat → Bool
  | 0x2E :: rest =>
    !(rest.takeWhile isDigit).isEmpty && jsonExponent (rest.dropWhile isDigit)
  | rest => jsonExponent rest

/-- A number without its sign: `0` or a digit string without leading zero, then
the optional fraction and exponent. -/
def jsonUnsigned : List Nat → Bool
  | [] => false
  | c :: rest =>
    if c = 0x30 then jsonFraction rest
    else isDigit c && jsonFraction (rest.dropWhile isDigit)

/-- A JSON number token. -/
def jsonNumber : List Nat → Bool
  | 0x2D :: rest => jsonUnsigned rest
  | t => jsonUnsigned t

/-- A JSON value. -/
inductive JsonValue : List Nat → Prop
  | null : JsonValue str_null
  | true_ : JsonValue str_true
  | false_ : JsonValue str_false
  | number (t : List Nat) (h : jsonNumber t = true) : JsonValue t
  | string (t : List Nat) (h : JsonString t) : JsonValue t
  | array (items : List (List Nat)) (h : ∀ t ∈ items, JsonValue t) :
      JsonValue (0x5B :: commaSep true items ++ [0x5D])
  | object (members : List (List Nat × List Nat))
      (hk : ∀ m ∈ members, JsonString m.1) (hv : ∀ m ∈ members, JsonValue m.2) :
      JsonValue (0x7B :: commaSep true (members.map fun m => m.1 ++ 0x3A :: m.2) ++ [0x7D])

/-- One unit of a string body: an unescaped code unit, a two-character escape or
a `\\uXXXX` escape. -/
def validPiece : List Nat → Bool
  | [c] => 0x20 ≤ c && c != 0x22 && c != 0x5C
  | [b, e] => b == 0x5C && isSimpleEscape e
  | [b, u, a1, a2, a3, a4] =>
    b == 0x5C && u == 0x75 && isHexDigit a1 && isHexDigit a2 && isHexDigit a3 && isHexDigit a4
  | _ => false

/-- A host for the examples: decimal integers, a double `finite id` printed as
the decimal text of `id`, no callable `toJSON`, and a stack limit of 64 nested
arrays and objects. -/
def sampleHost : Host :=
  { IntToCString := decimalText
    DoubleToCString := fun d =>
      match d with
      | .finite id => decimal id
      | _ => []
    Call := fun _ _ _ _ => none
    HasOverflowed := fun depth => decide (64 < depth) }

/-! ## Sample heaps -/

/-- An ASCII string given by its code units. -/
def asciiString (units : List Nat) (h : ∀ c ∈ units, c < 128) : HString :=
  { two_byte := false, units := units, ascii := fun _ => h }

def key_a : HString := asciiString [0x61] (by decide)

def key_b : HString := asciiString [0x62] (by decide)

def key_c : HString := asciiString [0x63] (by decide)

def key_self : HString := asciiString [0x73, 0x65, 0x6C, 0x66] (by decide)

def str_x : HString := asciiString [0x78] (by decide)

def str_2 : HString := asciiString [0x32] (by decide)

/-- A plain object with the given own enumerable properties, none raising. -/
def plainObject (props : List (HString × Value)) : HeapObject :=
  { shape := .JSObject, toJSON := none, global_proxy := none
    keys := some (props.map fun p => Key.name p.1)
    props := props.map fun p => (Key.name p.1, some p.2) }

/-- An array with the given elements. -/
def arrayObject (elements : Elements) : HeapObject :=
  { shape := .JSArray elements, toJSON := none, global_proxy := none, keys := some [], props := [] }

/-- A function without properties. -/
def functionObject : HeapObject :=
  { shape := .JSFunction, toJSON := none, global_proxy := none, keys := some [], props := [] }

/-- The sample heap:
* 1 is `{a: 1, b: [true, null, "x"]}`, 2 its array;
* 3 is `[1, "2", undefined]`;
* 4 is `x = {}` with `x.self = x`;
* 5 is `{toJSON: f}` with the function 6;
* 7 is `{a: undefined, b: 1, c: f}`;
* 8 is `[a, a]` with the empty object 9 as `a`;
* 10 is `[]`;
* 11 is a function with a `toJSON` property, the function 6;
* 12 is `{c: g}` with the function 11 as `g`;
* every other identity is a function. -/
def sampleHeap : Heap := fun id =>
  match id with
  | 1 => plainObject [(key_a, .Smi 1), (key_b, .JSObject 2)]
  | 2 => arrayObject (.FAST_ELEMENTS [.Oddball .kTrue, .Oddball .kNull, .String str_x])
  | 3 => arrayObject (.FAST_ELEMENTS [.Smi 1, .String str_2, .Oddball .kUndefined])
  | 4 => plainObject [(key_self, .JSObject 4)]
  | 5 => { plainObject [] with toJSON := some (.JSObject 6) }
  | 7 => plainObject [(key_a, .Oddball .kUndefined), (key_b, .Smi 1), (key_c, .JSObject 6)]
  | 8 => arrayObject (.FAST_ELEMENTS [.JSObject 9, .JSObject 9])
  | 9 => plainObject []
  | 10 => arrayObject (.FAST_ELEMENTS [])
  | 11 => { functionObject with toJSON := some (.JSObject 6) }
  | 12 => plainObject [(key_c, .JSObject 11)]
  | _ => functionObject

/-- The text `{"a":1,"b":[true,null,"x"]}`. -/
def text_scenario1 : List Nat :=
  [0x7B, 0x22, 0x61, 0x22, 0x3A, 0x31, 0x2C, 0x22, 0x62, 0x22, 0x3A, 0x5B, 0x74, 0x72, 0x75,
   0x65, 0x2C, 0x6E, 0x75, 0x6C, 0x6C, 0x2C, 0x22, 0x78, 0x22, 0x5D, 0x7D]

/-! ## What a call leaves of the cycle stack and of the heap -/

/-- The heap `h1` comes from `h` by host calls only: every property of heaps that
`Execution::Call` preserves carries over. -/
def HeapStep (host : Host) (h h1 : Heap) : Prop :=
  ∀ Q : Heap → Prop,
    (∀ g f r a v g1, Q g → host.Call g f r a = some (v, g1) → Q g1) → Q h → Q h1

/-- The frame of a call from `st` to `st1`: the cycle stack is extended at its
top at most, and the heap changes through host calls only. -/
structure Frame (host : Host) (st st1 : State) : Prop where
  stack : st.stack <+: st1.stack
  heap : HeapStep host st.heap st1.heap

/-- A recursive entry all of whose completed calls satisfy `Frame`. -/
def RecFrame (host : Host) (recurse : Recurse) : Prop :=
  ∀ d object comma key st r st1,
    recurse d object comma key st = .done (r, st1) → Frame host st st1

/-- The common shape of `SerializeJSArray` and `SerializeJSObject` after a
successful push: either the call succeeds and has popped, or it fails and the
stack still starts with the entry stack followed by the pushed object. -/
structure Pushed (host : Host) (object : Nat) (st : State) (r : Result) (st1 : State) :
    Prop where
  frame : Frame host st st1
  failure : r ≠ .SUCCESS → st.stack ++ [object] <+: st1.stack

/-- The result and the cycle stack a run ends with. -/
def Run.resultAndStack : Run (Result × State) → Option (Result × List Nat)
  | .done (r, st) => some (r, st.stack)
  | _ => none

/-- A host like `sampleHost` whose call of the function 6 returns the Smi 42 and
leaves the heap alone. -/
def hookHost : Host :=
  { sampleHost with
    Call := fun heap func _ _ => if func = .JSObject 6 then some (.Smi 42, heap) else none }

/-- What `Serialize_` does once the `toJSON` call has come back: `EXCEPTION` when
it raised, otherwise the dispatch on the returned value in the heap the call left. -/
def afterToJson (host : Host) (recurse : Recurse) (deferred_string_key comma : Bool)
    (key : Value) (st : State) : Option (Value × Heap) → Run (Result × State)
  | none => .done (.EXCEPTION, st)
  | some (r, heap1) =>
    dispatch host recurse deferred_string_key r comma key { st with heap := heap1 }

/-- The text `42`. -/
def text_42 : List Nat := [0x34, 0x32]

/-! ## A JSON string-literal decoder -/

/-- The value of a hexadecimal digit. -/
def hexValue (c : Nat) : Option Nat :=
  if 0x30 ≤ c ∧ c ≤ 0x39 then some (c - 0x30)
  else if 0x61 ≤ c ∧ c ≤ 0x66 then some (c - 0x61 + 10)
  else if 0x41 ≤ c ∧ c ≤ 0x46 then some (c - 0x41 + 10)
  else none

/-- The code unit of a two-character escape. -/
def unescapeSimple (e : Nat) : Option Nat :=
  if e = 0x22 then some 0x22
  else if e = 0x5C then some 0x5C
  else if e = 0x2F then some 0x2F
  else if e = 0x62 then some 0x08
  else if e = 0x66 then some 0x0C
  else if e = 0x6E then some 0x0A
  else if e = 0x72 then some 0x0D
  else if e = 0x74 then some 0x09
  else none

/-- The code unit of `\\uXXXX` from its four digits. -/
def unicodeEscape (a b x y : Nat) : Option Nat :=
  match hexValue a, hexValue b, hexValue x, hexValue y with
  | some va, some vb, some vx, some vy => some (4096 * va + 256 * vb + 16 * vx + vy)
  | _, _, _, _ => none

/-- Decodes the body of a string literal: interprets the two-character escapes
and `\\uXXXX`, copies every other code unit, rejects a bare quote. -/
def decodeBody : List Nat → Option (List Nat)
  | [] => some []
  | c :: rest =>
    if c = 0x5C then
      match rest with
      | [] => none
      | e :: rest1 =>
        if e = 0x75 then
          match rest1 with
          | a :: b :: x :: y :: rest2 =>
            match unicodeEscape a b x y with
            | some v => (decodeBody rest2).map (fun l => v :: l)
            | none => none
          | _ => none
        else
          match unescapeSimple e with
          | some v => (decodeBody rest1).map (fun l => v :: l)
          | none => none
    else if c = 0x22 then none
    else (decodeBody rest).map (fun l => c :: l)

/-- Decodes a string literal: strips the enclosing quotes and decodes the body. -/
def decodeString : List Nat → Option (List Nat)
  | [] => none
  | q :: rest =>
    if q = 0x22 ∧ rest.getLast? = some 0x22 then decodeBody rest.dropLast else none

/-- The piece `p` is the encoding of the code unit `c`: `c` itself (not a quote or
a backslash), a two-character escape of `c`, or the `\\uXXXX` escape of `c`. -/
def encodes (p : List Nat) (c : Nat) : Bool :=
  match p with
  | [d] => d == c && d != 0x22 && d != 0x5C
  | [b, e] => b == 0x5C && e != 0x75 && unescapeSimple e == some c
  | [b, u, a1, a2, a3, a4] => b == 0x5C && u == 0x75 && unicodeEscape a1 a2 a3 a4 == some c
  | _ => false

/-- The 4-character string quote, backslash, U+0001, slash. -/
def str_scenario3 : HString := asciiString [0x22, 0x5C, 0x01, 0x2F] (by decide)

/-- The text `"\\"\\\\\\u0001/"`: quote, `\\"`, `\\\\`, `\\u0001`, `/`, quote. -/
def text_scenario3 : List Nat :=
  [0x22, 0x5C, 0x22, 0x5C, 0x5C, 0x5C, 0x75, 0x30, 0x30, 0x30, 0x31, 0x2F, 0x22]

/-- The object whose keys `SerializeJSObject` enumerates: the prototype of a
global proxy, the object itself otherwise. -/
def enumerated (heap : Heap) (object : Nat) : Nat :=
  match (heap object).global_proxy with
  | some prototype => prototype
  | none => object

/-! ## Cycle detection -/

/-- A string short enough for the fast-path test of `SerializeString_` not to wrap. -/
def SafeString (s : HString) : Prop := s.units.length < maxSafeLength

/-- A value that is not a string too long for the fast-path test. -/
def SafeValue : Value → Prop
  | .String s => SafeString s
  | _ => True

/-- An array or a plain object: what `SerializeJSArray` / `SerializeJSObject` enter. -/
def isComposite (heap : Heap) (id : Nat) : Bool :=
  match (heap id).shape with
  | .JSArray _ => true
  | .JSObject => true
  | _ => false

/-- The values `SerializeJSArray` / `SerializeJSObject` serialize for `id`: the
elements of an array, the fetched properties of the enumerated keys of an object. -/
def children (heap : Heap) (id : Nat) : List Value :=
  match (heap id).shape with
  | .JSArray elements => elements.toList
  | .JSObject =>
    match (heap (enumerated heap id)).keys with
    | some contents =>
      contents.filterMap fun key => (fetchProperty heap (enumerated heap id) key).2
    | none => []
  | _ => []

/-- An array-element or object-member edge between arrays and objects. -/
def Edge (heap : Heap) (v w : Nat) : Prop :=
  Value.JSObject w ∈ children heap v ∧ isComposite heap w = true

/-- A heap without `toJSON` hooks, without raising accesses and without strings
too long for the fast-path test. -/
structure QuietHeap (heap : Heap) : Prop where
  no_hook : ∀ id f, (heap id).toJSON = some f → IsJSFunction heap f = false
  keys_ok : ∀ id, ∃ contents, (heap id).keys = some contents
  fetch_ok : ∀ id contents, (heap id).keys = some contents → ∀ key ∈ contents,
    SafeString (fetchProperty heap id key).1
      ∧ ∃ v, (fetchProperty heap id key).2 = some v ∧ SafeValue v
  elements_ok : ∀ id elements, (heap id).shape = .JSArray elements →
    ∀ e ∈ elements.toList, SafeValue e
  to_string_ok : ∀ id o, (heap id).shape = .JSValue_String o →
    ∃ s, o = some s ∧ SafeString s
  to_number_ok : ∀ id, (heap id).shape ≠ .JSValue_Number none

/-- Nothing reachable from `id` is on the stack `stack` or lies on a cycle. -/
def Clean (heap : Heap) (stack : List Nat) (id : Nat) : Prop :=
  ∀ w, Relation.ReflTransGen (Edge heap) id w →
    w ∉ stack ∧ ¬ Relation.TransGen (Edge heap) w w

/-- `Clean` for a value: it constrains arrays and objects only. -/
def CleanV (heap : Heap) (stack : List Nat) (v : Value) : Prop :=
  ∀ id, v = .JSObject id → isComposite heap id = true → Clean heap stack id

/-- The state of a serialization on the fixed heap `heap` with cycle stack `stack`. -/
structure Inv (heap : Heap) (stack : List Nat) (st : State) : Prop where
  heap_eq : st.heap = heap
  stack_eq : st.stack = stack
  wf : st.builder.WF

/-- A run that completes on the fixed heap with `SUCCESS`, `UNCHANGED` or `CIRCULAR`;
unless it is `CIRCULAR`, the stack is back to `stack` and `v` is `CleanV`. -/
def Outcome (heap : Heap) (stack : List Nat) (v : Value) (run : Run (Result × State)) :
    Prop :=
  ∃ r st1, run = .done (r, st1) ∧ st1.heap = heap ∧ st1.builder.WF
    ∧ (r = .SUCCESS ∨ r = .UNCHANGED ∨ r = .CIRCULAR)
    ∧ (r ≠ .CIRCULAR → st1.stack = stack ∧ CleanV heap stack v)

/-- The deferred key, when there is one, is a short string. -/
def SafeKey (deferred_string_key : Bool) (key : Value) : Prop :=
  deferred_string_key = true → ∃ s, key = .String s ∧ SafeString s

/-- A recursive entry that meets `Outcome` on every state with stack `stack`. -/
def RecTotal (heap : Heap) (stack : List Nat) (recurse : Recurse) : Prop :=
  ∀ d v comma key st, Inv heap stack st → SafeValue v → SafeKey d key →
    Outcome heap stack v (recurse d v comma key st)

/-- A heap in which every identity is the object `x` with `x[k] = x` for the key
`k` of `2^28` letters `a`. -/
def longKeyHeap : Heap := fun _ => plainObject [(longString, .JSObject 0)]

/-! ## The escape table against the reference escapes -/

/-- A lowercase hexadecimal digit as a code unit. -/
def hexDigit (d : Nat) : Nat := if d < 10 then 0x30 + d else 0x61 + (d - 10)

/-- The reference escape of an ASCII code point: `\\b \\t \\n \\f \\r` for 0x08,
0x09, 0x0A, 0x0C, 0x0D; `\\u` and four lowercase hexadecimal digits for every
other control; `\\"` and `\\\\` for the quote and the backslash; the character
itself otherwise. -/
def referenceEscape (c : Nat) : List Nat :=
  if c = 0x08 then [0x5C, 0x62]
  else if c = 0x09 then [0x5C, 0x74]
  else if c = 0x0A then [0x5C, 0x6E]
  else if c = 0x0C then [0x5C, 0x66]
  else if c = 0x0D then [0x5C, 0x72]
  else if c < 0x20 then
    [0x5C, 0x75, hexDigit (c / 4096 % 16), hexDigit (c / 256 % 16), hexDigit (c / 16 % 16),
      hexDigit (c % 16)]
  else if c = 0x22 then [0x5C, 0x22]
  else if c = 0x5C then [0x5C, 0x5C]
  else [c]

/-! ## `ChangeEncoding` has no guard of its own -/

/-- An empty string in the two-byte representation. -/
def wideEmpty : HString := { two_byte := true, units := [], ascii := by simp }

/-- The accumulator after the constructor and `SerializeString` of `wideEmpty`:
the encoding is two-byte, the active part holds the two quotes. -/
def wideBuilder : Builder :=
  { accumulator := [{ two_byte := false, chars := [] }]
    current_part := { two_byte := true, chars := 0x22 :: 0x22 :: List.replicate 30 0 }
    current_index := 2
    part_length := 32
    is_ascii := false }

/-! ## Failures are handed up unchanged -/

/-- The three failure results. -/
def isFailure : Result → Bool
  | .EXCEPTION => true
  | .CIRCULAR => true
  | .STACK_OVERFLOW => true
  | _ => false

/-- The returned values that are no string. -/
def Returned.isString : Returned → Bool
  | .string _ _ => true
  | _ => false

/-! ## The operations a serialization performs -/

/-- The single characters the serializer appends with `Append(char)`. -/
def isPunctuation (c : Nat) : Bool :=
  c == 0x2C || c == 0x3A || c == 0x5B || c == 0x5D || c == 0x7B || c == 0x7D

/-- The texts the serializer appends with `Append(const char*)`. -/
inductive Literal (host : Host) : List Nat → Prop
  | null : Literal host str_null
  | true_ : Literal host str_true
  | false_ : Literal host str_false
  | int (i : Int) : Literal host (host.IntToCString i)
  | double (number : Dbl) : Literal host (host.DoubleToCString number)

/-- The accumulator operations the serializer calls. -/
inductive OpKind (host : Host) : (Builder → Option Builder) → Prop
  | punctuation (c : Nat) (hc : isPunctuation c = true) : OpKind host (Append c)
  | literal (cs : List Nat) (hcs : Literal host cs) : OpKind host (Append_str cs)
  | string (s : HString) : OpKind host (SerializeString s)

/-- A sequence of elementary operations leading from one state to another, with
the strings given to `SerializeString` on the way, in order: appending a
punctuation character or a literal text, emitting a string, pushing a new
object on the cycle stack, popping it, and a heap change by a host call. -/
inductive Trace (host : Host) : State → List HString → State → Prop
  | stop (st : State) : Trace host st [] st
  | punctuation {st st1 st2 : State} {log : List HString} (c : Nat)
      (hc : isPunctuation c = true) (h : st.build (Append c) = .done st1)
      (t : Trace host st1 log st2) : Trace host st log st2
  | literal {st st1 st2 : State} {log : List HString} (cs : List Nat)
      (hcs : Literal host cs) (h : st.build (Append_str cs) = .done st1)
      (t : Trace host st1 log st2) : Trace host st log st2
  | string {st st1 st2 : State} {log : List HString} (s : HString)
      (h : st.build (SerializeString s) = .done st1)
      (t : Trace host st1 log st2) : Trace host st (s :: log) st2
  | push {st st2 : State} {log : List HString} (object : Nat)
      (hover : host.HasOverflowed st.stack.length = false) (hnew : object ∉ st.stack)
      (t : Trace host { st with stack := st.stack ++ [object] } log st2) :
      Trace host st log st2
  | pop {st st2 : State} {log : List HString}
      (t : Trace host (StackPop st) log st2) : Trace host st log st2
  | call {st st2 : State} {log : List HString} (heap1 : Heap)
      (t : Trace host { st with heap := heap1 } log st2) : Trace host st log st2

/-- Some trace leads from `st` to `st1`. -/
def Traced (host : Host) (st st1 : State) : Prop := ∃ log, Trace host st log st1

/-- A recursive entry all of whose completed calls have a trace. -/
def RecTraced (host : Host) (recurse : Recurse) : Prop :=
  ∀ d object comma key st r st1,
    recurse d object comma key st = .done (r, st1) → Traced host st st1

/-- A state property that every elementary operation preserves. -/
structure StepInv (host : Host) (R : State → Prop) : Prop where
  punctuation : ∀ st c st1, isPunctuation c = true → R st →
    st.build (Append c) = .done st1 → R st1
  literal : ∀ st cs st1, Literal host cs → R st →
    st.build (Append_str cs) = .done st1 → R st1
  string : ∀ st s st1, R st → st.build (SerializeString s) = .done st1 → R st1
  push : ∀ (st : State) object, host.HasOverflowed st.stack.length = false →
    object ∉ st.stack → R st → R { st with stack := st.stack ++ [object] }
  pop : ∀ st, R st → R (StackPop st)
  call : ∀ (st : State) heap1, R st → R { st with heap := heap1 }

/-! ## Properties of the accumulator that every operation preserves -/

/-- A property of the accumulator kept by the three ways the serializer changes
it: writing into the active part and moving the cursor, `Extend` in the
current encoding, and `ChangeEncoding` of an ASCII accumulator. -/
structure PartInv (P : Builder → Prop) : Prop where
  write : ∀ (b : Builder) chars index, P b →
    P { b with current_part := { b.current_part with chars := chars }, current_index := index }
  extend : ∀ b, P b → P (Extend b.is_ascii b)
  change : ∀ b, P b → b.is_ascii = true → P (ChangeEncoding b)

/-! ## Growth of the part length -/

/-- A power of two between `kInitialPartLength` and `kMaxPartLength`. -/
def isPartLength (n : Nat) : Prop := (∃ k, n = 2 ^ k) ∧ 32 ≤ n ∧ n ≤ 16384

/-! ## The encoding never goes back -/

/-- The accumulator is two-byte since the state whose sealed parts were `sealed`:
`is_ascii_` is false, the active part is a two-byte string and so is every part
sealed since. -/
def WideSince (sealed : List Part) (b : Builder) : Prop :=
  b.is_ascii = false ∧ b.current_part.two_byte = true
    ∧ ∃ rest, b.accumulator = sealed ++ rest ∧ ∀ p ∈ rest, p.two_byte = true

/-! ## Code units written while the encoding is ASCII -/

/-- The string holding the single character DEL. -/
def str_del : HString := asciiString [0x7F] (by decide)

/-- The state property behind C18: the accumulator invariant, and while
`is_ascii_` is true every unit of the logical output lies in `0x20 ..= 0x7F`. -/
def NarrowRange (st : State) : Prop :=
  st.builder.WF ∧ (st.builder.is_ascii = true → ∀ c ∈ st.builder.output, 0x20 ≤ c ∧ c ≤ 0x7F)

/-! ## The encoding of the output -/

/-- The string `a` in the two-byte representation. -/
def wideA : HString := { two_byte := true, units := [0x61], ascii := by simp }

/-! ## The cycle stack across a successful call -/

/-- The text `[{},{}]`. -/
def text_shared : List Nat := [0x5B, 0x7B, 0x7D, 0x2C, 0x7B, 0x7D, 0x5D]

/-! ## The two paths of `SerializeString_` -/

/-- An ASCII string of `2^29 + 3` letters `a`. -/
def veryLongString : HString :=
  { two_byte := false
    units := List.replicate 536870915 0x61
    ascii := by
      intro _ c hc
      rw [List.eq_of_mem_replicate hc]
      decide }

/-- The accumulator after `SerializeString` of an empty two-byte string and of
two empty ASCII strings: the six quotes are in the two-byte active part. -/
def quotesLate : Builder :=
  { accumulator := [{ two_byte := false, chars := [] }]
    current_part :=
      { two_byte := true
        chars := 0x22 :: 0x22 :: 0x22 :: 0x22 :: 0x22 :: 0x22 :: List.replicate 26 0 }
    current_index := 6
    part_length := 32
    is_ascii := false }

/-- The accumulator after `SerializeString` of two empty ASCII strings and of an
empty two-byte string: four quotes are in the sealed ASCII part, two in the
two-byte active part. -/
def quotesEarly : Builder :=
  { accumulator := [{ two_byte := false, chars := [0x22, 0x22, 0x22, 0x22] }]
    current_part := { two_byte := true, chars := 0x22 :: 0x22 :: List.replicate 30 0 }
    current_index := 2
    part_length := 32
    is_ascii := false }

/-! ## A quiet heap with a cycle -/

/-- The sample host without a stack limit. -/
def quietHost : Host := { sampleHost with HasOverflowed := fun _ => false }

/-- The heap whose object 0 is `x = {}` with `x.self = x`; every other identity
is a function. -/
def selfHeap : Heap := fun id =>
  match id with
  | 0 => plainObject [(key_self, .JSObject 0)]
  | _ => functionObject

/-! # Theorems -/

theorem take_succ_set (l : List Nat) (i c : Nat) (h : i < l.length) :
    (l.set i c).take (i + 1) = l.take i ++ [c] := by
  induction l generalizing i with
  | nil => simp at h
  | cons a t ih =>
    cases i with
    | zero => simp
    | succ j =>
      simp only [List.length_cons, Nat.add_lt_add_iff_right] at h
      simp [ih j h]

theorem set_last (l : List Nat) (i c : Nat) (h : i + 1 = l.length) :
    l.set i c = l.take i ++ [c] := by
  have h1 : i < l.length := by omega
  have h2 := take_succ_set l i c h1
  rw [← h2, List.take_of_length_le]
  simp; omega

theorem Builder.init_WF : Builder.init.WF := by
  constructor <;> simp [Builder.init, NewRawString, kInitialPartLength, kMaxPartLength]

theorem Builder.init_output : Builder.init.output = [] := by
  simp [Builder.init, Builder.output]

theorem Append__spec (is_ascii : Bool) (c : Nat) (b : Builder) (hb : b.WF) :
    ∃ b1, Append_ is_ascii c b = some b1 ∧ b1.WF ∧ b1.output = b.output ++ [c]
      ∧ b1.is_ascii = b.is_ascii := by
  obtain ⟨h1, h2, h3⟩ := hb
  have hlt : b.current_index < b.current_part.chars.length := by omega
  simp only [Append_, store, hlt, if_true]
  by_cases hfull : b.current_index + 1 = b.part_length
  · refine ⟨_, rfl, ?_, ?_, ?_⟩
    · simp only [hfull, if_true, Extend]
      constructor
      · simp only [NewRawString, List.length_replicate]
      · simp only [kMaxPartLength, kPartLengthGrowthFactor] at *
        split <;> omega
      · simp only [kMaxPartLength, kPartLengthGrowthFactor] at *
        split <;> omega
    · simp only [hfull, if_true, Extend, Builder.output, List.map_append, List.flatten_append,
        List.map_cons, List.map_nil, List.flatten_cons, List.flatten_nil, List.append_nil,
        List.take_zero]
      rw [set_last _ _ _ (by omega)]
      simp [List.append_assoc]
    · simp only [hfull, if_true, Extend]
  · refine ⟨_, rfl, ?_, ?_, ?_⟩
    · simp only [hfull, if_false]
      constructor
      · simp [h1]
      · simp only []; omega
      · exact h3
    · simp only [hfull, if_false, Builder.output]
      rw [take_succ_set _ _ _ hlt]
      simp [List.append_assoc]
    · simp only [hfull, if_false]

theorem Append_chars_spec (is_ascii : Bool) (cs : List Nat) (b : Builder) (hb : b.WF) :
    ∃ b1, Append_chars is_ascii cs b = some b1 ∧ b1.WF ∧ b1.output = b.output ++ cs
      ∧ b1.is_ascii = b.is_ascii := by
  induction cs generalizing b with
  | nil => exact ⟨b, rfl, hb, by simp, rfl⟩
  | cons c cs ih =>
    obtain ⟨b1, e1, w1, o1, a1⟩ := Append__spec is_ascii c b hb
    obtain ⟨b2, e2, w2, o2, a2⟩ := ih b1 w1
    refine ⟨b2, ?_, w2, ?_, ?_⟩
    · simp [Append_chars, e1, e2]
    · rw [o2, o1]; simp
    · rw [a2, a1]

theorem Append_spec (c : Nat) (b : Builder) (hb : b.WF) :
    ∃ b1, Append c b = some b1 ∧ b1.WF ∧ b1.output = b.output ++ [c]
      ∧ b1.is_ascii = b.is_ascii := by
  unfold Append; split
  · exact Append__spec true c b hb
  · exact Append__spec false c b hb

theorem Append_str_spec (cs : List Nat) (b : Builder) (hb : b.WF) :
    ∃ b1, Append_str cs b = some b1 ∧ b1.WF ∧ b1.output = b.output ++ cs
      ∧ b1.is_ascii = b.is_ascii := by
  unfold Append_str; split
  · exact Append_chars_spec true cs b hb
  · exact Append_chars_spec false cs b hb

theorem checkedLoop_spec (is_ascii two_byte_src : Bool) (src : List Nat) (b : Builder)
    (hb : b.WF) :
    ∃ b1, checkedLoop is_ascii two_byte_src src b = some b1 ∧ b1.WF
      ∧ b1.output = b.output ++ escaped two_byte_src src ∧ b1.is_ascii = b.is_ascii := by
  induction src generalizing b with
  | nil => exact ⟨b, rfl, hb, by simp [escaped], rfl⟩
  | cons c src ih =>
    by_cases hc : DoNotEscape two_byte_src c = true
    · obtain ⟨b1, e1, w1, o1, a1⟩ := Append__spec is_ascii c b hb
      obtain ⟨b2, e2, w2, o2, a2⟩ := ih b1 w1
      refine ⟨b2, ?_, w2, ?_, ?_⟩
      · simp [checkedLoop, hc, e1, e2]
      · rw [o2, o1]; simp [escaped, hc]
      · rw [a2, a1]
    · obtain ⟨b1, e1, w1, o1, a1⟩ := Append_chars_spec is_ascii (escapeEntry c) b hb
      obtain ⟨b2, e2, w2, o2, a2⟩ := ih b1 w1
      refine ⟨b2, ?_, w2, ?_, ?_⟩
      · simp [checkedLoop, hc, e1, e2]
      · rw [o2, o1]; simp [escaped, hc]
      · rw [a2, a1]

theorem storeAll_spec (cs dest : List Nat) (i : Nat) (h : i + cs.length ≤ dest.length) :
    ∃ dest1, storeAll cs dest i = some (dest1, i + cs.length) ∧ dest1.length = dest.length
      ∧ dest1.take (i + cs.length) = dest.take i ++ cs := by
  induction cs generalizing dest i with
  | nil => exact ⟨dest, rfl, rfl, by simp⟩
  | cons c cs ih =>
    simp only [List.length_cons] at h
    have hlt : i < dest.length := by omega
    obtain ⟨d1, e1, l1, t1⟩ := ih (dest.set i c) (i + 1) (by simp; omega)
    refine ⟨d1, ?_, ?_, ?_⟩
    · simp only [storeAll, store, hlt, if_true, e1, List.length_cons]
      congr 2; omega
    · simpa using l1
    · have : i + (c :: cs).length = i + 1 + cs.length := by simp; omega
      rw [this, t1, take_succ_set _ _ _ hlt]; simp

theorem escaped_cons (two_byte_src : Bool) (c : Nat) (src : List Nat) :
    escaped two_byte_src (c :: src)
      = (if DoNotEscape two_byte_src c then [c] else escapeEntry c) ++ escaped two_byte_src src := by
  simp [escaped]

theorem escaped_nil (two_byte_src : Bool) : escaped two_byte_src [] = [] := rfl

set_option maxRecDepth 100000 in
theorem JsonEscapeTable_length : JsonEscapeTable.length = 1024 := by decide

set_option maxRecDepth 100000 in
theorem escapeEntry_length_ascii : ∀ c < 128, (escapeEntry c).length ≤ 6 := by decide

theorem escapeEntry_of_ge (c : Nat) (hc : 128 ≤ c) : escapeEntry c = [] := by
  unfold escapeEntry cstr
  rw [List.drop_eq_nil_of_le]
  · rfl
  · rw [JsonEscapeTable_length]; simp only [kJsonEscapeTableEntrySize]; omega

theorem escapeEntry_length_le (c : Nat) : (escapeEntry c).length ≤ 6 := by
  by_cases hc : c < 128
  · exact escapeEntry_length_ascii c hc
  · simp [escapeEntry_of_ge c (by omega)]

theorem escaped_length_le (two_byte_src : Bool) (src : List Nat) :
    (escaped two_byte_src src).length ≤ 6 * src.length := by
  induction src with
  | nil => simp [escaped]
  | cons c src ih =>
    have h6 := escapeEntry_length_le c
    rw [escaped_cons, List.length_append, List.length_cons]
    split
    · simp only [List.length_singleton]; omega
    · omega

theorem uncheckedLoop_spec (two_byte_src : Bool) (src dest : List Nat) (i : Nat)
    (h : i + (escaped two_byte_src src).length ≤ dest.length) :
    ∃ dest1, uncheckedLoop two_byte_src src dest i
        = some (dest1, i + (escaped two_byte_src src).length)
      ∧ dest1.length = dest.length
      ∧ dest1.take (i + (escaped two_byte_src src).length)
          = dest.take i ++ escaped two_byte_src src := by
  induction src generalizing dest i with
  | nil => exact ⟨dest, rfl, rfl, by simp [escaped]⟩
  | cons c src ih =>
    rw [escaped_cons] at h ⊢
    by_cases hc : DoNotEscape two_byte_src c = true
    · simp only [hc, if_true, List.length_append, List.length_singleton] at h ⊢
      have hlt : i < dest.length := by omega
      obtain ⟨d1, e1, l1, t1⟩ := ih (dest.set i c) (i + 1) (by simp; omega)
      refine ⟨d1, ?_, by simpa using l1, ?_⟩
      · simp only [uncheckedLoop, hc, if_true, store, hlt, e1]
        congr 2; omega
      · have : i + (1 + (escaped two_byte_src src).length)
            = i + 1 + (escaped two_byte_src src).length := by omega
        rw [this, t1, take_succ_set _ _ _ hlt]; simp
    · have hc1 : DoNotEscape two_byte_src c = false := by simpa using hc
      simp only [hc1, Bool.false_eq_true, if_false, List.length_append] at h ⊢
      obtain ⟨d0, e0, l0, t0⟩ := storeAll_spec (escapeEntry c) dest i (by omega)
      obtain ⟨d1, e1, l1, t1⟩ := ih d0 (i + (escapeEntry c).length) (by omega)
      refine ⟨d1, ?_, by omega, ?_⟩
      · simp only [uncheckedLoop, hc1, Bool.false_eq_true, if_false, e0, e1]
        congr 2; omega
      · have : i + ((escapeEntry c).length + (escaped two_byte_src src).length)
            = i + (escapeEntry c).length + (escaped two_byte_src src).length := by omega
        rw [this, t1, t0]; simp

theorem wrap32_of_range (x : Int) (h0 : -2147483648 ≤ x) (h1 : x < 2147483648) :
    wrap32 x = x := by
  unfold wrap32; omega

theorem fastPathTest_exact (current_index length part_length : Nat)
    (h : current_index + 8 * length + 2 < 2147483648) :
    fastPathTest current_index length part_length
      = decide (current_index + 8 * length + 2 < part_length) := by
  unfold fastPathTest
  rw [wrap32_of_range ((length : Int) * 8) (by omega) (by omega),
    wrap32_of_range ((current_index : Int) + (length : Int) * 8) (by omega) (by omega),
    wrap32_of_range _ (by omega) (by omega)]
  apply decide_eq_decide.mpr
  omega

theorem SerializeStringUnchecked__spec (two_byte_src : Bool) (src : List Nat) (b : Builder)
    (hb : b.WF) (h : b.current_index + 8 * src.length + 2 < b.part_length) :
    ∃ b1, SerializeStringUnchecked_ two_byte_src src b = some b1 ∧ b1.WF
      ∧ b1.output = b.output ++ (0x22 :: escaped two_byte_src src ++ [0x22])
      ∧ b1.is_ascii = b.is_ascii ∧ b1.accumulator = b.accumulator
      ∧ b1.part_length = b.part_length := by
  obtain ⟨h1, h2, h3⟩ := hb
  have hlen := escaped_length_le two_byte_src src
  have hlt : b.current_index < b.current_part.chars.length := by omega
  obtain ⟨d2, e2, l2, t2⟩ := uncheckedLoop_spec two_byte_src src
    (b.current_part.chars.set b.current_index 0x22) (b.current_index + 1) (by simp; omega)
  have hlt2 : b.current_index + 1 + (escaped two_byte_src src).length < d2.length := by
    rw [l2]; simp; omega
  have e : SerializeStringUnchecked_ two_byte_src src b
      = some { b with
          current_part := { b.current_part with
            chars := d2.set (b.current_index + 1 + (escaped two_byte_src src).length) 0x22 },
          current_index := b.current_index
            + (b.current_index + 1 + (escaped two_byte_src src).length + 1 - b.current_index) } := by
    simp only [SerializeStringUnchecked_, store, hlt, if_true, e2, hlt2]
  refine ⟨_, e, ?_, ?_, rfl, rfl, rfl⟩
  · constructor
    · simp [l2, h1]
    · simp only []; omega
    · exact h3
  · simp only [Builder.output]
    have : b.current_index + (b.current_index + 1 + (escaped two_byte_src src).length + 1
        - b.current_index) = b.current_index + 1 + (escaped two_byte_src src).length + 1 := by
      omega
    rw [this, take_succ_set _ _ _ hlt2, t2, take_succ_set _ _ _ hlt]
    simp [List.append_assoc]

theorem SerializeString__spec (is_ascii two_byte_src : Bool) (src : List Nat) (b : Builder)
    (hb : b.WF) (hlen : src.length < maxSafeLength) :
    ∃ b1, SerializeString_ is_ascii two_byte_src src b = some b1 ∧ b1.WF
      ∧ b1.output = b.output ++ (0x22 :: escaped two_byte_src src ++ [0x22])
      ∧ b1.is_ascii = b.is_ascii := by
  have hrange : b.current_index + 8 * src.length + 2 < 2147483648 := by
    have h2 := hb.index_lt
    have h3 := hb.length_le
    simp only [maxSafeLength, kMaxPartLength] at *
    omega
  unfold SerializeString_
  rw [fastPathTest_exact _ _ _ hrange]
  by_cases hfast : b.current_index + 8 * src.length + 2 < b.part_length
  · simp only [hfast, decide_True, if_true]
    obtain ⟨b1, e1, w1, o1, a1, _, _⟩ := SerializeStringUnchecked__spec two_byte_src src b hb hfast
    exact ⟨b1, e1, w1, o1, a1⟩
  · simp only [hfast, decide_False, Bool.false_eq_true, if_false]
    obtain ⟨b1, e1, w1, o1, a1⟩ := Append__spec is_ascii 0x22 b hb
    obtain ⟨b2, e2, w2, o2, a2⟩ := checkedLoop_spec is_ascii two_byte_src src b1 w1
    obtain ⟨b3, e3, w3, o3, a3⟩ := Append__spec is_ascii 0x22 b2 w2
    refine ⟨b3, ?_, w3, ?_, ?_⟩
    · simp only [e1, e2, e3]
    · rw [o3, o2, o1]; simp
    · rw [a3, a2, a1]

theorem ShrinkCurrentPart_output (b : Builder) :
    (ShrinkCurrentPart b).current_part.chars = b.current_part.chars.take b.current_index := by
  unfold ShrinkCurrentPart
  split
  · next h => simp [h]
  · rfl

theorem ChangeEncoding_spec (b : Builder) (hb : b.WF) :
    (ChangeEncoding b).WF ∧ (ChangeEncoding b).output = b.output
      ∧ (ChangeEncoding b).is_ascii = false := by
  have hp : (ShrinkCurrentPart b).part_length = b.part_length := by
    unfold ShrinkCurrentPart; split <;> rfl
  have ha : (ShrinkCurrentPart b).accumulator = b.accumulator := by
    unfold ShrinkCurrentPart; split <;> rfl
  refine ⟨?_, ?_, rfl⟩
  · constructor
    · simp [ChangeEncoding, NewRawString]
    · simp only [ChangeEncoding, hp]
      have := hb.index_lt; omega
    · simp only [ChangeEncoding, hp]; exact hb.length_le
  · simp only [ChangeEncoding, Builder.output, List.map_append, List.flatten_append,
      List.map_cons, List.map_nil, List.flatten_cons, List.flatten_nil, List.append_nil,
      List.take_zero, ShrinkCurrentPart_output, ha]

theorem SerializeString_spec (s : HString) (b : Builder) (hb : b.WF)
    (hlen : s.units.length < maxSafeLength) :
    ∃ b1, SerializeString s b = some b1 ∧ b1.WF ∧ b1.output = b.output ++ quoted s
      ∧ b1.is_ascii = (b.is_ascii && !s.two_byte) := by
  unfold SerializeString quoted
  cases ha : b.is_ascii <;> cases hs : s.two_byte
  · obtain ⟨b1, e1, w1, o1, a1⟩ := SerializeString__spec false false s.units b hb hlen
    exact ⟨b1, by simpa using e1, w1, o1, by simp [a1, ha]⟩
  · obtain ⟨b1, e1, w1, o1, a1⟩ := SerializeString__spec false true s.units b hb hlen
    exact ⟨b1, by simpa using e1, w1, o1, by simp [a1, ha]⟩
  · obtain ⟨b1, e1, w1, o1, a1⟩ := SerializeString__spec true false s.units b hb hlen
    exact ⟨b1, by simpa using e1, w1, o1, by simp [a1, ha]⟩
  · obtain ⟨w0, o0, a0⟩ := ChangeEncoding_spec b hb
    obtain ⟨b1, e1, w1, o1, a1⟩ :=
      SerializeString__spec false true s.units (ChangeEncoding b) w0 hlen
    exact ⟨b1, by simpa using e1, w1, by rw [o1, o0], by simp [a1, a0]⟩

set_option maxRecDepth 100000 in
theorem escapeEntry_length_pos : ∀ c < 128, 1 ≤ (escapeEntry c).length := by decide

theorem escaped_length_ge (two_byte_src : Bool) (src : List Nat)
    (h : two_byte_src = false → ∀ c ∈ src, c < 128) :
    src.length ≤ (escaped two_byte_src src).length := by
  induction src with
  | nil => simp
  | cons c src ih =>
    have ih1 := ih (fun e x hx => h e x (List.mem_cons_of_mem _ hx))
    rw [escaped_cons, List.length_append, List.length_cons]
    by_cases hc : DoNotEscape two_byte_src c = true
    · simp only [hc, if_true, List.length_singleton]; omega
    · have hc1 : DoNotEscape two_byte_src c = false := by simpa using hc
      simp only [hc1, Bool.false_eq_true, if_false]
      have hlt : c < 128 := by
        cases two_byte_src with
        | false => exact h rfl c (List.mem_cons_self _ _)
        | true =>
          by_contra hge
          have : DoNotEscape true c = true := by
            simp only [DoNotEscape, if_true, Bool.or_eq_true, decide_eq_true_eq]
            left; omega
          rw [this] at hc1; cases hc1
      have := escapeEntry_length_pos c hlt
      omega

theorem storeAll_some_bound (cs dest : List Nat) (i : Nat) (d : List Nat) (j : Nat)
    (hi : i ≤ dest.length) (h : storeAll cs dest i = some (d, j)) :
    i + cs.length ≤ dest.length := by
  induction cs generalizing dest i with
  | nil => simpa using hi
  | cons c cs ih =>
    simp only [storeAll, store] at h
    by_cases hlt : i < dest.length
    · simp only [hlt, if_true] at h
      have := ih (dest.set i c) (i + 1) (by simp; omega) h
      simp at this ⊢; omega
    · simp [hlt] at h

theorem uncheckedLoop_some_bound (two_byte_src : Bool) (src dest : List Nat) (i : Nat)
    (d : List Nat) (j : Nat) (hi : i ≤ dest.length)
    (h : uncheckedLoop two_byte_src src dest i = some (d, j)) :
    i + (escaped two_byte_src src).length ≤ dest.length := by
  induction src generalizing dest i with
  | nil => simpa [escaped] using hi
  | cons c src ih =>
    rw [escaped_cons, List.length_append]
    by_cases hc : DoNotEscape two_byte_src c = true
    · simp only [uncheckedLoop, hc, if_true, store] at h
      by_cases hlt : i < dest.length
      · simp only [hlt, if_true] at h
        have := ih (dest.set i c) (i + 1) (by simp; omega) h
        simp only [hc, if_true, List.length_singleton]
        simp at this; omega
      · simp [hlt] at h
    · have hc1 : DoNotEscape two_byte_src c = false := by simpa using hc
      simp only [uncheckedLoop, hc1, Bool.false_eq_true, if_false] at h ⊢
      cases hs : storeAll (escapeEntry c) dest i with
      | none => simp [hs] at h
      | some p =>
        obtain ⟨d0, i0⟩ := p
        have hb := storeAll_some_bound _ _ _ _ _ hi hs
        obtain ⟨d1, e1, l1, _⟩ := storeAll_spec (escapeEntry c) dest i hb
        rw [hs] at e1
        simp only [Option.some.injEq, Prod.mk.injEq] at e1
        obtain ⟨rfl, rfl⟩ := e1
        simp only [hs] at h
        have := ih d0 (i + (escapeEntry c).length) (by omega) h
        omega

theorem SerializeString__some (is_ascii two_byte_src : Bool) (src : List Nat) (b b1 : Builder)
    (hb : b.WF) (hsrc : two_byte_src = false → ∀ c ∈ src, c < 128)
    (h : SerializeString_ is_ascii two_byte_src src b = some b1) :
    b1.WF ∧ b1.output = b.output ++ (0x22 :: escaped two_byte_src src ++ [0x22])
      ∧ b1.is_ascii = b.is_ascii := by
  have h2 := hb.index_lt
  have h3 := hb.length_le
  have h1 := hb.length_eq
  by_cases hfit : b.current_index + 8 * src.length + 2 < b.part_length
  · have hlen : src.length < maxSafeLength := by
      simp only [maxSafeLength, kMaxPartLength] at *; omega
    obtain ⟨b2, e2, w2, o2, a2⟩ := SerializeString__spec is_ascii two_byte_src src b hb hlen
    rw [h] at e2; cases e2
    exact ⟨w2, o2, a2⟩
  · unfold SerializeString_ at h
    by_cases hfast : fastPathTest b.current_index src.length b.part_length = true
    · exfalso
      simp only [hfast, if_true] at h
      have hbig : 2147483648 ≤ b.current_index + 8 * src.length + 2 := by
        by_contra hsmall
        have := fastPathTest_exact b.current_index src.length b.part_length (by omega)
        rw [this] at hfast
        simp at hfast; omega
      have hge := escaped_length_ge two_byte_src src hsrc
      unfold SerializeStringUnchecked_ at h
      simp only [store, show b.current_index < b.current_part.chars.length by omega,
        if_true] at h
      cases hl : uncheckedLoop two_byte_src src
          (b.current_part.chars.set b.current_index 0x22) (b.current_index + 1) with
      | none => simp [hl] at h
      | some p =>
        have := uncheckedLoop_some_bound _ _ _ _ p.1 p.2 (by simp; omega) hl
        simp only [List.length_set] at this
        simp only [kMaxPartLength] at *
        omega
    · simp only [hfast, Bool.false_eq_true, if_false] at h
      obtain ⟨c1, e1, w1, o1, a1⟩ := Append__spec is_ascii 0x22 b hb
      obtain ⟨c2, e2, w2, o2, a2⟩ := checkedLoop_spec is_ascii two_byte_src src c1 w1
      obtain ⟨c3, e3, w3, o3, a3⟩ := Append__spec is_ascii 0x22 c2 w2
      simp only [e1, e2, e3, Option.some.injEq] at h
      subst h
      refine ⟨w3, ?_, ?_⟩
      · rw [o3, o2, o1]; simp
      · rw [a3, a2, a1]

theorem SerializeString_some (s : HString) (b b1 : Builder) (hb : b.WF)
    (h : SerializeString s b = some b1) :
    b1.WF ∧ b1.output = b.output ++ quoted s ∧ b1.is_ascii = (b.is_ascii && !s.two_byte) := by
  unfold SerializeString at h
  unfold quoted
  cases ha : b.is_ascii <;> cases hs : s.two_byte <;> simp only [ha, hs] at h
  · obtain ⟨w1, o1, a1⟩ := SerializeString__some false false s.units b b1 hb
      (fun _ => s.ascii hs) (by simpa using h)
    exact ⟨w1, o1, by simp [a1, ha]⟩
  · obtain ⟨w1, o1, a1⟩ := SerializeString__some false true s.units b b1 hb
      (fun e => by cases e) (by simpa using h)
    exact ⟨w1, o1, by simp [a1, ha]⟩
  · obtain ⟨w1, o1, a1⟩ := SerializeString__some true false s.units b b1 hb
      (fun _ => s.ascii hs) (by simpa using h)
    exact ⟨w1, o1, by simp [a1, ha]⟩
  · obtain ⟨w0, o0, a0⟩ := ChangeEncoding_spec b hb
    obtain ⟨w1, o1, a1⟩ := SerializeString__some false true s.units (ChangeEncoding b) b1 w0
      (fun e => by cases e) (by simpa using h)
    exact ⟨w1, by rw [o1, o0], by simp [a1, a0]⟩

theorem SerializeStringUnchecked__some_bound (two_byte_src : Bool) (src : List Nat)
    (b b1 : Builder) (h : SerializeStringUnchecked_ two_byte_src src b = some b1) :
    b.current_index + (escaped two_byte_src src).length + 2 ≤ b.current_part.chars.length := by
  unfold SerializeStringUnchecked_ at h
  simp only [store] at h
  by_cases hlt : b.current_index < b.current_part.chars.length
  · simp only [hlt, if_true] at h
    cases hl : uncheckedLoop two_byte_src src
        (b.current_part.chars.set b.current_index 0x22) (b.current_index + 1) with
    | none => simp [hl] at h
    | some p =>
      obtain ⟨d2, i2⟩ := p
      have hb := uncheckedLoop_some_bound _ _ _ _ d2 i2 (by simp; omega) hl
      obtain ⟨d3, e3, l3, _⟩ := uncheckedLoop_spec two_byte_src src _ _ hb
      rw [hl] at e3
      simp only [Option.some.injEq, Prod.mk.injEq] at e3
      obtain ⟨rfl, rfl⟩ := e3
      simp only [hl] at h
      by_cases hlt2 : b.current_index + 1 + (escaped two_byte_src src).length < d2.length
      · simp only [List.length_set] at l3; omega
      · simp [hlt2] at h
  · simp [hlt] at h

theorem fastPathTest_longString : fastPathTest 0 268435456 32 = true := by
  unfold fastPathTest wrap32
  decide

/-- C4 at its failing input: on the fresh accumulator the fast-path test accepts
an ASCII string of `2^28` code units (`length << 3` wraps to `-2^31`), and the
unchecked copy then stores past the end of the 32-unit active part: the call
faults instead of appending the quoted text. -/
theorem SerializeString_longString_fault :
    SerializeString longString Builder.init = none := by
  have hlen : longString.units.length = 268435456 := List.length_replicate _ _
  have hge := escaped_length_ge false longString.units (fun _ => longString.ascii rfl)
  cases h : SerializeString longString Builder.init with
  | none => rfl
  | some b1 =>
    exfalso
    unfold SerializeString at h
    simp only [show Builder.init.is_ascii = true from rfl, if_true,
      show longString.two_byte = false from rfl, Bool.not_false] at h
    unfold SerializeString_ at h
    rw [hlen, show Builder.init.current_index = 0 from rfl,
      show Builder.init.part_length = 32 from rfl, fastPathTest_longString] at h
    simp only [if_true] at h
    have := SerializeStringUnchecked__some_bound _ _ _ _ h
    rw [show Builder.init.current_index = 0 from rfl,
      show Builder.init.current_part.chars.length = 32 from rfl] at this
    rw [hlen] at hge
    omega

theorem build_done (st st1 : State) (op : Builder → Option Builder)
    (h : st.build op = .done st1) :
    ∃ b1, op st.builder = some b1 ∧ st1 = { st with builder := b1 } := by
  unfold State.build at h
  cases hb : op st.builder with
  | none => simp [hb] at h
  | some b1 =>
    simp only [hb, Run.done.injEq] at h
    exact ⟨b1, rfl, h.symm⟩

theorem build_Append (st st1 : State) (c : Nat) (hw : st.builder.WF)
    (h : st.build (Append c) = .done st1) :
    st1.builder.WF ∧ st1.builder.output = st.builder.output ++ [c]
      ∧ st1.stack = st.stack ∧ st1.heap = st.heap
      ∧ st1.builder.is_ascii = st.builder.is_ascii := by
  obtain ⟨b1, e1, rfl⟩ := build_done _ _ _ h
  obtain ⟨b2, e2, w2, o2, a2⟩ := Append_spec c st.builder hw
  rw [e1] at e2; cases e2
  exact ⟨w2, o2, rfl, rfl, a2⟩

theorem build_Append_str (st st1 : State) (cs : List Nat) (hw : st.builder.WF)
    (h : st.build (Append_str cs) = .done st1) :
    st1.builder.WF ∧ st1.builder.output = st.builder.output ++ cs
      ∧ st1.stack = st.stack ∧ st1.heap = st.heap
      ∧ st1.builder.is_ascii = st.builder.is_ascii := by
  obtain ⟨b1, e1, rfl⟩ := build_done _ _ _ h
  obtain ⟨b2, e2, w2, o2, a2⟩ := Append_str_spec cs st.builder hw
  rw [e1] at e2; cases e2
  exact ⟨w2, o2, rfl, rfl, a2⟩

theorem build_SerializeString (st st1 : State) (s : HString) (hw : st.builder.WF)
    (h : st.build (SerializeString s) = .done st1) :
    st1.builder.WF ∧ st1.builder.output = st.builder.output ++ quoted s
      ∧ st1.stack = st.stack ∧ st1.heap = st.heap := by
  obtain ⟨b1, e1, rfl⟩ := build_done _ _ _ h
  obtain ⟨w2, o2, _⟩ := SerializeString_some s st.builder b1 hw e1
  exact ⟨w2, o2, rfl, rfl⟩

theorem deferredKey_done (d comma : Bool) (key : Value) (st st1 : State)
    (hw : st.builder.WF) (h : deferredKey d comma key st = .done st1) :
    st1.builder.WF ∧ st1.builder.output = st.builder.output ++ keyPrefix d comma key
      ∧ st1.stack = st.stack ∧ st1.heap = st.heap := by
  unfold deferredKey at h
  cases d with
  | false =>
    simp only [Bool.false_eq_true, if_false, Run.done.injEq] at h
    subst h
    exact ⟨hw, by simp [keyPrefix], rfl, rfl⟩
  | true =>
    simp only [if_true] at h
    unfold SerializeDeferredKey at h
    cases key with
    | String s =>
      simp only at h
      cases h1 : (if comma = true then st.build (Append 0x2C) else Run.done st) with
      | fault => simp [h1] at h
      | timeout => simp [h1] at h
      | done s1 =>
        simp only [h1] at h
        have p1 : s1.builder.WF ∧ s1.builder.output
            = st.builder.output ++ (if comma = true then [0x2C] else [])
            ∧ s1.stack = st.stack ∧ s1.heap = st.heap := by
          cases comma with
          | false =>
            simp only [Bool.false_eq_true, if_false, Run.done.injEq] at h1
            subst h1; exact ⟨hw, by simp, rfl, rfl⟩
          | true =>
            simp only [if_true] at h1
            obtain ⟨w, o, s, hp, _⟩ := build_Append _ _ _ hw h1
            exact ⟨w, by simpa using o, s, hp⟩
        obtain ⟨w1, o1, k1, hp1⟩ := p1
        cases h2 : s1.build (SerializeString s) with
        | fault => simp [h2] at h
        | timeout => simp [h2] at h
        | done s2 =>
          simp only [h2] at h
          obtain ⟨w2, o2, k2, hp2⟩ := build_SerializeString _ _ _ w1 h2
          obtain ⟨w3, o3, k3, hp3, _⟩ := build_Append _ _ _ w2 h
          refine ⟨w3, ?_, by rw [k3, k2, k1], by rw [hp3, hp2, hp1]⟩
          rw [o3, o2, o1]
          simp [keyPrefix, List.append_assoc]
    | Smi _ => simp at h
    | HeapNumber _ => simp at h
    | Oddball _ => simp at h
    | JSObject _ => simp at h
    | Other => simp at h

theorem SerializeSmi_done (host : Host) (value : Int) (st : State) (r : Result) (st1 : State)
    (hw : st.builder.WF) (h : SerializeSmi host value st = .done (r, st1)) :
    r = .SUCCESS ∧ st1.builder.WF ∧ st1.stack = st.stack ∧ st1.heap = st.heap
      ∧ st1.builder.output = st.builder.output ++ host.IntToCString value := by
  unfold SerializeSmi at h
  cases h1 : st.build (Append_str (host.IntToCString value)) with
  | fault => simp [h1] at h
  | timeout => simp [h1] at h
  | done s1 =>
    simp only [h1, Run.done.injEq, Prod.mk.injEq] at h
    obtain ⟨rfl, rfl⟩ := h
    obtain ⟨w, o, k, hp, _⟩ := build_Append_str _ _ _ hw h1
    exact ⟨rfl, w, k, hp, o⟩

theorem doubleText_Emitted (host : Host) (d : Dbl) : Emitted host (doubleText host d) := by
  cases d with
  | finite id => exact Emitted.double id
  | infinite => exact Emitted.null
  | nan => exact Emitted.null

theorem SerializeDouble_done (host : Host) (number : Dbl) (st : State) (r : Result)
    (st1 : State) (hw : st.builder.WF) (h : SerializeDouble host number st = .done (r, st1)) :
    r = .SUCCESS ∧ st1.builder.WF ∧ st1.stack = st.stack ∧ st1.heap = st.heap
      ∧ st1.builder.output = st.builder.output ++ doubleText host number := by
  unfold SerializeDouble at h
  unfold doubleText
  split at h
  · next hc =>
    simp only [hc, if_true]
    cases h1 : st.build (Append_str str_null) with
    | fault => simp [h1] at h
    | timeout => simp [h1] at h
    | done s1 =>
      simp only [h1, Run.done.injEq, Prod.mk.injEq] at h
      obtain ⟨rfl, rfl⟩ := h
      obtain ⟨w, o, k, hp, _⟩ := build_Append_str _ _ _ hw h1
      exact ⟨rfl, w, k, hp, o⟩
  · next hc =>
    simp only [hc, if_false]
    cases h1 : st.build (Append_str (host.DoubleToCString number)) with
    | fault => simp [h1] at h
    | timeout => simp [h1] at h
    | done s1 =>
      simp only [h1, Run.done.injEq, Prod.mk.injEq] at h
      obtain ⟨rfl, rfl⟩ := h
      obtain ⟨w, o, k, hp, _⟩ := build_Append_str _ _ _ hw h1
      exact ⟨rfl, w, k, hp, o⟩

theorem SerializeJSValue_done (host : Host) (shape : Shape) (st : State) (r : Result)
    (st1 : State) (hw : st.builder.WF) (h : SerializeJSValue host shape st = .done (r, st1)) :
    ValPost host st r st1 ∧ st1.heap = st.heap
      ∧ (r = .SUCCESS ∨ r = .EXCEPTION ∧ st1 = st) := by
  unfold SerializeJSValue at h
  cases shape with
  | JSFunction => simp at h
  | JSArray _ => simp at h
  | JSObject => simp at h
  | JSValue_String o =>
    cases o with
    | none =>
      simp only [Run.done.injEq, Prod.mk.injEq] at h
      obtain ⟨rfl, rfl⟩ := h
      exact ⟨⟨hw, by decide, by intro e; cases e⟩, rfl, Or.inr ⟨rfl, rfl⟩⟩
    | some value =>
      simp only at h
      cases h1 : st.build (SerializeString value) with
      | fault => simp [h1] at h
      | timeout => simp [h1] at h
      | done s1 =>
        simp only [h1, Run.done.injEq, Prod.mk.injEq] at h
        obtain ⟨rfl, rfl⟩ := h
        obtain ⟨w, o, k, hp⟩ := build_SerializeString _ _ _ hw h1
        exact ⟨⟨w, by decide, fun _ => ⟨k, _, Emitted.string value, o⟩⟩, hp, Or.inl rfl⟩
  | JSValue_Number o =>
    cases o with
    | none =>
      simp only [Run.done.injEq, Prod.mk.injEq] at h
      obtain ⟨rfl, rfl⟩ := h
      exact ⟨⟨hw, by decide, by intro e; cases e⟩, rfl, Or.inr ⟨rfl, rfl⟩⟩
    | some n =>
      cases n with
      | Smi value =>
        simp only at h
        obtain ⟨rfl, w, k, hp, o⟩ := SerializeSmi_done _ _ _ _ _ hw h
        exact ⟨⟨w, by decide, fun _ => ⟨k, _, Emitted.smi value, o⟩⟩, hp, Or.inl rfl⟩
      | HeapNumber value =>
        simp only at h
        cases h1 : SerializeDouble host value st with
        | fault => simp [h1] at h
        | timeout => simp [h1] at h
        | done p =>
          obtain ⟨r0, s1⟩ := p
          simp only [h1, Run.done.injEq, Prod.mk.injEq] at h
          obtain ⟨rfl, rfl⟩ := h
          obtain ⟨_, w, k, hp, o⟩ := SerializeDouble_done _ _ _ _ _ hw h1
          exact ⟨⟨w, by decide, fun _ => ⟨k, _, doubleText_Emitted host value, o⟩⟩, hp,
            Or.inl rfl⟩
  | JSValue_Boolean value =>
    simp only at h
    cases h1 : st.build (Append_str (if value = true then str_true else str_false)) with
    | fault => simp [h1] at h
    | timeout => simp [h1] at h
    | done s1 =>
      simp only [h1, Run.done.injEq, Prod.mk.injEq] at h
      obtain ⟨rfl, rfl⟩ := h
      obtain ⟨w, o, k, hp, _⟩ := build_Append_str _ _ _ hw h1
      refine ⟨⟨w, by decide, fun _ => ⟨k, _, ?_, o⟩⟩, hp, Or.inl rfl⟩
      cases value
      · exact Emitted.false_
      · exact Emitted.true_

theorem appendSeparator_done (i : Nat) (st st1 : State) (hw : st.builder.WF)
    (h : appendSeparator i st = .done st1) :
    st1.builder.WF ∧ st1.stack = st.stack ∧ st1.heap = st.heap
      ∧ st1.builder.output = st.builder.output ++ (if i = 0 then [] else [0x2C]) := by
  unfold appendSeparator at h
  by_cases hi : i = 0
  · subst hi
    simp only [gt_iff_lt, Nat.lt_irrefl, if_false, Run.done.injEq] at h
    subst h
    exact ⟨hw, rfl, rfl, by simp⟩
  · have : i > 0 := Nat.pos_of_ne_zero hi
    simp only [this, if_true] at h
    obtain ⟨w, o, k, hp, _⟩ := build_Append _ _ _ hw h
    exact ⟨w, k, hp, by simpa [hi] using o⟩

theorem elementResult_done (r : Result) (st : State) (o : Option Result) (st1 : State)
    (hw : st.builder.WF) (h : elementResult r st = .done (o, st1)) :
    st1.builder.WF ∧ st1.stack = st.stack ∧ st1.heap = st.heap ∧
      ((o = none ∧ r = .SUCCESS ∧ st1 = st)
      ∨ (o = none ∧ r = .UNCHANGED ∧ st1.builder.output = st.builder.output ++ str_null)
      ∨ (o = some r ∧ r ≠ .SUCCESS ∧ r ≠ .UNCHANGED ∧ st1 = st)) := by
  unfold elementResult at h
  by_cases h1 : r = .SUCCESS
  · simp only [h1, if_true, Run.done.injEq, Prod.mk.injEq] at h
    obtain ⟨rfl, rfl⟩ := h
    exact ⟨hw, rfl, rfl, Or.inl ⟨rfl, h1, rfl⟩⟩
  · by_cases h2 : r = .UNCHANGED
    · simp only [h1, if_false, h2, if_true] at h
      cases hb : st.build (Append_str str_null) with
      | fault => simp [hb] at h
      | timeout => simp [hb] at h
      | done s1 =>
        simp only [hb, Run.done.injEq, Prod.mk.injEq] at h
        obtain ⟨rfl, rfl⟩ := h
        obtain ⟨w, o, k, hp, _⟩ := build_Append_str _ _ _ hw hb
        exact ⟨w, k, hp, Or.inr (Or.inl ⟨rfl, h2, o⟩)⟩
    · simp only [h1, if_false, h2, Run.done.injEq, Prod.mk.injEq] at h
      obtain ⟨rfl, rfl⟩ := h
      exact ⟨hw, rfl, rfl, Or.inr (Or.inr ⟨rfl, h1, h2, rfl⟩)⟩

theorem commaSep_cons (first : Bool) (t : List Nat) (ts : List (List Nat)) :
    commaSep first (t :: ts) = (if first then [] else [0x2C]) ++ t ++ commaSep false ts := rfl

theorem smiLoop_done (host : Host) (es : List Int) (i : Nat) (st st1 : State)
    (hw : st.builder.WF) (h : smiLoop host es i st = .done st1) :
    st1.builder.WF ∧ st1.stack = st.stack ∧ st1.heap = st.heap ∧
      st1.builder.output
        = st.builder.output ++ commaSep (decide (i = 0)) (es.map host.IntToCString) := by
  induction es generalizing i st with
  | nil =>
    simp only [smiLoop, Run.done.injEq] at h
    subst h; exact ⟨hw, rfl, rfl, by simp [commaSep]⟩
  | cons e es ih =>
    simp only [smiLoop] at h
    cases h1 : appendSeparator i st with
    | fault => simp [h1] at h
    | timeout => simp [h1] at h
    | done s1 =>
      simp only [h1] at h
      obtain ⟨w1, k1, hp1, o1⟩ := appendSeparator_done _ _ _ hw h1
      cases h2 : SerializeSmi host e s1 with
      | fault => simp [h2] at h
      | timeout => simp [h2] at h
      | done p =>
        obtain ⟨r2, s2⟩ := p
        simp only [h2] at h
        obtain ⟨_, w2, k2, hp2, o2⟩ := SerializeSmi_done _ _ _ _ _ w1 h2
        obtain ⟨w3, k3, hp3, o3⟩ := ih (i + 1) s2 w2 h
        refine ⟨w3, by rw [k3, k2, k1], by rw [hp3, hp2, hp1], ?_⟩
        rw [o3, o2, o1, List.map_cons, commaSep_cons]
        simp [List.append_assoc]

theorem doubleLoop_done (host : Host) (es : List Dbl) (i : Nat) (st st1 : State)
    (hw : st.builder.WF) (h : doubleLoop host es i st = .done st1) :
    st1.builder.WF ∧ st1.stack = st.stack ∧ st1.heap = st.heap ∧
      st1.builder.output
        = st.builder.output ++ commaSep (decide (i = 0)) (es.map (doubleText host)) := by
  induction es generalizing i st with
  | nil =>
    simp only [doubleLoop, Run.done.injEq] at h
    subst h; exact ⟨hw, rfl, rfl, by simp [commaSep]⟩
  | cons e es ih =>
    simp only [doubleLoop] at h
    cases h1 : appendSeparator i st with
    | fault => simp [h1] at h
    | timeout => simp [h1] at h
    | done s1 =>
      simp only [h1] at h
      obtain ⟨w1, k1, hp1, o1⟩ := appendSeparator_done _ _ _ hw h1
      cases h2 : SerializeDouble host e s1 with
      | fault => simp [h2] at h
      | timeout => simp [h2] at h
      | done p =>
        obtain ⟨r2, s2⟩ := p
        simp only [h2] at h
        obtain ⟨_, w2, k2, hp2, o2⟩ := SerializeDouble_done _ _ _ _ _ w1 h2
        obtain ⟨w3, k3, hp3, o3⟩ := ih (i + 1) s2 w2 h
        refine ⟨w3, by rw [k3, k2, k1], by rw [hp3, hp2, hp1], ?_⟩
        rw [o3, o2, o1, List.map_cons, commaSep_cons]
        simp [List.append_assoc]

/-- One array element handled by `SerializeElement` and `elementResult`: either
the loop goes on with the element text appended, or it stops with a failure. -/
theorem element_done (host : Host) (recurse : Recurse) (hrec : RecOK host recurse)
    (e : Value) (i : Nat) (s1 s2 s3 : State) (r : Result) (o : Option Result)
    (w1 : s1.builder.WF) (h2 : SerializeElement recurse e i s1 = .done (r, s2))
    (h3 : elementResult r s2 = .done (o, s3)) :
    s3.builder.WF ∧
      ((o = none ∧ s3.stack = s1.stack ∧ ∃ t, Emitted host t ∧
          s3.builder.output = s1.builder.output ++ t)
      ∨ (o = some r ∧ r ≠ .SUCCESS ∧ r ≠ .UNCHANGED ∧ s3 = s2)) := by
  have hp := hrec _ _ _ _ _ _ _ w1 h2
  obtain ⟨w3, k3, _, hcase⟩ := elementResult_done _ _ _ _ hp.wf h3
  refine ⟨w3, ?_⟩
  rcases hcase with ⟨rfl, rfl, rfl⟩ | ⟨rfl, rfl, o3⟩ | ⟨rfl, n1, n2, rfl⟩
  · obtain ⟨k, t, ht, o⟩ := hp.success rfl
    exact Or.inl ⟨rfl, k, t, ht, by simpa [keyPrefix] using o⟩
  · obtain ⟨hb, k⟩ := hp.unchanged rfl
    exact Or.inl ⟨rfl, by rw [k3, k], str_null, Emitted.null, by rw [o3, hb]⟩
  · exact Or.inr ⟨rfl, n1, n2, rfl⟩

theorem elementsLoop_done (host : Host) (recurse : Recurse) (hrec : RecOK host recurse)
    (es : List Value) (i : Nat) (st : State) (r : Result) (st1 : State)
    (hw : st.builder.WF) (h : elementsLoop recurse es i st = .done (r, st1)) :
    st1.builder.WF ∧ r ≠ .UNCHANGED ∧ (r = .SUCCESS → st1.stack = st.stack ∧
      ∃ items, (∀ t ∈ items, Emitted host t) ∧
        st1.builder.output = st.builder.output ++ commaSep (decide (i = 0)) items) := by
  induction es generalizing i st with
  | nil =>
    simp only [elementsLoop, Run.done.injEq, Prod.mk.injEq] at h
    obtain ⟨rfl, rfl⟩ := h
    exact ⟨hw, by decide, fun _ => ⟨rfl, [], by simp, by simp [commaSep]⟩⟩
  | cons e es ih =>
    simp only [elementsLoop] at h
    cases h1 : appendSeparator i st with
    | fault => simp [h1] at h
    | timeout => simp [h1] at h
    | done s1 =>
      simp only [h1] at h
      obtain ⟨w1, k1, hp1, o1⟩ := appendSeparator_done _ _ _ hw h1
      cases h2 : SerializeElement recurse e i s1 with
      | fault => simp [h2] at h
      | timeout => simp [h2] at h
      | done p =>
        obtain ⟨r2, s2⟩ := p
        simp only [h2] at h
        cases h3 : elementResult r2 s2 with
        | fault => simp [h3] at h
        | timeout => simp [h3] at h
        | done q =>
          obtain ⟨o, s3⟩ := q
          obtain ⟨w3, hcase⟩ := element_done host recurse hrec e i s1 s2 s3 r2 o w1 h2 h3
          rcases hcase with ⟨rfl, k3, t, ht, o3⟩ | ⟨rfl, n1, n2, rfl⟩
          · simp only [h3] at h
            obtain ⟨w4, n4, h4⟩ := ih (i + 1) s3 w3 h
            refine ⟨w4, n4, fun hr => ?_⟩
            obtain ⟨k4, items, hi, o4⟩ := h4 hr
            refine ⟨by rw [k4, k3, k1], t :: items, ?_, ?_⟩
            · intro x hx
              rcases List.mem_cons.mp hx with rfl | hx
              · exact ht
              · exact hi x hx
            · rw [o4, o3, o1, commaSep_cons]
              simp [List.append_assoc]
          · simp only [h3, Run.done.injEq, Prod.mk.injEq] at h
            obtain ⟨rfl, rfl⟩ := h
            exact ⟨w3, n2, fun hr => absurd hr n1⟩

theorem SerializeJSArraySlow_done (host : Host) (recurse : Recurse) (hrec : RecOK host recurse)
    (object : Nat) (remaining i : Nat) (st : State) (r : Result) (st1 : State)
    (hw : st.builder.WF)
    (h : SerializeJSArraySlow recurse object remaining i st = .done (r, st1)) :
    st1.builder.WF ∧ r ≠ .UNCHANGED ∧ (r = .SUCCESS → st1.stack = st.stack ∧
      ∃ items, (∀ t ∈ items, Emitted host t) ∧
        st1.builder.output = st.builder.output ++ commaSep (decide (i = 0)) items) := by
  induction remaining generalizing i st with
  | zero =>
    simp only [SerializeJSArraySlow, Run.done.injEq, Prod.mk.injEq] at h
    obtain ⟨rfl, rfl⟩ := h
    exact ⟨hw, by decide, fun _ => ⟨rfl, [], by simp, by simp [commaSep]⟩⟩
  | succ remaining ih =>
    simp only [SerializeJSArraySlow] at h
    cases h1 : appendSeparator i st with
    | fault => simp [h1] at h
    | timeout => simp [h1] at h
    | done s1 =>
      simp only [h1] at h
      obtain ⟨w1, k1, hp1, o1⟩ := appendSeparator_done _ _ _ hw h1
      cases hg : GetElement s1.heap object i with
      | none => simp [hg] at h
      | some element =>
        simp only [hg] at h
        by_cases hu : element = .Oddball .kUndefined
        · simp only [hu, if_true] at h
          cases h2 : s1.build (Append_str str_null) with
          | fault => simp [h2] at h
          | timeout => simp [h2] at h
          | done s2 =>
            simp only [h2] at h
            obtain ⟨w2, o2, k2, _, _⟩ := build_Append_str _ _ _ w1 h2
            obtain ⟨w4, n4, h4⟩ := ih (i + 1) s2 w2 h
            refine ⟨w4, n4, fun hr => ?_⟩
            obtain ⟨k4, items, hi, o4⟩ := h4 hr
            refine ⟨by rw [k4, k2, k1], str_null :: items, ?_, ?_⟩
            · intro x hx
              rcases List.mem_cons.mp hx with rfl | hx
              · exact Emitted.null
              · exact hi x hx
            · rw [o4, o2, o1, commaSep_cons]
              simp [List.append_assoc]
        · simp only [hu, if_false] at h
          cases h2 : SerializeElement recurse element i s1 with
          | fault => simp [h2] at h
          | timeout => simp [h2] at h
          | done p =>
            obtain ⟨r2, s2⟩ := p
            simp only [h2] at h
            cases h3 : elementResult r2 s2 with
            | fault => simp [h3] at h
            | timeout => simp [h3] at h
            | done q =>
              obtain ⟨o, s3⟩ := q
              obtain ⟨w3, hcase⟩ :=
                element_done host recurse hrec element i s1 s2 s3 r2 o w1 h2 h3
              rcases hcase with ⟨rfl, k3, t, ht, o3⟩ | ⟨rfl, n1, n2, rfl⟩
              · simp only [h3] at h
                obtain ⟨w4, n4, h4⟩ := ih (i + 1) s3 w3 h
                refine ⟨w4, n4, fun hr => ?_⟩
                obtain ⟨k4, items, hi, o4⟩ := h4 hr
                refine ⟨by rw [k4, k3, k1], t :: items, ?_, ?_⟩
                · intro x hx
                  rcases List.mem_cons.mp hx with rfl | hx
                  · exact ht
                  · exact hi x hx
                · rw [o4, o3, o1, commaSep_cons]
                  simp [List.append_assoc]
              · simp only [h3, Run.done.injEq, Prod.mk.injEq] at h
                obtain ⟨rfl, rfl⟩ := h
                exact ⟨w3, n2, fun hr => absurd hr n1⟩

theorem StackPush_cases (host : Host) (object : Nat) (st : State) :
    (StackPush host object st = (.SUCCESS, { st with stack := st.stack ++ [object] })
      ∧ host.HasOverflowed st.stack.length = false ∧ object ∉ st.stack)
    ∨ (StackPush host object st = (.STACK_OVERFLOW, st)
      ∧ host.HasOverflowed st.stack.length = true)
    ∨ (StackPush host object st = (.CIRCULAR, st)
      ∧ host.HasOverflowed st.stack.length = false ∧ object ∈ st.stack) := by
  unfold StackPush
  by_cases h1 : host.HasOverflowed st.stack.length = true
  · simp [h1]
  · have h1f : host.HasOverflowed st.stack.length = false := by simpa using h1
    by_cases h2 : object ∈ st.stack
    · right; right
      have : (st.stack.any fun e => e == object) = true := by
        simp only [List.any_eq_true, beq_iff_eq]
        exact ⟨object, h2, rfl⟩
      simp [h1f, this, h2]
    · left
      have : (st.stack.any fun e => e == object) = false := by
        rw [← Bool.not_eq_true]
        simp only [List.any_eq_true, beq_iff_eq, not_exists, not_and]
        intro x hx hxo
        exact h2 (hxo ▸ hx)
      simp [h1f, this, h2]

theorem StackPop_push (st : State) (stack : List Nat) (object : Nat)
    (h : st.stack = stack ++ [object]) : (StackPop st).stack = stack := by
  simp [StackPop, h]

theorem arrayBody_done (host : Host) (recurse : Recurse) (hrec : RecOK host recurse)
    (object : Nat) (elements : Elements) (st : State) (r : Result) (st1 : State)
    (hw : st.builder.WF) (h : arrayBody host recurse object elements st = .done (r, st1)) :
    st1.builder.WF ∧ r ≠ .UNCHANGED ∧ (r = .SUCCESS → st1.stack = st.stack ∧
      ∃ items, (∀ t ∈ items, Emitted host t) ∧
        st1.builder.output = st.builder.output ++ commaSep true items) := by
  unfold arrayBody at h
  cases elements with
  | FAST_SMI_ELEMENTS es =>
    simp only at h
    cases h1 : smiLoop host es 0 st with
    | fault => simp [h1] at h
    | timeout => simp [h1] at h
    | done s1 =>
      simp only [h1, Run.done.injEq, Prod.mk.injEq] at h
      obtain ⟨rfl, rfl⟩ := h
      obtain ⟨w, k, _, o⟩ := smiLoop_done _ _ _ _ _ hw h1
      refine ⟨w, by decide, fun _ => ⟨k, _, ?_, by simpa using o⟩⟩
      intro t ht
      obtain ⟨e, _, rfl⟩ := List.mem_map.mp ht
      exact Emitted.smi e
  | FAST_DOUBLE_ELEMENTS es =>
    simp only at h
    cases h1 : doubleLoop host es 0 st with
    | fault => simp [h1] at h
    | timeout => simp [h1] at h
    | done s1 =>
      simp only [h1, Run.done.injEq, Prod.mk.injEq] at h
      obtain ⟨rfl, rfl⟩ := h
      obtain ⟨w, k, _, o⟩ := doubleLoop_done _ _ _ _ _ hw h1
      refine ⟨w, by decide, fun _ => ⟨k, _, ?_, by simpa using o⟩⟩
      intro t ht
      obtain ⟨e, _, rfl⟩ := List.mem_map.mp ht
      exact doubleText_Emitted host e
  | FAST_ELEMENTS es =>
    simpa using elementsLoop_done host recurse hrec es 0 st r st1 hw h
  | OTHER es =>
    simpa using SerializeJSArraySlow_done host recurse hrec object es.length 0 st r st1 hw h

theorem SerializeJSArray_done (host : Host) (recurse : Recurse) (hrec : RecOK host recurse)
    (object : Nat) (elements : Elements) (st : State) (r : Result) (st1 : State)
    (hw : st.builder.WF)
    (h : SerializeJSArray host recurse object elements st = .done (r, st1)) :
    ValPost host st r st1 := by
  unfold SerializeJSArray at h
  rcases StackPush_cases host object st with ⟨hp, _, _⟩ | ⟨hp, _⟩ | ⟨hp, _, _⟩
  · rw [hp] at h
    simp only at h
    cases h1 : State.build { st with stack := st.stack ++ [object] } (Append 0x5B) with
    | fault => simp [h1] at h
    | timeout => simp [h1] at h
    | done s1 =>
      simp only [h1] at h
      obtain ⟨w1, o1, k1, _, _⟩ :=
        build_Append { st with stack := st.stack ++ [object] } s1 0x5B hw h1
      cases h2 : arrayBody host recurse object elements s1 with
      | fault => simp [h2] at h
      | timeout => simp [h2] at h
      | done p =>
        obtain ⟨r2, s2⟩ := p
        obtain ⟨w2, n2, hs2⟩ := arrayBody_done host recurse hrec object elements s1 r2 s2 w1 h2
        cases r2 with
        | SUCCESS =>
          simp only [h2] at h
          obtain ⟨k2, items, hi, o2⟩ := hs2 rfl
          cases h3 : s2.build (Append 0x5D) with
          | fault => simp [h3] at h
          | timeout => simp [h3] at h
          | done s3 =>
            simp only [h3, Run.done.injEq, Prod.mk.injEq] at h
            obtain ⟨rfl, rfl⟩ := h
            obtain ⟨w3, o3, k3, _, _⟩ := build_Append _ _ _ w2 h3
            refine ⟨w3, by decide, fun _ => ⟨?_, _, Emitted.array items hi, ?_⟩⟩
            · exact StackPop_push _ _ object (by rw [k3, k2, k1])
            · show s3.builder.output = _
              rw [o3, o2, o1]; simp [List.append_assoc]
        | UNCHANGED => exact absurd rfl n2
        | EXCEPTION =>
          simp only [h2, Run.done.injEq, Prod.mk.injEq] at h
          obtain ⟨rfl, rfl⟩ := h
          exact ⟨w2, by decide, by intro e; cases e⟩
        | CIRCULAR =>
          simp only [h2, Run.done.injEq, Prod.mk.injEq] at h
          obtain ⟨rfl, rfl⟩ := h
          exact ⟨w2, by decide, by intro e; cases e⟩
        | STACK_OVERFLOW =>
          simp only [h2, Run.done.injEq, Prod.mk.injEq] at h
          obtain ⟨rfl, rfl⟩ := h
          exact ⟨w2, by decide, by intro e; cases e⟩
  · rw [hp] at h
    simp only [Run.done.injEq, Prod.mk.injEq] at h
    obtain ⟨rfl, rfl⟩ := h
    exact ⟨hw, by decide, by intro e; cases e⟩
  · rw [hp] at h
    simp only [Run.done.injEq, Prod.mk.injEq] at h
    obtain ⟨rfl, rfl⟩ := h
    exact ⟨hw, by decide, by intro e; cases e⟩

theorem Result_toNat_lt (r : Result) (h : ¬ r.toNat ≥ Result.EXCEPTION.toNat) :
    r = .UNCHANGED ∨ r = .SUCCESS := by
  cases r <;> simp [Result.toNat] at h ⊢

theorem Result_toNat_ge (r : Result) (h : r.toNat ≥ Result.EXCEPTION.toNat) :
    r ≠ .UNCHANGED ∧ r ≠ .SUCCESS := by
  cases r <;> simp [Result.toNat] at h ⊢

theorem propertiesLoop_done (host : Host) (recurse : Recurse) (hrec : RecOK host recurse)
    (object : Nat) (contents : List Key) (comma : Bool) (st : State) (r : Result)
    (st1 : State) (hw : st.builder.WF)
    (h : propertiesLoop recurse object contents comma st = .done (r, st1)) :
    st1.builder.WF ∧ r ≠ .UNCHANGED ∧ (r = .SUCCESS → st1.stack = st.stack ∧
      ∃ members : List (HString × List Nat), (∀ m ∈ members, Emitted host m.2) ∧
        st1.builder.output
          = st.builder.output ++ commaSep (!comma) (members.map memberText)) := by
  induction contents generalizing comma st with
  | nil =>
    simp only [propertiesLoop, Run.done.injEq, Prod.mk.injEq] at h
    obtain ⟨rfl, rfl⟩ := h
    exact ⟨hw, by decide, fun _ => ⟨rfl, [], by simp, by simp [commaSep]⟩⟩
  | cons key contents ih =>
    simp only [propertiesLoop] at h
    cases hf : fetchProperty st.heap object key with
    | mk key_handle property =>
      cases property with
      | none =>
        simp only [hf, Run.done.injEq, Prod.mk.injEq] at h
        obtain ⟨rfl, rfl⟩ := h
        exact ⟨hw, by decide, by intro e; cases e⟩
      | some property =>
        simp only [hf] at h
        cases h1 : SerializeProperty recurse property comma key_handle st with
        | fault => simp [h1] at h
        | timeout => simp [h1] at h
        | done p =>
          obtain ⟨result, s1⟩ := p
          simp only [h1] at h
          have hp := hrec _ _ _ _ _ _ _ hw h1
          by_cases hge : result.toNat ≥ Result.EXCEPTION.toNat
          · simp only [hge, if_true, Run.done.injEq, Prod.mk.injEq] at h
            obtain ⟨rfl, rfl⟩ := h
            obtain ⟨n1, n2⟩ := Result_toNat_ge _ hge
            exact ⟨hp.wf, n1, fun e => absurd e n2⟩
          · simp only [hge, if_false] at h
            rcases Result_toNat_lt _ hge with rfl | rfl
            · obtain ⟨hb, k⟩ := hp.unchanged rfl
              have hc : (if (!comma && decide (Result.UNCHANGED = Result.SUCCESS)) = true
                  then true else comma) = comma := by simp
              rw [hc] at h
              obtain ⟨w2, n2, h2⟩ := ih comma s1 hp.wf h
              refine ⟨w2, n2, fun hr => ?_⟩
              obtain ⟨k2, members, hm, o2⟩ := h2 hr
              exact ⟨by rw [k2, k], members, hm, by rw [o2, hb]⟩
            · obtain ⟨k, text, ht, o⟩ := hp.success rfl
              have hc : (if (!comma && decide (Result.SUCCESS = Result.SUCCESS)) = true
                  then true else comma) = true := by cases comma <;> simp
              rw [hc] at h
              obtain ⟨w2, n2, h2⟩ := ih true s1 hp.wf h
              refine ⟨w2, n2, fun hr => ?_⟩
              obtain ⟨k2, members, hm, o2⟩ := h2 hr
              refine ⟨by rw [k2, k], (key_handle, text) :: members, ?_, ?_⟩
              · intro x hx
                rcases List.mem_cons.mp hx with rfl | hx
                · exact ht
                · exact hm x hx
              · rw [o2, o, List.map_cons, commaSep_cons]
                cases comma <;> simp [keyPrefix, memberText, List.append_assoc]

theorem SerializeJSObject_done (host : Host) (recurse : Recurse) (hrec : RecOK host recurse)
    (object : Nat) (st : State) (r : Result) (st1 : State) (hw : st.builder.WF)
    (h : SerializeJSObject host recurse object st = .done (r, st1)) :
    ValPost host st r st1 := by
  unfold SerializeJSObject at h
  rcases StackPush_cases host object st with ⟨hp, _, _⟩ | ⟨hp, _⟩ | ⟨hp, _, _⟩
  · rw [hp] at h
    simp only at h
    generalize (match (st.heap object).global_proxy with
      | some prototype => prototype
      | none => object) = target at h
    cases hk : (st.heap target).keys with
    | none =>
      simp only [hk, Run.done.injEq, Prod.mk.injEq] at h
      obtain ⟨rfl, rfl⟩ := h
      exact ⟨hw, by decide, by intro e; cases e⟩
    | some contents =>
      simp only [hk] at h
      cases h1 : State.build { st with stack := st.stack ++ [object] } (Append 0x7B) with
      | fault => simp [h1] at h
      | timeout => simp [h1] at h
      | done s1 =>
        simp only [h1] at h
        obtain ⟨w1, o1, k1, _, _⟩ :=
          build_Append { st with stack := st.stack ++ [object] } s1 0x7B hw h1
        cases h2 : propertiesLoop recurse target contents false s1 with
        | fault => simp [h2] at h
        | timeout => simp [h2] at h
        | done p =>
          obtain ⟨r2, s2⟩ := p
          obtain ⟨w2, n2, hs2⟩ :=
            propertiesLoop_done host recurse hrec target contents false s1 r2 s2 w1 h2
          cases r2 with
          | SUCCESS =>
            simp only [h2] at h
            obtain ⟨k2, members, hm, o2⟩ := hs2 rfl
            cases h3 : s2.build (Append 0x7D) with
            | fault => simp [h3] at h
            | timeout => simp [h3] at h
            | done s3 =>
              simp only [h3, Run.done.injEq, Prod.mk.injEq] at h
              obtain ⟨rfl, rfl⟩ := h
              obtain ⟨w3, o3, k3, _, _⟩ := build_Append _ _ _ w2 h3
              refine ⟨w3, by decide, fun _ => ⟨?_, _, Emitted.object members hm, ?_⟩⟩
              · exact StackPop_push _ _ object (by rw [k3, k2, k1])
              · show s3.builder.output = _
                rw [o3, o2, o1]; simp [List.append_assoc]
          | UNCHANGED => exact absurd rfl n2
          | EXCEPTION =>
            simp only [h2, Run.done.injEq, Prod.mk.injEq] at h
            obtain ⟨rfl, rfl⟩ := h
            exact ⟨w2, by decide, by intro e; cases e⟩
          | CIRCULAR =>
            simp only [h2, Run.done.injEq, Prod.mk.injEq] at h
            obtain ⟨rfl, rfl⟩ := h
            exact ⟨w2, by decide, by intro e; cases e⟩
          | STACK_OVERFLOW =>
            simp only [h2, Run.done.injEq, Prod.mk.injEq] at h
            obtain ⟨rfl, rfl⟩ := h
            exact ⟨w2, by decide, by intro e; cases e⟩
  · rw [hp] at h
    simp only [Run.done.injEq, Prod.mk.injEq] at h
    obtain ⟨rfl, rfl⟩ := h
    exact ⟨hw, by decide, by intro e; cases e⟩
  · rw [hp] at h
    simp only [Run.done.injEq, Prod.mk.injEq] at h
    obtain ⟨rfl, rfl⟩ := h
    exact ⟨hw, by decide, by intro e; cases e⟩

/-- A value serializer run after the deferred key yields the postcondition of `Serialize_`. -/
theorem Post_of_ValPost (host : Host) (d comma : Bool) (key : Value) (st s1 s2 : State)
    (r : Result) (hw : st.builder.WF) (hk : deferredKey d comma key st = .done s1)
    (hv : s1.builder.WF → ValPost host s1 r s2) : Post host d comma key st r s2 := by
  obtain ⟨w1, o1, k1, _⟩ := deferredKey_done d comma key st s1 hw hk
  have v := hv w1
  refine ⟨v.wf, fun e => absurd e v.changed, fun e => ?_⟩
  obtain ⟨k, text, ht, o⟩ := v.success e
  exact ⟨by rw [k, k1], text, ht, by rw [o, o1]⟩

theorem dispatch_done (host : Host) (recurse : Recurse) (hrec : RecOK host recurse)
    (d : Bool) (object : Value) (comma : Bool) (key : Value) (st : State) (r : Result)
    (st1 : State) (hw : st.builder.WF)
    (h : dispatch host recurse d object comma key st = .done (r, st1)) :
    Post host d comma key st r st1 := by
  have hunch : ∀ s : State, s.builder.WF → Post host d comma key s .UNCHANGED s :=
    fun s w => ⟨w, fun _ => ⟨rfl, rfl⟩, by intro e; cases e⟩
  unfold dispatch at h
  cases object with
  | JSObject id =>
    simp only at h
    cases hs : (st.heap id).shape with
    | JSFunction =>
      simp only [hs, Run.done.injEq, Prod.mk.injEq] at h
      obtain ⟨rfl, rfl⟩ := h
      exact hunch _ hw
    | JSArray elements =>
      simp only [hs] at h
      cases hk : deferredKey d comma key st with
      | fault => simp [hk] at h
      | timeout => simp [hk] at h
      | done s1 =>
        simp only [hk] at h
        exact Post_of_ValPost host d comma key st s1 st1 r hw hk
          (fun w1 => SerializeJSArray_done host recurse hrec id elements s1 r st1 w1 h)
    | JSObject =>
      simp only [hs] at h
      cases hk : deferredKey d comma key st with
      | fault => simp [hk] at h
      | timeout => simp [hk] at h
      | done s1 =>
        simp only [hk] at h
        exact Post_of_ValPost host d comma key st s1 st1 r hw hk
          (fun w1 => SerializeJSObject_done host recurse hrec id s1 r st1 w1 h)
    | JSValue_String o =>
      simp only [hs] at h
      cases hk : deferredKey d comma key st with
      | fault => simp [hk] at h
      | timeout => simp [hk] at h
      | done s1 =>
        simp only [hk] at h
        exact Post_of_ValPost host d comma key st s1 st1 r hw hk
          (fun w1 => (SerializeJSValue_done host _ s1 r st1 w1 h).1)
    | JSValue_Number o =>
      simp only [hs] at h
      cases hk : deferredKey d comma key st with
      | fault => simp [hk] at h
      | timeout => simp [hk] at h
      | done s1 =>
        simp only [hk] at h
        exact Post_of_ValPost host d comma key st s1 st1 r hw hk
          (fun w1 => (SerializeJSValue_done host _ s1 r st1 w1 h).1)
    | JSValue_Boolean o =>
      simp only [hs] at h
      cases hk : deferredKey d comma key st with
      | fault => simp [hk] at h
      | timeout => simp [hk] at h
      | done s1 =>
        simp only [hk] at h
        exact Post_of_ValPost host d comma key st s1 st1 r hw hk
          (fun w1 => (SerializeJSValue_done host _ s1 r st1 w1 h).1)
  | String s =>
    simp only at h
    cases hk : deferredKey d comma key st with
    | fault => simp [hk] at h
    | timeout => simp [hk] at h
    | done s1 =>
      simp only [hk] at h
      cases h2 : s1.build (SerializeString s) with
      | fault => simp [h2] at h
      | timeout => simp [h2] at h
      | done s2 =>
        simp only [h2, Run.done.injEq, Prod.mk.injEq] at h
        obtain ⟨rfl, rfl⟩ := h
        refine Post_of_ValPost host d comma key st s1 s2 _ hw hk (fun w1 => ?_)
        obtain ⟨w, o, k, _⟩ := build_SerializeString _ _ _ w1 h2
        exact ⟨w, by decide, fun _ => ⟨k, _, Emitted.string s, o⟩⟩
  | Smi value =>
    simp only at h
    cases hk : deferredKey d comma key st with
    | fault => simp [hk] at h
    | timeout => simp [hk] at h
    | done s1 =>
      simp only [hk] at h
      refine Post_of_ValPost host d comma key st s1 st1 _ hw hk (fun w1 => ?_)
      obtain ⟨rfl, w, k, _, o⟩ := SerializeSmi_done _ _ _ _ _ w1 h
      exact ⟨w, by decide, fun _ => ⟨k, _, Emitted.smi value, o⟩⟩
  | HeapNumber value =>
    simp only at h
    cases hk : deferredKey d comma key st with
    | fault => simp [hk] at h
    | timeout => simp [hk] at h
    | done s1 =>
      simp only [hk] at h
      refine Post_of_ValPost host d comma key st s1 st1 _ hw hk (fun w1 => ?_)
      obtain ⟨rfl, w, k, _, o⟩ := SerializeDouble_done _ _ _ _ _ w1 h
      exact ⟨w, by decide, fun _ => ⟨k, _, doubleText_Emitted host value, o⟩⟩
  | Oddball kind =>
    have hlit : ∀ text, Emitted host text →
        (match deferredKey d comma key st with
          | .done st1 =>
            match st1.build (Append_str text) with
            | .done st2 => Run.done (Result.SUCCESS, st2)
            | .fault => .fault
            | .timeout => .timeout
          | .fault => .fault
          | .timeout => .timeout) = .done (r, st1) → Post host d comma key st r st1 := by
      intro text ht h
      cases hk : deferredKey d comma key st with
      | fault => simp [hk] at h
      | timeout => simp [hk] at h
      | done s1 =>
        simp only [hk] at h
        cases h2 : s1.build (Append_str text) with
        | fault => simp [h2] at h
        | timeout => simp [h2] at h
        | done s2 =>
          simp only [h2, Run.done.injEq, Prod.mk.injEq] at h
          obtain ⟨rfl, rfl⟩ := h
          refine Post_of_ValPost host d comma key st s1 s2 _ hw hk (fun w1 => ?_)
          obtain ⟨w, o, k, _, _⟩ := build_Append_str _ _ _ w1 h2
          exact ⟨w, by decide, fun _ => ⟨k, _, ht, o⟩⟩
    cases kind with
    | kFalse => exact hlit _ Emitted.false_ h
    | kTrue => exact hlit _ Emitted.true_ h
    | kNull => exact hlit _ Emitted.null h
    | kTheHole =>
      simp only [Run.done.injEq, Prod.mk.injEq] at h
      obtain ⟨rfl, rfl⟩ := h; exact hunch _ hw
    | kArgumentMarker =>
      simp only [Run.done.injEq, Prod.mk.injEq] at h
      obtain ⟨rfl, rfl⟩ := h; exact hunch _ hw
    | kUndefined =>
      simp only [Run.done.injEq, Prod.mk.injEq] at h
      obtain ⟨rfl, rfl⟩ := h; exact hunch _ hw
    | kOther =>
      simp only [Run.done.injEq, Prod.mk.injEq] at h
      obtain ⟨rfl, rfl⟩ := h; exact hunch _ hw
  | Other =>
    simp only [Run.done.injEq, Prod.mk.injEq] at h
    obtain ⟨rfl, rfl⟩ := h
    exact hunch _ hw

theorem toJsonStep_some (host : Host) (object key : Value) (st : State) (object1 : Value)
    (st1 : State) (h : toJsonStep host object key st = some (object1, st1)) :
    st1.builder = st.builder ∧ st1.stack = st.stack := by
  unfold toJsonStep at h
  cases object with
  | JSObject id =>
    simp only at h
    cases ha : ApplyToJsonFunction host st.heap id key with
    | none => simp [ha] at h
    | some p =>
      simp only [ha, Option.some.injEq, Prod.mk.injEq] at h
      obtain ⟨_, rfl⟩ := h
      exact ⟨rfl, rfl⟩
  | Smi _ => simp only [Option.some.injEq, Prod.mk.injEq] at h; obtain ⟨_, rfl⟩ := h; simp
  | HeapNumber _ => simp only [Option.some.injEq, Prod.mk.injEq] at h; obtain ⟨_, rfl⟩ := h; simp
  | String _ => simp only [Option.some.injEq, Prod.mk.injEq] at h; obtain ⟨_, rfl⟩ := h; simp
  | Oddball _ => simp only [Option.some.injEq, Prod.mk.injEq] at h; obtain ⟨_, rfl⟩ := h; simp
  | Other => simp only [Option.some.injEq, Prod.mk.injEq] at h; obtain ⟨_, rfl⟩ := h; simp

theorem Post_congr (host : Host) (d comma : Bool) (key : Value) (st st0 st1 : State)
    (r : Result) (hb : st0.builder = st.builder) (hs : st0.stack = st.stack)
    (h : Post host d comma key st0 r st1) : Post host d comma key st r st1 := by
  refine ⟨h.wf, fun e => ?_, fun e => ?_⟩
  · rw [← hb, ← hs]; exact h.unchanged e
  · rw [← hb, ← hs]; exact h.success e

/-- Every completed call of `Serialize_` from a well-formed accumulator satisfies `Post`. -/
theorem Serialize__done (host : Host) (fuel : Nat) : RecOK host (Serialize_ host fuel) := by
  induction fuel with
  | zero =>
    intro d object comma key st r st1 _ h
    simp [Serialize_] at h
  | succ fuel ih =>
    intro d object comma key st r st1 hw h
    simp only [Serialize_] at h
    cases ht : toJsonStep host object key st with
    | none =>
      simp only [ht, Run.done.injEq, Prod.mk.injEq] at h
      obtain ⟨rfl, rfl⟩ := h
      exact ⟨hw, (fun e => by cases e), (fun e => by cases e)⟩
    | some p =>
      obtain ⟨object1, st0⟩ := p
      simp only [ht] at h
      obtain ⟨hb, hs⟩ := toJsonStep_some host object key st object1 st0 ht
      exact Post_congr host d comma key st st0 st1 r hb hs
        (dispatch_done host (Serialize_ host fuel) ih d object1 comma key st0 r st1
          (hb ▸ hw) h)

theorem jsonChars_piece (p rest : List Nat) (hp : validPiece p = true) :
    jsonChars (p ++ rest) = jsonChars rest := by
  match p, hp with
  | [c], hp =>
    simp only [validPiece, Bool.and_eq_true, decide_eq_true_eq, bne_iff_ne, ne_eq] at hp
    obtain ⟨⟨h1, h2⟩, h3⟩ := hp
    rw [List.singleton_append, jsonChars.eq_def]
    simp [h1, h2, h3]
  | [b, e], hp =>
    simp only [validPiece, Bool.and_eq_true, beq_iff_eq] at hp
    obtain ⟨rfl, h2⟩ := hp
    rw [List.cons_append, List.singleton_append, jsonChars.eq_def]
    simp [h2]
  | [b, u, a1, a2, a3, a4], hp =>
    simp only [validPiece, Bool.and_eq_true, beq_iff_eq] at hp
    obtain ⟨⟨⟨⟨⟨rfl, rfl⟩, h1⟩, h2⟩, h3⟩, h4⟩ := hp
    have hu : isSimpleEscape 0x75 = false := by decide
    simp only [List.cons_append, List.nil_append]
    rw [jsonChars.eq_def]
    simp [hu, h1, h2, h3, h4]

set_option maxRecDepth 100000 in
theorem escapeEntry_validPiece : ∀ c < 128, validPiece (escapeEntry c) = true := by decide

theorem DoNotEscape_validPiece (two_byte_src : Bool) (c : Nat)
    (h : DoNotEscape two_byte_src c = true) : validPiece [c] = true := by
  cases two_byte_src <;>
    simp only [DoNotEscape, Bool.false_eq_true, if_false, if_true, Bool.and_eq_true,
      Bool.or_eq_true, decide_eq_true_eq, bne_iff_ne, ne_eq] at h <;>
    simp only [validPiece, Bool.and_eq_true, decide_eq_true_eq, bne_iff_ne, ne_eq] <;>
    omega

theorem jsonChars_escaped (two_byte_src : Bool) (src : List Nat)
    (h : two_byte_src = false → ∀ c ∈ src, c < 128) :
    jsonChars (escaped two_byte_src src) = true := by
  induction src with
  | nil => rfl
  | cons c src ih =>
    have ih1 := ih (fun e x hx => h e x (List.mem_cons_of_mem _ hx))
    rw [escaped_cons]
    by_cases hc : DoNotEscape two_byte_src c = true
    · simp only [hc, if_true]
      rw [jsonChars_piece _ _ (DoNotEscape_validPiece two_byte_src c hc)]
      exact ih1
    · have hc1 : DoNotEscape two_byte_src c = false := by simpa using hc
      simp only [hc1, Bool.false_eq_true, if_false]
      have hlt : c < 128 := by
        cases two_byte_src with
        | false => exact h rfl c (List.mem_cons_self _ _)
        | true =>
          by_contra hge
          have : DoNotEscape true c = true := by
            simp only [DoNotEscape, if_true, Bool.or_eq_true, decide_eq_true_eq]
            left; omega
          rw [this] at hc1; cases hc1
      rw [jsonChars_piece _ _ (escapeEntry_validPiece c hlt)]
      exact ih1

theorem quoted_JsonString (s : HString) : JsonString (quoted s) :=
  ⟨escaped s.two_byte s.units, rfl, jsonChars_escaped s.two_byte s.units s.ascii⟩

theorem Emitted_JsonValue (host : Host)
    (hint : ∀ i, jsonNumber (host.IntToCString i) = true)
    (hdbl : ∀ id, jsonNumber (host.DoubleToCString (.finite id)) = true)
    (text : List Nat) (h : Emitted host text) : JsonValue text := by
  induction h with
  | null => exact JsonValue.null
  | true_ => exact JsonValue.true_
  | false_ => exact JsonValue.false_
  | smi i => exact JsonValue.number _ (hint i)
  | double id => exact JsonValue.number _ (hdbl id)
  | string s => exact JsonValue.string _ (quoted_JsonString s)
  | array items _ ih => exact JsonValue.array items ih
  | object members _ ih =>
    have e : members.map memberText
        = (members.map fun m => (quoted m.1, m.2)).map fun m => m.1 ++ 0x3A :: m.2 := by
      rw [List.map_map]; rfl
    rw [e]
    refine JsonValue.object _ ?_ ?_
    · intro m hm
      obtain ⟨x, _, rfl⟩ := List.mem_map.mp hm
      exact quoted_JsonString x.1
    · intro m hm
      obtain ⟨x, hx, rfl⟩ := List.mem_map.mp hm
      exact ih x hx

theorem NewConsString_Shrink (b : Builder) :
    ∃ two_byte, NewConsString (ShrinkCurrentPart b) = .string two_byte b.output := by
  refine ⟨((ShrinkCurrentPart b).accumulator ++ [(ShrinkCurrentPart b).current_part]).any
    Part.two_byte, ?_⟩
  unfold NewConsString
  congr 1
  have ha : (ShrinkCurrentPart b).accumulator = b.accumulator := by
    unfold ShrinkCurrentPart; split <;> rfl
  simp only [List.map_append, List.flatten_append, List.map_cons, List.map_nil,
    List.flatten_cons, List.flatten_nil, List.append_nil, ShrinkCurrentPart_output, ha,
    Builder.output]

/-- What `Stringify` returns in terms of the top-level `Serialize_` call. -/
theorem Stringify_string (host : Host) (fuel : Nat) (object : Value) (heap : Heap)
    (two_byte : Bool) (chars : List Nat)
    (h : Stringify host fuel object heap = .done (.string two_byte chars)) :
    ∃ st, SerializeObject host fuel object (State.init heap) = .done (.SUCCESS, st)
      ∧ chars = st.builder.output := by
  unfold Stringify at h
  cases hs : SerializeObject host fuel object (State.init heap) with
  | fault => simp [hs] at h
  | timeout => simp [hs] at h
  | done p =>
    obtain ⟨r, st⟩ := p
    cases r with
    | SUCCESS =>
      simp only [hs, Run.done.injEq] at h
      obtain ⟨tb, e⟩ := NewConsString_Shrink st.builder
      rw [e] at h
      simp only [Returned.string.injEq] at h
      exact ⟨st, rfl, h.2.symm⟩
    | UNCHANGED => simp [hs] at h
    | EXCEPTION => simp [hs] at h
    | CIRCULAR => simp [hs] at h
    | STACK_OVERFLOW => simp [hs] at h

/-- C1: whenever `Stringify` returns a string, on a host whose integer and double
formatters return JSON number tokens, the returned text is a JSON value of the
ECMA-404 grammar: brackets and braces balanced, members of the form
string `:` value, single commas between items, string literals with every code
unit below 0x20, the quote and the backslash escaped. -/
theorem Stringify_wellformed (host : Host)
    (hint : ∀ i, jsonNumber (host.IntToCString i) = true)
    (hdbl : ∀ id, jsonNumber (host.DoubleToCString (.finite id)) = true)
    (fuel : Nat) (object : Value) (heap : Heap) (two_byte : Bool) (chars : List Nat)
    (h : Stringify host fuel object heap = .done (.string two_byte chars)) :
    JsonValue chars := by
  obtain ⟨st, hs, rfl⟩ := Stringify_string host fuel object heap two_byte chars h
  have hp := Serialize__done host fuel false object false (.String empty_string)
    (State.init heap) .SUCCESS st Builder.init_WF hs
  obtain ⟨_, text, ht, o⟩ := hp.success rfl
  have : st.builder.output = text := by
    rw [o]
    simp [State.init, Builder.init_output, keyPrefix]
  rw [this]
  exact Emitted_JsonValue host hint hdbl text ht

/-! ## A sample host with decimal formatters -/

theorem decimalAux_shape (fuel n : Nat) (acc : List Nat) (hn : 0 < n) (hf : n < fuel)
    (hacc : ∀ d ∈ acc, d < 10) :
    ∃ lead tail, decimalAux fuel n acc = lead :: tail ∧ 1 ≤ lead ∧ lead ≤ 9
      ∧ ∀ d ∈ tail, d < 10 := by
  induction fuel generalizing n acc with
  | zero => omega
  | succ fuel ih =>
    have hacc1 : ∀ d ∈ (n % 10) :: acc, d < 10 := by
      intro d hd
      rcases List.mem_cons.mp hd with rfl | hd
      · omega
      · exact hacc d hd
    unfold decimalAux
    by_cases h0 : n / 10 = 0
    · simp only [h0, if_true]
      exact ⟨n % 10, acc, rfl, by omega, by omega, hacc⟩
    · simp only [h0, if_false]
      exact ih (n / 10) _ (by omega) (by omega) hacc1

theorem decimal_shape (n : Nat) :
    decimal n = [0x30] ∨ ∃ lead tail, decimal n = lead :: tail ∧ 0x31 ≤ lead ∧ lead ≤ 0x39
      ∧ tail.all isDigit = true := by
  by_cases hn : n = 0
  · left; subst hn; rfl
  · right
    obtain ⟨lead, tail, e, h1, h2, h3⟩ :=
      decimalAux_shape (n + 1) n [] (by omega) (by omega) (by simp)
    refine ⟨0x30 + lead % 10, tail.map (fun d => 0x30 + d % 10), ?_, by omega, by omega, ?_⟩
    · simp [decimal, e]
    · simp only [List.all_eq_true, List.mem_map]
      rintro x ⟨d, hd, rfl⟩
      have := h3 d hd
      simp only [isDigit, Bool.and_eq_true, decide_eq_true_eq]
      omega

theorem decimal_jsonUnsigned (n : Nat) : jsonUnsigned (decimal n) = true := by
  rcases decimal_shape n with e | ⟨lead, tail, e, h1, h2, h3⟩
  · rw [e]; rfl
  · rw [e]
    have hd : tail.dropWhile isDigit = [] := by
      rw [List.dropWhile_eq_nil_iff]
      exact fun x hx => List.all_eq_true.mp h3 x hx
    have h30 : ¬ lead = 0x30 := by omega
    simp only [jsonUnsigned, h30, if_false, hd, Bool.and_eq_true]
    refine ⟨?_, rfl⟩
    simp only [isDigit, Bool.and_eq_true, decide_eq_true_eq]
    omega

theorem decimal_head_ne (n : Nat) : ∃ c rest, decimal n = c :: rest ∧ c ≠ 0x2D := by
  rcases decimal_shape n with e | ⟨lead, tail, e, h1, h2, _⟩
  · exact ⟨0x30, [], e, by decide⟩
  · exact ⟨lead, tail, e, by omega⟩

theorem decimalText_jsonNumber (i : Int) : jsonNumber (decimalText i) = true := by
  unfold decimalText
  split
  · simp only [jsonNumber]
    exact decimal_jsonUnsigned _
  · obtain ⟨c, rest, e, hc⟩ := decimal_head_ne i.natAbs
    have hu := decimal_jsonUnsigned i.natAbs
    rw [e] at hu ⊢
    unfold jsonNumber
    split
    · next heq => simp only [List.cons.injEq] at heq; exact absurd heq.1 hc
    · exact hu

theorem sampleHost_int (i : Int) : jsonNumber (sampleHost.IntToCString i) = true :=
  decimalText_jsonNumber i

theorem sampleHost_double (id : Nat) :
    jsonNumber (sampleHost.DoubleToCString (.finite id)) = true := by
  obtain ⟨c, rest, e, hc⟩ := decimal_head_ne id
  have hu := decimal_jsonUnsigned id
  show jsonNumber (decimal id) = true
  rw [e] at hu ⊢
  unfold jsonNumber
  split
  · next heq => simp only [List.cons.injEq] at heq; exact absurd heq.1 hc
  · exact hu

theorem Stringify_scenario1 :
    Stringify sampleHost 3 (.JSObject 1) sampleHeap = .done (.string false text_scenario1) := by
  rfl

/-- Witness of C1 on `{a: 1, b: [true, null, "x"]}`. -/
theorem Stringify_wellformed_witness :
    Stringify sampleHost 3 (.JSObject 1) sampleHeap = .done (.string false text_scenario1)
      ∧ JsonValue text_scenario1 :=
  ⟨Stringify_scenario1,
    Stringify_wellformed sampleHost sampleHost_int sampleHost_double 3 (.JSObject 1) sampleHeap
      false text_scenario1 Stringify_scenario1⟩

theorem SerializeSmi_changed (host : Host) (value : Int) (st : State) (r : Result) (st1 : State)
    (h : SerializeSmi host value st = .done (r, st1)) : r ≠ .UNCHANGED := by
  unfold SerializeSmi at h
  split at h <;> simp_all
  rintro rfl; simp_all

theorem SerializeDouble_changed (host : Host) (number : Dbl) (st : State) (r : Result)
    (st1 : State) (h : SerializeDouble host number st = .done (r, st1)) : r ≠ .UNCHANGED := by
  unfold SerializeDouble at h
  split at h <;> split at h <;> simp_all <;> rintro rfl <;> simp_all

theorem SerializeJSValue_changed (host : Host) (shape : Shape) (st : State) (r : Result)
    (st1 : State) (h : SerializeJSValue host shape st = .done (r, st1)) : r ≠ .UNCHANGED := by
  unfold SerializeJSValue at h
  split at h
  · simp at h; rintro rfl; simp_all
  · split at h <;> simp_all <;> rintro rfl <;> simp_all
  · simp at h; rintro rfl; simp_all
  · exact SerializeSmi_changed _ _ _ _ _ h
  · split at h <;> simp_all <;> rintro rfl <;> simp_all
  · split at h <;> simp_all <;> rintro rfl <;> simp_all
  · simp at h

theorem elementResult_changed (r : Result) (st : State) (r1 : Result) (st1 : State)
    (h : elementResult r st = .done (some r1, st1)) : r1 ≠ .UNCHANGED := by
  unfold elementResult at h
  split at h
  · simp at h
  · split at h
    · split at h <;> simp at h
    · simp only [Run.done.injEq, Prod.mk.injEq, Option.some.injEq] at h
      obtain ⟨rfl, _⟩ := h
      assumption

theorem elementsLoop_changed (recurse : Recurse) (es : List Value) (i : Nat) (st : State)
    (r : Result) (st1 : State) (h : elementsLoop recurse es i st = .done (r, st1)) :
    r ≠ .UNCHANGED := by
  induction es generalizing i st with
  | nil => simp only [elementsLoop, Run.done.injEq, Prod.mk.injEq] at h; rw [← h.1]; decide
  | cons e es ih =>
    simp only [elementsLoop] at h
    split at h
    · split at h
      · split at h
        · exact ih _ _ h
        · next heq =>
          simp only [Run.done.injEq, Prod.mk.injEq] at h
          obtain ⟨rfl, rfl⟩ := h
          exact elementResult_changed _ _ _ _ heq
        · simp at h
        · simp at h
      · simp at h
      · simp at h
    · simp at h
    · simp at h

theorem SerializeJSArraySlow_changed (recurse : Recurse) (object remaining i : Nat)
    (st : State) (r : Result) (st1 : State)
    (h : SerializeJSArraySlow recurse object remaining i st = .done (r, st1)) :
    r ≠ .UNCHANGED := by
  induction remaining generalizing i st with
  | zero =>
    simp only [SerializeJSArraySlow, Run.done.injEq, Prod.mk.injEq] at h; rw [← h.1]; decide
  | succ remaining ih =>
    simp only [SerializeJSArraySlow] at h
    split at h
    · split at h
      · simp at h
      · split at h
        · split at h
          · exact ih _ _ h
          · simp at h
          · simp at h
        · split at h
          · split at h
            · exact ih _ _ h
            · next heq =>
              simp only [Run.done.injEq, Prod.mk.injEq] at h
              obtain ⟨rfl, rfl⟩ := h
              exact elementResult_changed _ _ _ _ heq
            · simp at h
            · simp at h
          · simp at h
          · simp at h
    · simp at h
    · simp at h

theorem arrayBody_changed (host : Host) (recurse : Recurse) (object : Nat)
    (elements : Elements) (st : State) (r : Result) (st1 : State)
    (h : arrayBody host recurse object elements st = .done (r, st1)) : r ≠ .UNCHANGED := by
  unfold arrayBody at h
  split at h
  · split at h <;> simp_all <;> rintro rfl <;> simp_all
  · split at h <;> simp_all <;> rintro rfl <;> simp_all
  · exact elementsLoop_changed _ _ _ _ _ _ h
  · exact SerializeJSArraySlow_changed _ _ _ _ _ _ _ h

theorem StackPush_changed (host : Host) (object : Nat) (st : State) :
    (StackPush host object st).1 ≠ .UNCHANGED := by
  rcases StackPush_cases host object st with ⟨h, _⟩ | ⟨h, _⟩ | ⟨h, _⟩ <;> rw [h] <;> simp

theorem SerializeJSArray_changed (host : Host) (recurse : Recurse) (object : Nat)
    (elements : Elements) (st : State) (r : Result) (st1 : State)
    (h : SerializeJSArray host recurse object elements st = .done (r, st1)) :
    r ≠ .UNCHANGED := by
  unfold SerializeJSArray at h
  have hp := StackPush_changed host object st
  split at h
  · split at h
    · split at h
      · split at h <;> simp_all <;> rintro rfl <;> simp_all
      · next heq =>
        simp only [Run.done.injEq, Prod.mk.injEq] at h
        obtain ⟨rfl, rfl⟩ := h
        exact arrayBody_changed _ _ _ _ _ _ _ heq
      · simp at h
      · simp at h
    · simp at h
    · simp at h
  · next heq =>
    simp only [Run.done.injEq, Prod.mk.injEq] at h
    obtain ⟨rfl, rfl⟩ := h
    rw [heq] at hp; exact hp

theorem propertiesLoop_changed (recurse : Recurse) (object : Nat) (contents : List Key)
    (comma : Bool) (st : State) (r : Result) (st1 : State)
    (h : propertiesLoop recurse object contents comma st = .done (r, st1)) :
    r ≠ .UNCHANGED := by
  induction contents generalizing comma st with
  | nil => simp only [propertiesLoop, Run.done.injEq, Prod.mk.injEq] at h; rw [← h.1]; decide
  | cons key contents ih =>
    simp only [propertiesLoop] at h
    split at h
    · simp only [Run.done.injEq, Prod.mk.injEq] at h; rw [← h.1]; decide
    · split at h
      · split at h
        · next hge =>
          simp only [Run.done.injEq, Prod.mk.injEq] at h
          obtain ⟨rfl, rfl⟩ := h
          exact (Result_toNat_ge _ hge).1
        · exact ih _ _ h
      · simp at h
      · simp at h

theorem SerializeJSObject_changed (host : Host) (recurse : Recurse) (object : Nat)
    (st : State) (r : Result) (st1 : State)
    (h : SerializeJSObject host recurse object st = .done (r, st1)) : r ≠ .UNCHANGED := by
  unfold SerializeJSObject at h
  have hp := StackPush_changed host object st
  split at h
  · simp only at h
    split at h
    · simp only [Run.done.injEq, Prod.mk.injEq] at h; rw [← h.1]; decide
    · split at h
      · split at h
        · split at h <;> simp_all <;> rintro rfl <;> simp_all
        · next heq =>
          simp only [Run.done.injEq, Prod.mk.injEq] at h
          obtain ⟨rfl, rfl⟩ := h
          exact propertiesLoop_changed _ _ _ _ _ _ _ heq
        · simp at h
        · simp at h
      · simp at h
      · simp at h
  · next heq =>
    simp only [Run.done.injEq, Prod.mk.injEq] at h
    obtain ⟨rfl, rfl⟩ := h
    rw [heq] at hp; exact hp

theorem dispatch_UNCHANGED (host : Host) (recurse : Recurse) (d : Bool) (object : Value)
    (comma : Bool) (key : Value) (st st1 : State)
    (h : dispatch host recurse d object comma key st = .done (.UNCHANGED, st1)) : st1 = st := by
  unfold dispatch at h
  split at h
  · split at h
    · simp only [Run.done.injEq, Prod.mk.injEq] at h; exact h.2.symm
    · split at h
      · exact absurd rfl (SerializeJSArray_changed _ _ _ _ _ _ _ h)
      · simp at h
      · simp at h
    · split at h
      · exact absurd rfl (SerializeJSObject_changed _ _ _ _ _ _ h)
      · simp at h
      · simp at h
    · split at h
      · exact absurd rfl (SerializeJSValue_changed _ _ _ _ _ h)
      · simp at h
      · simp at h
  · split at h
    · split at h <;> simp at h
    · simp at h
    · simp at h
  · split at h
    · exact absurd rfl (SerializeSmi_changed _ _ _ _ _ h)
    · simp at h
    · simp at h
  · split at h
    · exact absurd rfl (SerializeDouble_changed _ _ _ _ _ h)
    · simp at h
    · simp at h
  · simp only at h
    split at h
    · simp only [Run.done.injEq, Prod.mk.injEq] at h; exact h.2.symm
    · split at h
      · split at h <;> simp at h
      · simp at h
      · simp at h
  · simp only [Run.done.injEq, Prod.mk.injEq] at h; exact h.2.symm

/-- C10: if `Serialize_` returns `UNCHANGED`, the accumulator (consed parts, active
part, cursor, encoding, part length) is what it was before the call, and so is
the logical output: no deferred comma, key or colon has been written. -/
theorem Serialize__UNCHANGED_frame (host : Host) (fuel : Nat) (deferred_string_key : Bool)
    (object : Value) (comma : Bool) (key : Value) (st st1 : State)
    (h : Serialize_ host fuel deferred_string_key object comma key st = .done (.UNCHANGED, st1)) :
    st1.builder = st.builder ∧ st1.builder.output = st.builder.output := by
  cases fuel with
  | zero => simp [Serialize_] at h
  | succ fuel =>
    simp only [Serialize_] at h
    cases ht : toJsonStep host object key st with
    | none => simp [ht] at h
    | some p =>
      obtain ⟨object1, st0⟩ := p
      simp only [ht] at h
      obtain ⟨hb, _⟩ := toJsonStep_some host object key st object1 st0 ht
      have := dispatch_UNCHANGED host _ deferred_string_key object1 comma key st0 st1 h
      subst this
      exact ⟨hb, by rw [hb]⟩

/-- Witness of C10: the function-valued member `c` of `{a: undefined, b: 1, c: f}`,
serialized with a pending comma and the deferred key `c`. -/
theorem Serialize__UNCHANGED_frame_witness :
    Serialize_ sampleHost 1 true (.JSObject 6) true (.String key_c) (State.init sampleHeap)
        = .done (.UNCHANGED, State.init sampleHeap)
      ∧ (State.init sampleHeap).builder = (State.init sampleHeap).builder
      ∧ (State.init sampleHeap).builder.output = (State.init sampleHeap).builder.output :=
  ⟨rfl, Serialize__UNCHANGED_frame sampleHost 1 true (.JSObject 6) true (.String key_c)
    (State.init sampleHeap) (State.init sampleHeap) rfl⟩

theorem HeapStep.same (host : Host) (h : Heap) : HeapStep host h h := fun _ _ hq => hq

theorem HeapStep.chain {host : Host} {h1 h2 h3 : Heap} (a : HeapStep host h1 h2)
    (b : HeapStep host h2 h3) : HeapStep host h1 h3 :=
  fun Q hQ hq => b Q hQ (a Q hQ hq)

theorem Frame.refl (host : Host) (st : State) : Frame host st st :=
  ⟨List.prefix_refl _, HeapStep.same host _⟩

theorem Frame.trans {host : Host} {s1 s2 s3 : State} (a : Frame host s1 s2)
    (b : Frame host s2 s3) : Frame host s1 s3 :=
  ⟨List.IsPrefix.trans a.stack b.stack, HeapStep.chain a.heap b.heap⟩

theorem Frame.of_eq {host : Host} {st st1 : State} (hs : st1.stack = st.stack)
    (hh : st1.heap = st.heap) : Frame host st st1 :=
  ⟨by rw [hs], by rw [hh]; exact HeapStep.same host _⟩

theorem build_frame (host : Host) (st st1 : State) (op : Builder → Option Builder)
    (h : st.build op = .done st1) : Frame host st st1 := by
  obtain ⟨b1, _, rfl⟩ := build_done _ _ _ h
  exact Frame.refl host _ |> fun f => ⟨f.stack, f.heap⟩

theorem deferredKey_frame (host : Host) (d comma : Bool) (key : Value) (st st1 : State)
    (h : deferredKey d comma key st = .done st1) : Frame host st st1 := by
  unfold deferredKey at h
  split at h
  · unfold SerializeDeferredKey at h
    split at h
    · split at h
      · next s1 h1 =>
        have f1 : Frame host st s1 := by
          split at h1
          · exact build_frame host _ _ _ h1
          · simp only [Run.done.injEq] at h1; subst h1; exact Frame.refl host _
        split at h
        · next s2 h2 =>
          exact f1.trans ((build_frame host _ _ _ h2).trans (build_frame host _ _ _ h))
        · simp at h
        · simp at h
      · simp at h
      · simp at h
    · simp at h
  · simp only [Run.done.injEq] at h; subst h; exact Frame.refl host _

theorem SerializeSmi_frame (host : Host) (value : Int) (st : State) (r : Result) (st1 : State)
    (h : SerializeSmi host value st = .done (r, st1)) : Frame host st st1 := by
  unfold SerializeSmi at h
  split at h
  · next s1 h1 =>
    simp only [Run.done.injEq, Prod.mk.injEq] at h
    obtain ⟨_, rfl⟩ := h
    exact build_frame host _ _ _ h1
  · simp at h
  · simp at h

theorem SerializeDouble_frame (host : Host) (number : Dbl) (st : State) (r : Result)
    (st1 : State) (h : SerializeDouble host number st = .done (r, st1)) :
    Frame host st st1 := by
  unfold SerializeDouble at h
  split at h <;> split at h
  · next s1 h1 =>
    simp only [Run.done.injEq, Prod.mk.injEq] at h
    obtain ⟨_, rfl⟩ := h
    exact build_frame host _ _ _ h1
  · simp at h
  · simp at h
  · next s1 h1 =>
    simp only [Run.done.injEq, Prod.mk.injEq] at h
    obtain ⟨_, rfl⟩ := h
    exact build_frame host _ _ _ h1
  · simp at h
  · simp at h

theorem SerializeJSValue_frame (host : Host) (shape : Shape) (st : State) (r : Result)
    (st1 : State) (h : SerializeJSValue host shape st = .done (r, st1)) :
    Frame host st st1 := by
  unfold SerializeJSValue at h
  split at h
  · simp only [Run.done.injEq, Prod.mk.injEq] at h; rw [← h.2]; exact Frame.refl host _
  · split at h
    · next s1 h1 =>
      simp only [Run.done.injEq, Prod.mk.injEq] at h
      obtain ⟨_, rfl⟩ := h
      exact build_frame host _ _ _ h1
    · simp at h
    · simp at h
  · simp only [Run.done.injEq, Prod.mk.injEq] at h; rw [← h.2]; exact Frame.refl host _
  · exact SerializeSmi_frame _ _ _ _ _ h
  · split at h
    · next p h1 =>
      simp only [Run.done.injEq, Prod.mk.injEq] at h
      obtain ⟨_, rfl⟩ := h
      exact SerializeDouble_frame _ _ _ _ _ h1
    · simp at h
    · simp at h
  · split at h
    · next s1 h1 =>
      simp only [Run.done.injEq, Prod.mk.injEq] at h
      obtain ⟨_, rfl⟩ := h
      exact build_frame host _ _ _ h1
    · simp at h
    · simp at h
  · simp at h

theorem appendSeparator_frame (host : Host) (i : Nat) (st st1 : State)
    (h : appendSeparator i st = .done st1) : Frame host st st1 := by
  unfold appendSeparator at h
  split at h
  · exact build_frame host _ _ _ h
  · simp only [Run.done.injEq] at h; subst h; exact Frame.refl host _

theorem elementResult_frame (host : Host) (r : Result) (st : State) (o : Option Result)
    (st1 : State) (h : elementResult r st = .done (o, st1)) : Frame host st st1 := by
  unfold elementResult at h
  split at h
  · simp only [Run.done.injEq, Prod.mk.injEq] at h; rw [← h.2]; exact Frame.refl host _
  · split at h
    · split at h
      · next s1 h1 =>
        simp only [Run.done.injEq, Prod.mk.injEq] at h
        obtain ⟨_, rfl⟩ := h
        exact build_frame host _ _ _ h1
      · simp at h
      · simp at h
    · simp only [Run.done.injEq, Prod.mk.injEq] at h; rw [← h.2]; exact Frame.refl host _

theorem StackPop_below (stack : List Nat) (object : Nat) (st : State)
    (h : stack ++ [object] <+: st.stack) : stack <+: (StackPop st).stack := by
  obtain ⟨t, ht⟩ := h
  have hl : st.stack.length = stack.length + 1 + t.length := by
    rw [← ht]; simp; omega
  have h1 : stack = st.stack.take stack.length := by
    rw [← ht]; simp
  show stack <+: st.stack.take (st.stack.length - 1)
  have h2 : st.stack.take stack.length <+: st.stack.take (st.stack.length - 1) :=
    List.take_prefix_take_left _ (by omega)
  rw [← h1] at h2
  exact h2

theorem element_frame (host : Host) (recurse : Recurse) (hrec : RecFrame host recurse)
    (e : Value) (i : Nat) (s1 s2 s3 : State) (r : Result) (o : Option Result)
    (h2 : SerializeElement recurse e i s1 = .done (r, s2))
    (h3 : elementResult r s2 = .done (o, s3)) : Frame host s1 s3 :=
  (hrec _ _ _ _ _ _ _ h2).trans (elementResult_frame host _ _ _ _ h3)

theorem smiLoop_frame (host : Host) (es : List Int) (i : Nat) (st st1 : State)
    (h : smiLoop host es i st = .done st1) : Frame host st st1 := by
  induction es generalizing i st with
  | nil => simp only [smiLoop, Run.done.injEq] at h; subst h; exact Frame.refl host _
  | cons e es ih =>
    simp only [smiLoop] at h
    split at h
    · next s1 h1 =>
      split at h
      · next r2 s2 h2 =>
        exact (appendSeparator_frame host _ _ _ h1).trans
          ((SerializeSmi_frame _ _ _ _ _ h2).trans (ih _ _ h))
      · simp at h
      · simp at h
    · simp at h
    · simp at h

theorem doubleLoop_frame (host : Host) (es : List Dbl) (i : Nat) (st st1 : State)
    (h : doubleLoop host es i st = .done st1) : Frame host st st1 := by
  induction es generalizing i st with
  | nil => simp only [doubleLoop, Run.done.injEq] at h; subst h; exact Frame.refl host _
  | cons e es ih =>
    simp only [doubleLoop] at h
    split at h
    · next s1 h1 =>
      split at h
      · next r2 s2 h2 =>
        exact (appendSeparator_frame host _ _ _ h1).trans
          ((SerializeDouble_frame _ _ _ _ _ h2).trans (ih _ _ h))
      · simp at h
      · simp at h
    · simp at h
    · simp at h

theorem elementsLoop_frame (host : Host) (recurse : Recurse) (hrec : RecFrame host recurse)
    (es : List Value) (i : Nat) (st : State) (r : Result) (st1 : State)
    (h : elementsLoop recurse es i st = .done (r, st1)) : Frame host st st1 := by
  induction es generalizing i st with
  | nil =>
    simp only [elementsLoop, Run.done.injEq, Prod.mk.injEq] at h
    rw [← h.2]; exact Frame.refl host _
  | cons e es ih =>
    simp only [elementsLoop] at h
    split at h
    · next s1 h1 =>
      have f1 := appendSeparator_frame host _ _ _ h1
      split at h
      · next r2 s2 h2 =>
        split at h
        · next s3 h3 =>
          exact f1.trans ((element_frame host recurse hrec e i s1 s2 s3 r2 _ h2 h3).trans
            (ih _ _ h))
        · next r1 s3 h3 =>
          simp only [Run.done.injEq, Prod.mk.injEq] at h
          obtain ⟨_, rfl⟩ := h
          exact f1.trans (element_frame host recurse hrec e i s1 s2 s3 r2 _ h2 h3)
        · simp at h
        · simp at h
      · simp at h
      · simp at h
    · simp at h
    · simp at h

theorem SerializeJSArraySlow_frame (host : Host) (recurse : Recurse)
    (hrec : RecFrame host recurse) (object remaining i : Nat) (st : State) (r : Result)
    (st1 : State) (h : SerializeJSArraySlow recurse object remaining i st = .done (r, st1)) :
    Frame host st st1 := by
  induction remaining generalizing i st with
  | zero =>
    simp only [SerializeJSArraySlow, Run.done.injEq, Prod.mk.injEq] at h
    rw [← h.2]; exact Frame.refl host _
  | succ remaining ih =>
    simp only [SerializeJSArraySlow] at h
    split at h
    · next s1 h1 =>
      have f1 := appendSeparator_frame host _ _ _ h1
      split at h
      · simp at h
      · split at h
        · split at h
          · next s2 h2 => exact f1.trans ((build_frame host _ _ _ h2).trans (ih _ _ h))
          · simp at h
          · simp at h
        · split at h
          · next r2 s2 h2 =>
            split at h
            · next s3 h3 =>
              exact f1.trans ((element_frame host recurse hrec _ i s1 s2 s3 r2 _ h2 h3).trans
                (ih _ _ h))
            · next r1 s3 h3 =>
              simp only [Run.done.injEq, Prod.mk.injEq] at h
              obtain ⟨_, rfl⟩ := h
              exact f1.trans (element_frame host recurse hrec _ i s1 s2 s3 r2 _ h2 h3)
            · simp at h
            · simp at h
          · simp at h
          · simp at h
    · simp at h
    · simp at h

theorem arrayBody_frame (host : Host) (recurse : Recurse) (hrec : RecFrame host recurse)
    (object : Nat) (elements : Elements) (st : State) (r : Result) (st1 : State)
    (h : arrayBody host recurse object elements st = .done (r, st1)) : Frame host st st1 := by
  unfold arrayBody at h
  split at h
  · split at h
    · next s1 h1 =>
      simp only [Run.done.injEq, Prod.mk.injEq] at h
      obtain ⟨_, rfl⟩ := h
      exact smiLoop_frame host _ _ _ _ h1
    · simp at h
    · simp at h
  · split at h
    · next s1 h1 =>
      simp only [Run.done.injEq, Prod.mk.injEq] at h
      obtain ⟨_, rfl⟩ := h
      exact doubleLoop_frame host _ _ _ _ h1
    · simp at h
    · simp at h
  · exact elementsLoop_frame host recurse hrec _ _ _ _ _ h
  · exact SerializeJSArraySlow_frame host recurse hrec _ _ _ _ _ _ h

theorem propertiesLoop_frame (host : Host) (recurse : Recurse) (hrec : RecFrame host recurse)
    (object : Nat) (contents : List Key) (comma : Bool) (st : State) (r : Result)
    (st1 : State) (h : propertiesLoop recurse object contents comma st = .done (r, st1)) :
    Frame host st st1 := by
  induction contents generalizing comma st with
  | nil =>
    simp only [propertiesLoop, Run.done.injEq, Prod.mk.injEq] at h
    rw [← h.2]; exact Frame.refl host _
  | cons key contents ih =>
    simp only [propertiesLoop] at h
    split at h
    · simp only [Run.done.injEq, Prod.mk.injEq] at h; rw [← h.2]; exact Frame.refl host _
    · split at h
      · next result s1 h1 =>
        have f1 : Frame host st s1 := hrec _ _ _ _ _ _ _ h1
        split at h
        · simp only [Run.done.injEq, Prod.mk.injEq] at h
          obtain ⟨_, rfl⟩ := h
          exact f1
        · exact f1.trans (ih _ _ h)
      · simp at h
      · simp at h

theorem SerializeJSArray_pushed (host : Host) (recurse : Recurse)
    (hrec : RecFrame host recurse) (object : Nat) (elements : Elements) (st : State)
    (r : Result) (st1 : State) (hover : host.HasOverflowed st.stack.length = false)
    (hnew : object ∉ st.stack)
    (h : SerializeJSArray host recurse object elements st = .done (r, st1)) :
    Pushed host object st r st1 := by
  unfold SerializeJSArray at h
  rcases StackPush_cases host object st with ⟨hp, _, _⟩ | ⟨_, ho⟩ | ⟨_, _, hc⟩
  · rw [hp] at h
    simp only at h
    split at h
    · next s1 h1 =>
      have f1 := build_frame host _ _ _ h1
      split at h
      · next s2 h2 =>
        have f2 := arrayBody_frame host recurse hrec _ _ _ _ _ h2
        split at h
        · next s3 h3 =>
          have f3 := build_frame host _ _ _ h3
          simp only [Run.done.injEq, Prod.mk.injEq] at h
          obtain ⟨rfl, rfl⟩ := h
          have f := f1.trans (f2.trans f3)
          exact ⟨⟨StackPop_below _ object _ f.stack, f.heap⟩, fun e => absurd rfl e⟩
        · simp at h
        · simp at h
      · next r2 s2 _ h2 =>
        have f2 := arrayBody_frame host recurse hrec _ _ _ _ _ h2
        simp only [Run.done.injEq, Prod.mk.injEq] at h
        obtain ⟨rfl, rfl⟩ := h
        have f := f1.trans f2
        exact ⟨⟨List.IsPrefix.trans (List.prefix_append _ _) f.stack, f.heap⟩, fun _ => f.stack⟩
      · simp at h
      · simp at h
    · simp at h
    · simp at h
  · rw [hover] at ho; cases ho
  · exact absurd hc hnew

theorem SerializeJSObject_pushed (host : Host) (recurse : Recurse)
    (hrec : RecFrame host recurse) (object : Nat) (st : State)
    (r : Result) (st1 : State) (hover : host.HasOverflowed st.stack.length = false)
    (hnew : object ∉ st.stack)
    (h : SerializeJSObject host recurse object st = .done (r, st1)) :
    Pushed host object st r st1 := by
  unfold SerializeJSObject at h
  rcases StackPush_cases host object st with ⟨hp, _, _⟩ | ⟨_, ho⟩ | ⟨_, _, hc⟩
  · rw [hp] at h
    simp only at h
    have f0 : Frame host st { st with stack := st.stack ++ [object] } :=
      ⟨List.prefix_append _ _, HeapStep.same host _⟩
    split at h
    · simp only [Run.done.injEq, Prod.mk.injEq] at h
      obtain ⟨rfl, rfl⟩ := h
      exact ⟨f0, fun _ => List.prefix_refl _⟩
    · split at h
      · next s1 h1 =>
        have f1 := build_frame host _ _ _ h1
        split at h
        · next s2 h2 =>
          have f2 := propertiesLoop_frame host recurse hrec _ _ _ _ _ _ h2
          split at h
          · next s3 h3 =>
            have f3 := build_frame host _ _ _ h3
            simp only [Run.done.injEq, Prod.mk.injEq] at h
            obtain ⟨rfl, rfl⟩ := h
            have f := f1.trans (f2.trans f3)
            exact ⟨⟨StackPop_below _ object _ f.stack, f.heap⟩, fun e => absurd rfl e⟩
          · simp at h
          · simp at h
        · next r2 s2 _ h2 =>
          have f2 := propertiesLoop_frame host recurse hrec _ _ _ _ _ _ h2
          simp only [Run.done.injEq, Prod.mk.injEq] at h
          obtain ⟨rfl, rfl⟩ := h
          have f := f1.trans f2
          exact ⟨⟨List.IsPrefix.trans (List.prefix_append _ _) f.stack, f.heap⟩,
            fun _ => f.stack⟩
        · simp at h
        · simp at h
      · simp at h
      · simp at h
  · rw [hover] at ho; cases ho
  · exact absurd hc hnew

theorem SerializeJSArray_frame (host : Host) (recurse : Recurse)
    (hrec : RecFrame host recurse) (object : Nat) (elements : Elements) (st : State)
    (r : Result) (st1 : State)
    (h : SerializeJSArray host recurse object elements st = .done (r, st1)) :
    Frame host st st1 := by
  rcases StackPush_cases host object st with ⟨_, ho, hn⟩ | ⟨hp, _⟩ | ⟨hp, _, _⟩
  · exact (SerializeJSArray_pushed host recurse hrec object elements st r st1 ho hn h).frame
  · unfold SerializeJSArray at h
    rw [hp] at h
    simp only [Run.done.injEq, Prod.mk.injEq] at h
    rw [← h.2]; exact Frame.refl host _
  · unfold SerializeJSArray at h
    rw [hp] at h
    simp only [Run.done.injEq, Prod.mk.injEq] at h
    rw [← h.2]; exact Frame.refl host _

theorem SerializeJSObject_frame (host : Host) (recurse : Recurse)
    (hrec : RecFrame host recurse) (object : Nat) (st : State)
    (r : Result) (st1 : State)
    (h : SerializeJSObject host recurse object st = .done (r, st1)) :
    Frame host st st1 := by
  rcases StackPush_cases host object st with ⟨_, ho, hn⟩ | ⟨hp, _⟩ | ⟨hp, _, _⟩
  · exact (SerializeJSObject_pushed host recurse hrec object st r st1 ho hn h).frame
  · unfold SerializeJSObject at h
    rw [hp] at h
    simp only [Run.done.injEq, Prod.mk.injEq] at h
    rw [← h.2]; exact Frame.refl host _
  · unfold SerializeJSObject at h
    rw [hp] at h
    simp only [Run.done.injEq, Prod.mk.injEq] at h
    rw [← h.2]; exact Frame.refl host _

theorem dispatch_frame (host : Host) (recurse : Recurse) (hrec : RecFrame host recurse)
    (d : Bool) (object : Value) (comma : Bool) (key : Value) (st : State) (r : Result)
    (st1 : State) (h : dispatch host recurse d object comma key st = .done (r, st1)) :
    Frame host st st1 := by
  unfold dispatch at h
  split at h
  · split at h
    · simp only [Run.done.injEq, Prod.mk.injEq] at h; rw [← h.2]; exact Frame.refl host _
    · split at h
      · next s1 h1 =>
        exact (deferredKey_frame host _ _ _ _ _ h1).trans
          (SerializeJSArray_frame host recurse hrec _ _ _ _ _ h)
      · simp at h
      · simp at h
    · split at h
      · next s1 h1 =>
        exact (deferredKey_frame host _ _ _ _ _ h1).trans
          (SerializeJSObject_frame host recurse hrec _ _ _ _ h)
      · simp at h
      · simp at h
    · split at h
      · next s1 h1 =>
        exact (deferredKey_frame host _ _ _ _ _ h1).trans
          (SerializeJSValue_frame host _ _ _ _ h)
      · simp at h
      · simp at h
  · split at h
    · next s1 h1 =>
      split at h
      · next s2 h2 =>
        simp only [Run.done.injEq, Prod.mk.injEq] at h
        obtain ⟨_, rfl⟩ := h
        exact (deferredKey_frame host _ _ _ _ _ h1).trans (build_frame host _ _ _ h2)
      · simp at h
      · simp at h
    · simp at h
    · simp at h
  · split at h
    · next s1 h1 =>
      exact (deferredKey_frame host _ _ _ _ _ h1).trans (SerializeSmi_frame host _ _ _ _ h)
    · simp at h
    · simp at h
  · split at h
    · next s1 h1 =>
      exact (deferredKey_frame host _ _ _ _ _ h1).trans (SerializeDouble_frame host _ _ _ _ h)
    · simp at h
    · simp at h
  · simp only at h
    split at h
    · simp only [Run.done.injEq, Prod.mk.injEq] at h; rw [← h.2]; exact Frame.refl host _
    · split at h
      · next s1 h1 =>
        split at h
        · next s2 h2 =>
          simp only [Run.done.injEq, Prod.mk.injEq] at h
          obtain ⟨_, rfl⟩ := h
          exact (deferredKey_frame host _ _ _ _ _ h1).trans (build_frame host _ _ _ h2)
        · simp at h
        · simp at h
      · simp at h
      · simp at h
  · simp only [Run.done.injEq, Prod.mk.injEq] at h; rw [← h.2]; exact Frame.refl host _

theorem ApplyToJsonFunction_heap (host : Host) (heap : Heap) (object : Nat) (key : Value)
    (v : Value) (heap1 : Heap)
    (h : ApplyToJsonFunction host heap object key = some (v, heap1)) :
    HeapStep host heap heap1 := by
  unfold ApplyToJsonFunction at h
  split at h
  · simp only [Option.some.injEq, Prod.mk.injEq] at h; rw [← h.2]; exact HeapStep.same host _
  · split at h
    · simp only [Option.some.injEq, Prod.mk.injEq] at h; rw [← h.2]; exact HeapStep.same host _
    · exact fun Q hQ hq => hQ _ _ _ _ _ _ hq h

theorem toJsonStep_frame (host : Host) (object key : Value) (st : State) (object1 : Value)
    (st1 : State) (h : toJsonStep host object key st = some (object1, st1)) :
    Frame host st st1 := by
  obtain ⟨_, hs⟩ := toJsonStep_some host object key st object1 st1 h
  refine ⟨by rw [hs], ?_⟩
  unfold toJsonStep at h
  split at h
  · split at h
    · simp at h
    · next v heap1 ha =>
      simp only [Option.some.injEq, Prod.mk.injEq] at h
      obtain ⟨_, rfl⟩ := h
      exact ApplyToJsonFunction_heap host _ _ _ _ _ ha
  · simp only [Option.some.injEq, Prod.mk.injEq] at h
    rw [← h.2]; exact HeapStep.same host _

/-- Every completed call of `Serialize_` satisfies `Frame`. -/
theorem Serialize__frame (host : Host) (fuel : Nat) : RecFrame host (Serialize_ host fuel) := by
  induction fuel with
  | zero =>
    intro d object comma key st r st1 h
    simp [Serialize_] at h
  | succ fuel ih =>
    intro d object comma key st r st1 h
    simp only [Serialize_] at h
    cases ht : toJsonStep host object key st with
    | none =>
      simp only [ht, Run.done.injEq, Prod.mk.injEq] at h
      rw [← h.2]; exact Frame.refl host _
    | some p =>
      obtain ⟨object1, st0⟩ := p
      simp only [ht] at h
      exact (toJsonStep_frame host _ _ _ _ _ ht).trans
        (dispatch_frame host _ ih d object1 comma key st0 r st1 h)

/-- C7, as stated, fails: for `x = {}` with `x.self = x` the call
`SerializeJSObject(x)` pushes `x` (the push succeeds on the empty stack), the
member returns `CIRCULAR`, and the call returns `CIRCULAR` with `x` still on
the cycle stack, which was empty on entry. -/
theorem SerializeJSObject_failure_keeps_entry :
    (StackPush sampleHost 4 (State.init sampleHeap)).1 = .SUCCESS
      ∧ (State.init sampleHeap).stack = []
      ∧ (SerializeJSObject sampleHost (Serialize_ sampleHost 2) 4
          (State.init sampleHeap)).resultAndStack = some (.CIRCULAR, [4]) := by
  refine ⟨rfl, rfl, rfl⟩

/-- C7, amended: for every call of `SerializeJSArray` or `SerializeJSObject` whose
`StackPush` succeeded, a return with `SUCCESS` leaves the cycle stack as it was
on entry (the push is followed by one pop), and a return with any other result
performs no pop: the entry stack followed by the pushed object still starts the
stack. -/
theorem composite_stack_on_return (host : Host) (fuel : Nat) (object : Nat)
    (elements : Elements) (st : State) (r : Result) (st1 : State)
    (hw : st.builder.WF) (hover : host.HasOverflowed st.stack.length = false)
    (hnew : object ∉ st.stack)
    (h : SerializeJSArray host (Serialize_ host fuel) object elements st = .done (r, st1)
      ∨ SerializeJSObject host (Serialize_ host fuel) object st = .done (r, st1)) :
    (r = .SUCCESS → st1.stack = st.stack)
      ∧ (r ≠ .SUCCESS → st.stack ++ [object] <+: st1.stack) := by
  rcases h with h | h
  · exact ⟨fun e => ((SerializeJSArray_done host _ (Serialize__done host fuel) object elements
        st r st1 hw h).success e).1,
      (SerializeJSArray_pushed host _ (Serialize__frame host fuel) object elements st r st1
        hover hnew h).failure⟩
  · exact ⟨fun e => ((SerializeJSObject_done host _ (Serialize__done host fuel) object
        st r st1 hw h).success e).1,
      (SerializeJSObject_pushed host _ (Serialize__frame host fuel) object st r st1
        hover hnew h).failure⟩

/-- Witness of C7 (amended) on the array `[1, "2", undefined]`, which returns `SUCCESS`. -/
theorem composite_stack_on_return_witness :
    ∃ st1, SerializeJSArray sampleHost (Serialize_ sampleHost 2) 3
        (.FAST_ELEMENTS [.Smi 1, .String str_2, .Oddball .kUndefined]) (State.init sampleHeap)
        = .done (.SUCCESS, st1)
      ∧ (Result.SUCCESS = .SUCCESS → st1.stack = (State.init sampleHeap).stack)
      ∧ (Result.SUCCESS ≠ .SUCCESS → (State.init sampleHeap).stack ++ [3] <+: st1.stack) :=
  ⟨_, rfl, composite_stack_on_return sampleHost 2 3
    (.FAST_ELEMENTS [.Smi 1, .String str_2, .Oddball .kUndefined]) (State.init sampleHeap)
    .SUCCESS _ Builder.init_WF rfl (by simp [State.init]) (Or.inl rfl)⟩

theorem Serialize__toJSON (host : Host) (fuel : Nat) (d : Bool) (id : Nat) (comma : Bool)
    (key : Value) (st : State) (func : Value)
    (hfun : (st.heap id).toJSON = some func) (hcall : IsJSFunction st.heap func = true) :
    Serialize_ host (fuel + 1) d (.JSObject id) comma key st
      = afterToJson host (Serialize_ host fuel) d comma key st
          (host.Call st.heap func (.JSObject id) (toJsonArgument key)) := by
  simp only [Serialize_, toJsonStep, ApplyToJsonFunction, hfun, hcall, Bool.not_true,
    Bool.false_eq_true, if_false]
  cases host.Call st.heap func (.JSObject id) (toJsonArgument key) with
  | none => rfl
  | some p => rfl

/-- C8: for an object with a callable `toJSON`, `Serialize_` is the dispatch on the
value `r` the call returns, run in the heap the call left, with the same deferred
key and comma and without looking up `toJSON` on `r`: in particular it answers
`UNCHANGED` leaving accumulator and stack alone when `r` is undefined or a
function, and it emits the primitive (after the deferred key) when `r` is a Smi;
when the call raises the result is `EXCEPTION`. -/
theorem Serialize__toJSON_precedence (host : Host) (fuel : Nat) (d : Bool) (id : Nat)
    (comma : Bool) (key : Value) (st : State) (func : Value)
    (hfun : (st.heap id).toJSON = some func) (hcall : IsJSFunction st.heap func = true) :
    (∀ r heap1, host.Call st.heap func (.JSObject id) (toJsonArgument key) = some (r, heap1) →
        Serialize_ host (fuel + 1) d (.JSObject id) comma key st
          = dispatch host (Serialize_ host fuel) d r comma key { st with heap := heap1 }
        ∧ (r = .Oddball .kUndefined ∨ IsJSFunction heap1 r = true →
            Serialize_ host (fuel + 1) d (.JSObject id) comma key st
              = .done (.UNCHANGED, { st with heap := heap1 })))
      ∧ (host.Call st.heap func (.JSObject id) (toJsonArgument key) = none →
        Serialize_ host (fuel + 1) d (.JSObject id) comma key st = .done (.EXCEPTION, st)) := by
  refine ⟨fun r heap1 hc => ?_, fun hc => ?_⟩
  · have e := Serialize__toJSON host fuel d id comma key st func hfun hcall
    rw [hc] at e
    refine ⟨e, fun hr => ?_⟩
    rw [e]
    rcases hr with rfl | hr
    · rfl
    · cases r with
      | JSObject rid =>
        simp only [IsJSFunction, beq_iff_eq] at hr
        simp only [afterToJson, dispatch, hr]
      | Smi _ => simp [IsJSFunction] at hr
      | HeapNumber _ => simp [IsJSFunction] at hr
      | String _ => simp [IsJSFunction] at hr
      | Oddball _ => simp [IsJSFunction] at hr
      | Other => simp [IsJSFunction] at hr
  · have e := Serialize__toJSON host fuel d id comma key st func hfun hcall
    rw [hc] at e
    exact e

/-- Witness of C8: `{toJSON: () => 42}` stringifies to `42`. -/
theorem Serialize__toJSON_precedence_witness :
    Stringify hookHost 2 (.JSObject 5) sampleHeap = .done (.string false text_42)
      ∧ Serialize_ hookHost 2 false (.JSObject 5) false (.String empty_string)
          (State.init sampleHeap)
        = dispatch hookHost (Serialize_ hookHost 1) false (.Smi 42) false (.String empty_string)
            { State.init sampleHeap with heap := sampleHeap } :=
  ⟨rfl, ((Serialize__toJSON_precedence hookHost 1 false 5 false (.String empty_string)
    (State.init sampleHeap) (.JSObject 6) rfl rfl).1 (.Smi 42) sampleHeap rfl).1⟩

/-- C9: when `toJSON` is callable on the object being serialized, the call made is
`Call(toJSON, receiver = the object, argument)` with the key in string form as
the single argument: the empty string at the root (`SerializeObject`), the
decimal text of `i` for the array element at index `i` (`SerializeElement`),
and the key handle for an object member (`SerializeProperty`), which is the
property name, or the decimal text of the index for an integer key. -/
theorem toJSON_call_arguments (host : Host) (fuel : Nat) (object : Nat) (st : State)
    (func : Value) (hfun : (st.heap object).toJSON = some func)
    (hcall : IsJSFunction st.heap func = true) :
    (∀ key, ApplyToJsonFunction host st.heap object key
        = host.Call st.heap func (.JSObject object) (toJsonArgument key))
      ∧ SerializeObject host (fuel + 1) (.JSObject object) st
        = afterToJson host (Serialize_ host fuel) false false (.String empty_string) st
            (host.Call st.heap func (.JSObject object) (.String empty_string))
      ∧ (∀ i : Nat, SerializeElement (Serialize_ host (fuel + 1)) (.JSObject object) i st
        = afterToJson host (Serialize_ host fuel) false false (.Smi i) st
            (host.Call st.heap func (.JSObject object) (.String (NumberToString i)))
        ∧ (NumberToString i).units = decimalText i)
      ∧ (∀ (holder : Nat) (key : Key) (comma : Bool),
          SerializeProperty (Serialize_ host (fuel + 1)) (.JSObject object) comma
            (fetchProperty st.heap holder key).1 st
        = afterToJson host (Serialize_ host fuel) true comma
            (.String (fetchProperty st.heap holder key).1) st
            (host.Call st.heap func (.JSObject object)
              (.String (fetchProperty st.heap holder key).1)))
      ∧ (∀ (holder : Nat) (name : HString),
          (fetchProperty st.heap holder (.name name)).1 = name)
      ∧ (∀ (holder : Nat) (i : Nat),
          (fetchProperty st.heap holder (.index i)).1 = NumberToString i) := by
  refine ⟨fun key => ?_, ?_, fun i => ⟨?_, rfl⟩, fun holder key comma => ?_,
    fun _ _ => rfl, fun _ _ => rfl⟩
  · simp only [ApplyToJsonFunction, hfun, hcall, Bool.not_true, Bool.false_eq_true, if_false]
  · exact Serialize__toJSON host fuel false object false _ st func hfun hcall
  · exact Serialize__toJSON host fuel false object false _ st func hfun hcall
  · exact Serialize__toJSON host fuel true object comma _ st func hfun hcall

/-- Witness of C9 on `{toJSON: f}` at the root: the call is made on the object 5
with the empty string. -/
theorem toJSON_call_arguments_witness :
    (sampleHeap 5).toJSON = some (.JSObject 6) ∧ IsJSFunction sampleHeap (.JSObject 6) = true
      ∧ SerializeObject hookHost 2 (.JSObject 5) (State.init sampleHeap)
        = afterToJson hookHost (Serialize_ hookHost 1) false false (.String empty_string)
            (State.init sampleHeap)
            (hookHost.Call sampleHeap (.JSObject 6) (.JSObject 5) (.String empty_string)) :=
  ⟨rfl, rfl, (toJSON_call_arguments hookHost 1 5 (State.init sampleHeap) (.JSObject 6)
    rfl rfl).2.1⟩

theorem decodeBody_piece (p : List Nat) (c : Nat) (rest : List Nat)
    (hp : encodes p c = true) :
    decodeBody (p ++ rest) = (decodeBody rest).map (fun l => c :: l) := by
  match p, hp with
  | [d], hp =>
    simp only [encodes, Bool.and_eq_true, beq_iff_eq, bne_iff_ne, ne_eq] at hp
    obtain ⟨⟨rfl, h2⟩, h3⟩ := hp
    rw [List.singleton_append, decodeBody.eq_def]
    simp [h2, h3]
  | [b, e], hp =>
    simp only [encodes, Bool.and_eq_true, beq_iff_eq, bne_iff_ne, ne_eq] at hp
    obtain ⟨⟨rfl, h2⟩, h3⟩ := hp
    rw [List.cons_append, List.singleton_append, decodeBody.eq_def]
    simp [h2, h3]
  | [b, u, a1, a2, a3, a4], hp =>
    simp only [encodes, Bool.and_eq_true, beq_iff_eq] at hp
    obtain ⟨⟨rfl, rfl⟩, h3⟩ := hp
    simp only [List.cons_append, List.nil_append]
    rw [decodeBody.eq_def]
    simp [h3]

set_option maxRecDepth 100000 in
theorem escapeEntry_encodes : ∀ c < 128, encodes (escapeEntry c) c = true := by decide

theorem DoNotEscape_encodes (two_byte_src : Bool) (c : Nat)
    (h : DoNotEscape two_byte_src c = true) : encodes [c] c = true := by
  cases two_byte_src <;>
    simp only [DoNotEscape, Bool.false_eq_true, if_false, if_true, Bool.and_eq_true,
      Bool.or_eq_true, decide_eq_true_eq, bne_iff_ne, ne_eq] at h <;>
    simp only [encodes, Bool.and_eq_true, beq_self_eq_true, bne_iff_ne, ne_eq, true_and] <;>
    omega

theorem decodeBody_escaped (two_byte_src : Bool) (src : List Nat)
    (h : two_byte_src = false → ∀ c ∈ src, c < 128) :
    decodeBody (escaped two_byte_src src) = some src := by
  induction src with
  | nil => rfl
  | cons c src ih =>
    have ih1 := ih (fun e x hx => h e x (List.mem_cons_of_mem _ hx))
    rw [escaped_cons]
    by_cases hc : DoNotEscape two_byte_src c = true
    · simp only [hc, if_true]
      rw [decodeBody_piece _ c _ (DoNotEscape_encodes two_byte_src c hc), ih1]
      rfl
    · have hc1 : DoNotEscape two_byte_src c = false := by simpa using hc
      simp only [hc1, Bool.false_eq_true, if_false]
      have hlt : c < 128 := by
        cases two_byte_src with
        | false => exact h rfl c (List.mem_cons_self _ _)
        | true =>
          by_contra hge
          have : DoNotEscape true c = true := by
            simp only [DoNotEscape, if_true, Bool.or_eq_true, decide_eq_true_eq]
            left; omega
          rw [this] at hc1; cases hc1
      rw [decodeBody_piece _ c _ (escapeEntry_encodes c hlt), ih1]
      rfl

theorem decodeString_literal (body : List Nat) :
    decodeString (0x22 :: (body ++ [0x22])) = decodeBody body := by
  simp [decodeString]

theorem decodeString_quoted (s : HString) : decodeString (quoted s) = some s.units := by
  unfold quoted
  rw [List.cons_append, decodeString_literal]
  exact decodeBody_escaped s.two_byte s.units s.ascii

/-- The round trip below the wrapping range of the fast-path test. For every
host string `s` and well-formed accumulator, the literal `quoted s` (quote, each
code unit or its escape-table entry, quote) decodes to the code units of `s`;
whenever `SerializeString s` returns, the text it appended is that literal and
decodes to `s`; and it does return for every string shorter than
`maxSafeLength`. -/
theorem SerializeString_roundtrip (s : HString) (b : Builder) (hb : b.WF) :
    decodeString (quoted s) = some s.units
      ∧ (∀ b1, SerializeString s b = some b1 →
          b1.output = b.output ++ quoted s
          ∧ decodeString (b1.output.drop b.output.length) = some s.units)
      ∧ (s.units.length < maxSafeLength → ∃ b1, SerializeString s b = some b1) := by
  refine ⟨decodeString_quoted s, fun b1 h => ?_, fun hlen => ?_⟩
  · obtain ⟨_, o, _⟩ := SerializeString_some s b b1 hb h
    refine ⟨o, ?_⟩
    rw [o, List.drop_left]
    exact decodeString_quoted s
  · obtain ⟨b1, e, _⟩ := SerializeString_spec s b hb hlen
    exact ⟨b1, e⟩

set_option maxRecDepth 100000 in
/-- The round trip of the string quote, backslash, U+0001, slash: it is written
as `"\\"\\\\\\u0001/"` on the fresh accumulator and decodes back to itself. -/
theorem SerializeString_roundtrip_witness :
    Builder.init.WF
      ∧ (SerializeString str_scenario3 Builder.init).map Builder.output = some text_scenario3
      ∧ quoted str_scenario3 = text_scenario3
      ∧ decodeString (quoted str_scenario3) = some [0x22, 0x5C, 0x01, 0x2F] :=
  ⟨Builder.init_WF, rfl, rfl,
    (SerializeString_roundtrip str_scenario3 Builder.init Builder.init_WF).1⟩

theorem Inv.build {heap : Heap} {stack : List Nat} {st : State} (hi : Inv heap stack st)
    (op : Builder → Option Builder)
    (hop : ∃ b1, op st.builder = some b1 ∧ b1.WF) :
    ∃ s1, st.build op = .done s1 ∧ Inv heap stack s1
      ∧ ∀ b1, op st.builder = some b1 → s1.builder = b1 := by
  obtain ⟨b1, e, w⟩ := hop
  refine ⟨{ st with builder := b1 }, by simp [State.build, e], ⟨hi.heap_eq, hi.stack_eq, w⟩, ?_⟩
  intro b2 e2
  rw [e] at e2
  simp only [Option.some.injEq] at e2
  exact e2

theorem Inv.append {heap : Heap} {stack : List Nat} {st : State} (hi : Inv heap stack st)
    (c : Nat) : ∃ s1, st.build (Append c) = .done s1 ∧ Inv heap stack s1 := by
  obtain ⟨b1, e, w, _⟩ := Append_spec c st.builder hi.wf
  obtain ⟨s1, h1, i1, _⟩ := hi.build (Append c) ⟨b1, e, w⟩
  exact ⟨s1, h1, i1⟩

theorem Inv.append_str {heap : Heap} {stack : List Nat} {st : State}
    (hi : Inv heap stack st) (cs : List Nat) :
    ∃ s1, st.build (Append_str cs) = .done s1 ∧ Inv heap stack s1 := by
  obtain ⟨b1, e, w, _⟩ := Append_str_spec cs st.builder hi.wf
  obtain ⟨s1, h1, i1, _⟩ := hi.build (Append_str cs) ⟨b1, e, w⟩
  exact ⟨s1, h1, i1⟩

theorem Inv.string {heap : Heap} {stack : List Nat} {st : State} (hi : Inv heap stack st)
    (s : HString) (hs : SafeString s) :
    ∃ s1, st.build (SerializeString s) = .done s1 ∧ Inv heap stack s1 := by
  obtain ⟨b1, e, w, _⟩ := SerializeString_spec s st.builder hi.wf hs
  obtain ⟨s1, h1, i1, _⟩ := hi.build (SerializeString s) ⟨b1, e, w⟩
  exact ⟨s1, h1, i1⟩

theorem Inv.deferred {heap : Heap} {stack : List Nat} {st : State}
    (hi : Inv heap stack st) (d comma : Bool) (key : Value) (hk : SafeKey d key) :
    ∃ s1, deferredKey d comma key st = .done s1 ∧ Inv heap stack s1 := by
  unfold deferredKey
  cases d with
  | false => exact ⟨st, by simp, hi⟩
  | true =>
    obtain ⟨s, rfl, hs⟩ := hk rfl
    simp only [if_true, SerializeDeferredKey]
    have h1 : ∃ s1, (if comma = true then st.build (Append 0x2C) else Run.done st) = .done s1
        ∧ Inv heap stack s1 := by
      cases comma with
      | false => exact ⟨st, by simp, hi⟩
      | true => simpa using hi.append 0x2C
    obtain ⟨s1, e1, i1⟩ := h1
    obtain ⟨s2, e2, i2⟩ := i1.string s hs
    obtain ⟨s3, e3, i3⟩ := i2.append 0x3A
    exact ⟨s3, by simp only [e1, e2, e3], i3⟩

theorem Inv.smi {heap : Heap} {stack : List Nat} {st : State} (hi : Inv heap stack st)
    (host : Host) (value : Int) :
    ∃ s1, SerializeSmi host value st = .done (.SUCCESS, s1) ∧ Inv heap stack s1 := by
  obtain ⟨s1, e1, i1⟩ := hi.append_str (host.IntToCString value)
  exact ⟨s1, by simp only [SerializeSmi, e1], i1⟩

theorem Inv.double {heap : Heap} {stack : List Nat} {st : State} (hi : Inv heap stack st)
    (host : Host) (number : Dbl) :
    ∃ s1, SerializeDouble host number st = .done (.SUCCESS, s1) ∧ Inv heap stack s1 := by
  unfold SerializeDouble
  split
  · obtain ⟨s1, e1, i1⟩ := hi.append_str str_null
    exact ⟨s1, by simp only [e1], i1⟩
  · obtain ⟨s1, e1, i1⟩ := hi.append_str (host.DoubleToCString number)
    exact ⟨s1, by simp only [e1], i1⟩

theorem Inv.separator {heap : Heap} {stack : List Nat} {st : State}
    (hi : Inv heap stack st) (i : Nat) :
    ∃ s1, appendSeparator i st = .done s1 ∧ Inv heap stack s1 := by
  unfold appendSeparator
  split
  · exact hi.append 0x2C
  · exact ⟨st, rfl, hi⟩

theorem smiLoop_total (host : Host) (heap : Heap) (stack : List Nat) (es : List Int)
    (i : Nat) (st : State) (hi : Inv heap stack st) :
    ∃ s1, smiLoop host es i st = .done s1 ∧ Inv heap stack s1 := by
  induction es generalizing i st with
  | nil => exact ⟨st, rfl, hi⟩
  | cons e es ih =>
    obtain ⟨s1, e1, i1⟩ := hi.separator i
    obtain ⟨s2, e2, i2⟩ := i1.smi host e
    obtain ⟨s3, e3, i3⟩ := ih (i + 1) s2 i2
    exact ⟨s3, by simp only [smiLoop, e1, e2, e3], i3⟩

theorem doubleLoop_total (host : Host) (heap : Heap) (stack : List Nat) (es : List Dbl)
    (i : Nat) (st : State) (hi : Inv heap stack st) :
    ∃ s1, doubleLoop host es i st = .done s1 ∧ Inv heap stack s1 := by
  induction es generalizing i st with
  | nil => exact ⟨st, rfl, hi⟩
  | cons e es ih =>
    obtain ⟨s1, e1, i1⟩ := hi.separator i
    obtain ⟨s2, e2, i2⟩ := i1.double host e
    obtain ⟨s3, e3, i3⟩ := ih (i + 1) s2 i2
    exact ⟨s3, by simp only [doubleLoop, e1, e2, e3], i3⟩

/-- One element of an array under `RecTotal`: the loop either goes on from a state
that satisfies the invariant, the element being `CleanV`, or stops with `CIRCULAR`. -/
theorem element_total (heap : Heap) (stack : List Nat) (recurse : Recurse)
    (hrec : RecTotal heap stack recurse) (e : Value) (i : Nat) (s1 : State)
    (i1 : Inv heap stack s1) (he : SafeValue e) :
    ∃ r2 s2 o s3, SerializeElement recurse e i s1 = .done (r2, s2)
      ∧ elementResult r2 s2 = .done (o, s3) ∧ s3.heap = heap ∧ s3.builder.WF
      ∧ ((o = none ∧ s3.stack = stack ∧ CleanV heap stack e) ∨ o = some .CIRCULAR) := by
  obtain ⟨r2, s2, e2, hh, hw, hr, hc⟩ :=
    hrec false e false (.Smi i) s1 i1 he (fun d => by cases d)
  rcases hr with rfl | rfl | rfl
  · obtain ⟨hs, hcl⟩ := hc (by decide)
    exact ⟨_, s2, none, s2, e2, by simp [elementResult], hh, hw, Or.inl ⟨rfl, hs, hcl⟩⟩
  · obtain ⟨hs, hcl⟩ := hc (by decide)
    have i2 : Inv heap stack s2 := ⟨hh, hs, hw⟩
    obtain ⟨s3, e3, i3⟩ := i2.append_str str_null
    refine ⟨_, s2, none, s3, e2, ?_, i3.heap_eq, i3.wf, Or.inl ⟨rfl, i3.stack_eq, hcl⟩⟩
    simp [elementResult, e3]
  · exact ⟨_, s2, some .CIRCULAR, s2, e2, by simp [elementResult], hh, hw, Or.inr rfl⟩

theorem elementsLoop_total (heap : Heap) (stack : List Nat) (recurse : Recurse)
    (hrec : RecTotal heap stack recurse) (es : List Value) (i : Nat) (st : State)
    (hi : Inv heap stack st) (hes : ∀ e ∈ es, SafeValue e) :
    ∃ r st1, elementsLoop recurse es i st = .done (r, st1) ∧ st1.heap = heap
      ∧ st1.builder.WF
      ∧ ((r = .SUCCESS ∧ st1.stack = stack ∧ ∀ e ∈ es, CleanV heap stack e)
        ∨ r = .CIRCULAR) := by
  induction es generalizing i st with
  | nil => exact ⟨.SUCCESS, st, rfl, hi.heap_eq, hi.wf, Or.inl ⟨rfl, hi.stack_eq, by simp⟩⟩
  | cons e es ih =>
    obtain ⟨s1, e1, i1⟩ := hi.separator i
    obtain ⟨r2, s2, o, s3, e2, e3, hh, hw, hcase⟩ :=
      element_total heap stack recurse hrec e i s1 i1 (hes e (List.mem_cons_self _ _))
    rcases hcase with ⟨rfl, hs, hcl⟩ | rfl
    · obtain ⟨r, st1, e4, hh4, hw4, hr4⟩ :=
        ih (i + 1) s3 ⟨hh, hs, hw⟩ (fun x hx => hes x (List.mem_cons_of_mem _ hx))
      refine ⟨r, st1, by simp only [elementsLoop, e1, e2, e3, e4], hh4, hw4, ?_⟩
      rcases hr4 with ⟨rfl, hs4, hall⟩ | rfl
      · refine Or.inl ⟨rfl, hs4, ?_⟩
        intro x hx
        rcases List.mem_cons.mp hx with rfl | hx
        · exact hcl
        · exact hall x hx
      · exact Or.inr rfl
    · exact ⟨.CIRCULAR, s3, by simp only [elementsLoop, e1, e2, e3], hh, hw, Or.inr rfl⟩

theorem SerializeJSArraySlow_total (heap : Heap) (stack : List Nat) (recurse : Recurse)
    (hrec : RecTotal heap stack recurse) (object : Nat) (elements : Elements)
    (hshape : (heap object).shape = .JSArray elements)
    (hes : ∀ e ∈ elements.toList, SafeValue e)
    (remaining i : Nat) (st : State) (hi : Inv heap stack st)
    (hn : remaining + i = elements.toList.length) :
    ∃ r st1, SerializeJSArraySlow recurse object remaining i st = .done (r, st1)
      ∧ st1.heap = heap ∧ st1.builder.WF
      ∧ ((r = .SUCCESS ∧ st1.stack = stack
          ∧ ∀ j (hj : j < elements.toList.length), i ≤ j → CleanV heap stack elements.toList[j])
        ∨ r = .CIRCULAR) := by
  induction remaining generalizing i st with
  | zero =>
    exact ⟨.SUCCESS, st, rfl, hi.heap_eq, hi.wf,
      Or.inl ⟨rfl, hi.stack_eq, fun j hj hij => by omega⟩⟩
  | succ remaining ih =>
    have hlt : i < elements.toList.length := by omega
    obtain ⟨s1, e1, i1⟩ := hi.separator i
    have hg : GetElement s1.heap object i = some elements.toList[i] := by
      simp only [GetElement, i1.heap_eq, hshape]
      congr 1
      simp [List.getD_eq_getElem?_getD, List.getElem?_eq_getElem hlt]
    have step : ∀ s3 : State, Inv heap stack s3 → CleanV heap stack elements.toList[i] →
        ∀ r st1, SerializeJSArraySlow recurse object remaining (i + 1) s3 = .done (r, st1) →
        ((r = .SUCCESS ∧ st1.stack = stack ∧ ∀ j (hj : j < elements.toList.length),
            i + 1 ≤ j → CleanV heap stack elements.toList[j]) ∨ r = .CIRCULAR) →
        ((r = .SUCCESS ∧ st1.stack = stack ∧ ∀ j (hj : j < elements.toList.length),
            i ≤ j → CleanV heap stack elements.toList[j]) ∨ r = .CIRCULAR) := by
      intro s3 _ hcl r st1 _ hr
      rcases hr with ⟨rfl, hs, hall⟩ | rfl
      · refine Or.inl ⟨rfl, hs, fun j hj hij => ?_⟩
        by_cases hji : j = i
        · subst hji; exact hcl
        · exact hall j hj (by omega)
      · exact Or.inr rfl
    by_cases hu : elements.toList[i] = .Oddball .kUndefined
    · obtain ⟨s2, e2, i2⟩ := i1.append_str str_null
      obtain ⟨r, st1, e4, hh4, hw4, hr4⟩ := ih (i + 1) s2 i2 (by omega)
      refine ⟨r, st1, ?_, hh4, hw4, step s2 i2 ?_ r st1 e4 hr4⟩
      · simp only [SerializeJSArraySlow, e1, hg, hu, if_true, e2, e4]
      · rw [hu]; intro id hid; cases hid
    · obtain ⟨r2, s2, o, s3, e2, e3, hh, hw, hcase⟩ :=
        element_total heap stack recurse hrec elements.toList[i] i s1 i1
          (hes _ (List.getElem_mem _))
      rcases hcase with ⟨rfl, hs, hcl⟩ | rfl
      · obtain ⟨r, st1, e4, hh4, hw4, hr4⟩ := ih (i + 1) s3 ⟨hh, hs, hw⟩ (by omega)
        refine ⟨r, st1, ?_, hh4, hw4, step s3 ⟨hh, hs, hw⟩ hcl r st1 e4 hr4⟩
        simp only [SerializeJSArraySlow, e1, hg, hu, if_false, e2, e3, e4]
      · refine ⟨.CIRCULAR, s3, ?_, hh, hw, Or.inr rfl⟩
        simp only [SerializeJSArraySlow, e1, hg, hu, if_false, e2, e3]

theorem propertiesLoop_total (heap : Heap) (stack : List Nat) (recurse : Recurse)
    (hrec : RecTotal heap stack recurse) (target : Nat) (contents : List Key)
    (hfetch : ∀ key ∈ contents, SafeString (fetchProperty heap target key).1
      ∧ ∃ v, (fetchProperty heap target key).2 = some v ∧ SafeValue v)
    (comma : Bool) (st : State) (hi : Inv heap stack st) :
    ∃ r st1, propertiesLoop recurse target contents comma st = .done (r, st1)
      ∧ st1.heap = heap ∧ st1.builder.WF
      ∧ ((r = .SUCCESS ∧ st1.stack = stack
          ∧ ∀ key ∈ contents, ∀ v, (fetchProperty heap target key).2 = some v →
              CleanV heap stack v)
        ∨ r = .CIRCULAR) := by
  induction contents generalizing comma st with
  | nil => exact ⟨.SUCCESS, st, rfl, hi.heap_eq, hi.wf, Or.inl ⟨rfl, hi.stack_eq, by simp⟩⟩
  | cons key contents ih =>
    obtain ⟨hsafe, v, hv, hvs⟩ := hfetch key (List.mem_cons_self _ _)
    have hf : fetchProperty st.heap target key = ((fetchProperty heap target key).1, some v) := by
      rw [hi.heap_eq, ← hv]
    obtain ⟨r2, s2, e2, hh, hw, hr, hc⟩ :=
      hrec true v comma (.String (fetchProperty heap target key).1) st hi hvs
        (fun _ => ⟨_, rfl, hsafe⟩)
    have e2' : SerializeProperty recurse v comma (fetchProperty heap target key).1 st
        = .done (r2, s2) := e2
    have hrest := fun (c : Bool) (hs : s2.stack = stack) =>
      ih (fun k hk => hfetch k (List.mem_cons_of_mem _ hk)) c s2 ⟨hh, hs, hw⟩
    have fin : ∀ (c : Bool), r2 ≠ .CIRCULAR →
        propertiesLoop recurse target (key :: contents) comma st
          = propertiesLoop recurse target contents c s2 →
        ∃ r st1, propertiesLoop recurse target (key :: contents) comma st = .done (r, st1)
          ∧ st1.heap = heap ∧ st1.builder.WF
          ∧ ((r = .SUCCESS ∧ st1.stack = stack
              ∧ ∀ k ∈ key :: contents, ∀ v, (fetchProperty heap target k).2 = some v →
                  CleanV heap stack v)
            ∨ r = .CIRCULAR) := by
      intro c hne heq
      obtain ⟨hs, hcl⟩ := hc hne
      obtain ⟨r, st1, e4, hh4, hw4, hr4⟩ := hrest c hs
      refine ⟨r, st1, by rw [heq, e4], hh4, hw4, ?_⟩
      rcases hr4 with ⟨rfl, hs4, hall⟩ | rfl
      · refine Or.inl ⟨rfl, hs4, ?_⟩
        intro k hk x hx
        rcases List.mem_cons.mp hk with rfl | hk
        · rw [hv] at hx
          simp only [Option.some.injEq] at hx
          subst hx; exact hcl
        · exact hall k hk x hx
      · exact Or.inr rfl
    rcases hr with rfl | rfl | rfl
    · exact fin true (by decide) (by
        simp only [propertiesLoop, hf, e2']
        cases comma <;> simp [Result.toNat])
    · exact fin comma (by decide) (by
        simp only [propertiesLoop, hf, e2']
        cases comma <;> simp [Result.toNat])
    · refine ⟨.CIRCULAR, s2, ?_, hh, hw, Or.inr rfl⟩
      simp only [propertiesLoop, hf, e2']
      simp [Result.toNat]

theorem CleanV_of_not_object (heap : Heap) (stack : List Nat) (v : Value)
    (h : ∀ id, v ≠ .JSObject id) : CleanV heap stack v :=
  fun id hid => absurd hid (h id)

theorem Clean_of_children (heap : Heap) (stack : List Nat) (object : Nat)
    (hnew : object ∉ stack)
    (hch : ∀ v ∈ children heap object, CleanV heap (stack ++ [object]) v) :
    Clean heap stack object := by
  have hedge : ∀ c, Edge heap object c → Clean heap (stack ++ [object]) c :=
    fun c hc => hch _ hc.1 c rfl hc.2
  intro w hreach
  rcases Relation.ReflTransGen.cases_head hreach with rfl | ⟨c, hc, hcw⟩
  · refine ⟨hnew, fun hcyc => ?_⟩
    obtain ⟨c, hc, hco⟩ := Relation.TransGen.head'_iff.mp hcyc
    exact (hedge c hc _ hco).1 (by simp)
  · obtain ⟨h1, h2⟩ := hedge c hc w hcw
    exact ⟨fun hw => h1 (List.mem_append_left _ hw), h2⟩

theorem StackPush_new (host : Host) (object : Nat) (st : State)
    (hover : host.HasOverflowed st.stack.length = false) (hnew : object ∉ st.stack) :
    StackPush host object st = (.SUCCESS, { st with stack := st.stack ++ [object] }) := by
  rcases StackPush_cases host object st with ⟨hp, _, _⟩ | ⟨_, ho⟩ | ⟨_, _, hc⟩
  · exact hp
  · rw [hover] at ho; cases ho
  · exact absurd hc hnew

theorem StackPush_old (host : Host) (object : Nat) (st : State)
    (hover : host.HasOverflowed st.stack.length = false) (hold : object ∈ st.stack) :
    StackPush host object st = (.CIRCULAR, st) := by
  rcases StackPush_cases host object st with ⟨_, _, hn⟩ | ⟨_, ho⟩ | ⟨hp, _, _⟩
  · exact absurd hold hn
  · rw [hover] at ho; cases ho
  · exact hp

theorem StackPop_Inv (heap : Heap) (stack : List Nat) (object : Nat) (st : State)
    (hi : Inv heap (stack ++ [object]) st) : Inv heap stack (StackPop st) :=
  ⟨hi.heap_eq, StackPop_push st stack object hi.stack_eq, hi.wf⟩

theorem arrayBody_total (host : Host) (heap : Heap) (stack : List Nat) (recurse : Recurse)
    (hrec : RecTotal heap stack recurse) (object : Nat) (elements : Elements)
    (hshape : (heap object).shape = .JSArray elements)
    (hes : ∀ e ∈ elements.toList, SafeValue e) (st : State) (hi : Inv heap stack st) :
    ∃ r st1, arrayBody host recurse object elements st = .done (r, st1)
      ∧ st1.heap = heap ∧ st1.builder.WF
      ∧ ((r = .SUCCESS ∧ st1.stack = stack ∧ ∀ e ∈ elements.toList, CleanV heap stack e)
        ∨ r = .CIRCULAR) := by
  cases elements with
  | FAST_SMI_ELEMENTS es =>
    obtain ⟨s1, e1, i1⟩ := smiLoop_total host heap stack es 0 st hi
    refine ⟨.SUCCESS, s1, by simp only [arrayBody, e1], i1.heap_eq, i1.wf,
      Or.inl ⟨rfl, i1.stack_eq, ?_⟩⟩
    intro e he
    obtain ⟨x, _, rfl⟩ := List.mem_map.mp he
    exact CleanV_of_not_object _ _ _ (fun id h => by cases h)
  | FAST_DOUBLE_ELEMENTS es =>
    obtain ⟨s1, e1, i1⟩ := doubleLoop_total host heap stack es 0 st hi
    refine ⟨.SUCCESS, s1, by simp only [arrayBody, e1], i1.heap_eq, i1.wf,
      Or.inl ⟨rfl, i1.stack_eq, ?_⟩⟩
    intro e he
    obtain ⟨x, _, rfl⟩ := List.mem_map.mp he
    exact CleanV_of_not_object _ _ _ (fun id h => by cases h)
  | FAST_ELEMENTS es => exact elementsLoop_total heap stack recurse hrec es 0 st hi hes
  | OTHER es =>
    obtain ⟨r, st1, e1, hh, hw, hr⟩ :=
      SerializeJSArraySlow_total heap stack recurse hrec object (.OTHER es) hshape hes
        es.length 0 st hi (by simp [Elements.toList])
    refine ⟨r, st1, e1, hh, hw, ?_⟩
    rcases hr with ⟨rfl, hs, hall⟩ | rfl
    · refine Or.inl ⟨rfl, hs, fun e he => ?_⟩
      obtain ⟨j, hj, rfl⟩ := List.mem_iff_getElem.mp he
      exact hall j hj (Nat.zero_le _)
    · exact Or.inr rfl

theorem SerializeJSArray_total (host : Host) (heap : Heap) (stack : List Nat)
    (recurse : Recurse) (object : Nat) (elements : Elements) (st : State)
    (hover : ∀ depth, host.HasOverflowed depth = false) (hi : Inv heap stack st)
    (hshape : (heap object).shape = .JSArray elements)
    (hes : ∀ e ∈ elements.toList, SafeValue e)
    (hrec : object ∉ stack → RecTotal heap (stack ++ [object]) recurse) :
    Outcome heap stack (.JSObject object)
      (SerializeJSArray host recurse object elements st) := by
  unfold SerializeJSArray
  by_cases hin : object ∈ stack
  · rw [StackPush_old host object st (hover _) (by rw [hi.stack_eq]; exact hin)]
    exact ⟨.CIRCULAR, st, rfl, hi.heap_eq, hi.wf, Or.inr (Or.inr rfl), fun h => absurd rfl h⟩
  · rw [StackPush_new host object st (hover _) (by rw [hi.stack_eq]; exact hin)]
    simp only
    have i0 : Inv heap (stack ++ [object]) { st with stack := st.stack ++ [object] } :=
      ⟨hi.heap_eq, by simp [hi.stack_eq], hi.wf⟩
    obtain ⟨s1, e1, i1⟩ := i0.append 0x5B
    obtain ⟨r2, s2, e2, hh, hw, hr⟩ :=
      arrayBody_total host heap (stack ++ [object]) recurse (hrec hin) object elements hshape
        hes s1 i1
    rcases hr with ⟨rfl, hs, hall⟩ | rfl
    · obtain ⟨s3, e3, i3⟩ := Inv.append (show Inv _ _ s2 from ⟨hh, hs, hw⟩) 0x5D
      have i4 := StackPop_Inv heap stack object s3 i3
      refine ⟨.SUCCESS, StackPop s3, by simp only [e1, e2, e3], i4.heap_eq, i4.wf,
        Or.inl rfl, fun _ => ⟨i4.stack_eq, ?_⟩⟩
      intro id hid _
      simp only [Value.JSObject.injEq] at hid
      subst hid
      apply Clean_of_children heap stack object hin
      intro v hv
      apply hall
      simpa [children, hshape] using hv
    · exact ⟨.CIRCULAR, s2, by simp only [e1, e2], hh, hw, Or.inr (Or.inr rfl),
        fun h => absurd rfl h⟩

theorem SerializeJSObject_total (host : Host) (heap : Heap) (stack : List Nat)
    (recurse : Recurse) (object : Nat) (st : State)
    (hover : ∀ depth, host.HasOverflowed depth = false) (hq : QuietHeap heap)
    (hi : Inv heap stack st) (hshape : (heap object).shape = .JSObject)
    (hrec : object ∉ stack → RecTotal heap (stack ++ [object]) recurse) :
    Outcome heap stack (.JSObject object) (SerializeJSObject host recurse object st) := by
  unfold SerializeJSObject
  by_cases hin : object ∈ stack
  · rw [StackPush_old host object st (hover _) (by rw [hi.stack_eq]; exact hin)]
    exact ⟨.CIRCULAR, st, rfl, hi.heap_eq, hi.wf, Or.inr (Or.inr rfl), fun h => absurd rfl h⟩
  · rw [StackPush_new host object st (hover _) (by rw [hi.stack_eq]; exact hin)]
    simp only
    have he : (match (st.heap object).global_proxy with
        | some prototype => prototype
        | none => object) = enumerated heap object := by
      rw [hi.heap_eq]; rfl
    rw [he]
    obtain ⟨contents, hk⟩ := hq.keys_ok (enumerated heap object)
    have hk' : (st.heap (enumerated heap object)).keys = some contents := by
      rw [hi.heap_eq]; exact hk
    simp only [hk']
    have i0 : Inv heap (stack ++ [object]) { st with stack := st.stack ++ [object] } :=
      ⟨hi.heap_eq, by simp [hi.stack_eq], hi.wf⟩
    obtain ⟨s1, e1, i1⟩ := i0.append 0x7B
    obtain ⟨r2, s2, e2, hh, hw, hr⟩ :=
      propertiesLoop_total heap (stack ++ [object]) recurse (hrec hin)
        (enumerated heap object) contents (hq.fetch_ok _ contents hk) false s1 i1
    rcases hr with ⟨rfl, hs, hall⟩ | rfl
    · obtain ⟨s3, e3, i3⟩ := Inv.append (show Inv _ _ s2 from ⟨hh, hs, hw⟩) 0x7D
      have i4 := StackPop_Inv heap stack object s3 i3
      refine ⟨.SUCCESS, StackPop s3, by simp only [e1, e2, e3], i4.heap_eq, i4.wf,
        Or.inl rfl, fun _ => ⟨i4.stack_eq, ?_⟩⟩
      intro id hid _
      simp only [Value.JSObject.injEq] at hid
      subst hid
      apply Clean_of_children heap stack object hin
      intro v hv
      simp only [children, hshape, hk, List.mem_filterMap] at hv
      obtain ⟨key, hkey, hv⟩ := hv
      exact hall key hkey v hv
    · exact ⟨.CIRCULAR, s2, by simp only [e1, e2], hh, hw, Or.inr (Or.inr rfl),
        fun h => absurd rfl h⟩

theorem SerializeJSValue_total (host : Host) (heap : Heap) (stack : List Nat)
    (hq : QuietHeap heap) (id : Nat) (st : State) (hi : Inv heap stack st)
    (hshape : isComposite heap id = false) (hfun : (heap id).shape ≠ .JSFunction) :
    ∃ s1, SerializeJSValue host (heap id).shape st = .done (.SUCCESS, s1)
      ∧ Inv heap stack s1 := by
  cases hs : (heap id).shape with
  | JSFunction => exact absurd hs hfun
  | JSArray els => simp [isComposite, hs] at hshape
  | JSObject => simp [isComposite, hs] at hshape
  | JSValue_String o =>
    obtain ⟨s, rfl, hsafe⟩ := hq.to_string_ok id o hs
    obtain ⟨s1, e1, i1⟩ := hi.string s hsafe
    exact ⟨s1, by simp only [SerializeJSValue, e1], i1⟩
  | JSValue_Number o =>
    cases o with
    | none => exact absurd hs (hq.to_number_ok id)
    | some n =>
      cases n with
      | Smi value => exact hi.smi host value
      | HeapNumber value =>
        obtain ⟨s1, e1, i1⟩ := hi.double host value
        exact ⟨s1, by simp only [SerializeJSValue, e1], i1⟩
  | JSValue_Boolean value =>
    obtain ⟨s1, e1, i1⟩ := hi.append_str (if value = true then str_true else str_false)
    exact ⟨s1, by simp only [SerializeJSValue, e1], i1⟩

theorem toJsonStep_quiet (host : Host) (heap : Heap) (hq : QuietHeap heap) (v key : Value)
    (st : State) (hh : st.heap = heap) : toJsonStep host v key st = some (v, st) := by
  cases v with
  | JSObject id =>
    have ha : ApplyToJsonFunction host st.heap id key = some (.JSObject id, st.heap) := by
      unfold ApplyToJsonFunction
      cases ht : (st.heap id).toJSON with
      | none => rfl
      | some f =>
        have hf : IsJSFunction st.heap f = false := by
          rw [hh] at ht ⊢
          exact hq.no_hook id f ht
        simp [hf]
    simp only [toJsonStep, ha]
  | Smi _ => rfl
  | HeapNumber _ => rfl
  | String _ => rfl
  | Oddball _ => rfl
  | Other => rfl

theorem Outcome_of_success (heap : Heap) (stack : List Nat) (v : Value)
    (run : Run (Result × State)) (s1 : State) (h : run = .done (.SUCCESS, s1))
    (hi : Inv heap stack s1) (hv : ∀ id, v = .JSObject id → isComposite heap id = false) :
    Outcome heap stack v run :=
  ⟨.SUCCESS, s1, h, hi.heap_eq, hi.wf, Or.inl rfl, fun _ => ⟨hi.stack_eq,
    fun id hid hc => by rw [hv id hid] at hc; cases hc⟩⟩

theorem Outcome_of_unchanged (heap : Heap) (stack : List Nat) (v : Value)
    (run : Run (Result × State)) (s1 : State) (h : run = .done (.UNCHANGED, s1))
    (hi : Inv heap stack s1) (hv : ∀ id, v = .JSObject id → isComposite heap id = false) :
    Outcome heap stack v run :=
  ⟨.UNCHANGED, s1, h, hi.heap_eq, hi.wf, Or.inr (Or.inl rfl), fun _ => ⟨hi.stack_eq,
    fun id hid hc => by rw [hv id hid] at hc; cases hc⟩⟩

theorem stack_length_le (heap : Heap) (N : Nat)
    (hN : ∀ id, isComposite heap id = true → id < N) (stack : List Nat)
    (hnd : stack.Nodup) (hc : ∀ x ∈ stack, isComposite heap x = true) :
    stack.length ≤ N := by
  have h1 : stack.toFinset ⊆ Finset.range N := by
    intro x hx
    simp only [List.mem_toFinset] at hx
    simp only [Finset.mem_range]
    exact hN x (hc x hx)
  have h2 := Finset.card_le_card h1
  rw [List.toFinset_card_of_nodup hnd, Finset.card_range] at h2
  exact h2

theorem dispatch_total (host : Host) (heap : Heap) (stack : List Nat) (recurse : Recurse)
    (hover : ∀ depth, host.HasOverflowed depth = false) (hq : QuietHeap heap)
    (hrec : ∀ object, object ∉ stack → isComposite heap object = true →
      RecTotal heap (stack ++ [object]) recurse)
    (d : Bool) (v : Value) (comma : Bool) (key : Value) (st : State)
    (hi : Inv heap stack st) (hv : SafeValue v) (hk : SafeKey d key) :
    Outcome heap stack v (dispatch host recurse d v comma key st) := by
  obtain ⟨s1, e1, i1⟩ := hi.deferred d comma key hk
  cases v with
  | JSObject id =>
    cases hs : (heap id).shape with
    | JSFunction =>
      refine Outcome_of_unchanged heap stack _ _ st ?_ hi ?_
      · simp only [dispatch, hi.heap_eq, hs]
      · intro x hx
        simp only [Value.JSObject.injEq] at hx
        subst hx
        simp [isComposite, hs]
    | JSArray elements =>
      have e : dispatch host recurse d (.JSObject id) comma key st
          = SerializeJSArray host recurse id elements s1 := by
        simp only [dispatch, hi.heap_eq, hs, e1]
      rw [e]
      exact SerializeJSArray_total host heap stack recurse id elements s1 hover i1 hs
        (hq.elements_ok id elements hs)
        (fun hn => hrec id hn (by simp [isComposite, hs]))
    | JSObject =>
      have e : dispatch host recurse d (.JSObject id) comma key st
          = SerializeJSObject host recurse id s1 := by
        simp only [dispatch, hi.heap_eq, hs, e1]
      rw [e]
      exact SerializeJSObject_total host heap stack recurse id s1 hover hq i1 hs
        (fun hn => hrec id hn (by simp [isComposite, hs]))
    | JSValue_String o =>
      have hc : isComposite heap id = false := by simp [isComposite, hs]
      obtain ⟨s2, e2, i2⟩ := SerializeJSValue_total host heap stack hq id s1 i1 hc
        (by rw [hs]; intro h; cases h)
      refine Outcome_of_success heap stack _ _ s2 ?_ i2 ?_
      · rw [hs] at e2
        simp only [dispatch, hi.heap_eq, hs, e1, e2]
      · intro x hx
        simp only [Value.JSObject.injEq] at hx
        subst hx; exact hc
    | JSValue_Number o =>
      have hc : isComposite heap id = false := by simp [isComposite, hs]
      obtain ⟨s2, e2, i2⟩ := SerializeJSValue_total host heap stack hq id s1 i1 hc
        (by rw [hs]; intro h; cases h)
      refine Outcome_of_success heap stack _ _ s2 ?_ i2 ?_
      · rw [hs] at e2
        simp only [dispatch, hi.heap_eq, hs, e1, e2]
      · intro x hx
        simp only [Value.JSObject.injEq] at hx
        subst hx; exact hc
    | JSValue_Boolean o =>
      have hc : isComposite heap id = false := by simp [isComposite, hs]
      obtain ⟨s2, e2, i2⟩ := SerializeJSValue_total host heap stack hq id s1 i1 hc
        (by rw [hs]; intro h; cases h)
      refine Outcome_of_success heap stack _ _ s2 ?_ i2 ?_
      · rw [hs] at e2
        simp only [dispatch, hi.heap_eq, hs, e1, e2]
      · intro x hx
        simp only [Value.JSObject.injEq] at hx
        subst hx; exact hc
  | String s =>
    obtain ⟨s2, e2, i2⟩ := i1.string s hv
    exact Outcome_of_success heap stack _ _ s2 (by simp only [dispatch, e1, e2]) i2
      (fun x hx => by cases hx)
  | Smi value =>
    obtain ⟨s2, e2, i2⟩ := i1.smi host value
    exact Outcome_of_success heap stack _ _ s2 (by simp only [dispatch, e1, e2]) i2
      (fun x hx => by cases hx)
  | HeapNumber value =>
    obtain ⟨s2, e2, i2⟩ := i1.double host value
    exact Outcome_of_success heap stack _ _ s2 (by simp only [dispatch, e1, e2]) i2
      (fun x hx => by cases hx)
  | Oddball kind =>
    have lit : ∀ text : List Nat,
        (match deferredKey d comma key st with
          | .done st1 =>
            match st1.build (Append_str text) with
            | .done st2 => Run.done (Result.SUCCESS, st2)
            | .fault => .fault
            | .timeout => .timeout
          | .fault => .fault
          | .timeout => .timeout) = dispatch host recurse d (.Oddball kind) comma key st →
        Outcome heap stack (.Oddball kind) (dispatch host recurse d (.Oddball kind) comma key st) := by
      intro text he
      obtain ⟨s2, e2, i2⟩ := i1.append_str text
      refine Outcome_of_success heap stack _ _ s2 ?_ i2 (fun x hx => by cases hx)
      rw [← he, e1]
      simp only [e2]
    cases kind with
    | kFalse => exact lit str_false rfl
    | kTrue => exact lit str_true rfl
    | kNull => exact lit str_null rfl
    | kTheHole => exact Outcome_of_unchanged heap stack _ _ st rfl hi (fun x hx => by cases hx)
    | kArgumentMarker =>
      exact Outcome_of_unchanged heap stack _ _ st rfl hi (fun x hx => by cases hx)
    | kUndefined =>
      exact Outcome_of_unchanged heap stack _ _ st rfl hi (fun x hx => by cases hx)
    | kOther => exact Outcome_of_unchanged heap stack _ _ st rfl hi (fun x hx => by cases hx)
  | Other => exact Outcome_of_unchanged heap stack _ _ st rfl hi (fun x hx => by cases hx)

/-- With enough fuel for the arrays and objects not yet on the stack, every call of
`Serialize_` on a quiet heap completes with `Outcome`. -/
theorem Serialize__total (host : Host) (heap : Heap) (N : Nat)
    (hover : ∀ depth, host.HasOverflowed depth = false) (hq : QuietHeap heap)
    (hN : ∀ id, isComposite heap id = true → id < N) (fuel : Nat) :
    ∀ stack : List Nat, stack.Nodup → (∀ x ∈ stack, isComposite heap x = true) →
      N + 1 ≤ fuel + stack.length → RecTotal heap stack (Serialize_ host fuel) := by
  induction fuel with
  | zero =>
    intro stack hnd hc hf
    have := stack_length_le heap N hN stack hnd hc
    omega
  | succ fuel ih =>
    intro stack hnd hc hf d v comma key st hi hv hk
    simp only [Serialize_, toJsonStep_quiet host heap hq v key st hi.heap_eq]
    refine dispatch_total host heap stack _ hover hq ?_ d v comma key st hi hv hk
    intro object hnew hcomp
    apply ih (stack ++ [object])
    · exact List.Nodup.append hnd (List.nodup_singleton _) (by simpa using hnew)
    · intro x hx
      rcases List.mem_append.mp hx with hx | hx
      · exact hc x hx
      · simp only [List.mem_singleton] at hx
        subst hx; exact hcomp
    · simp only [List.length_append, List.length_singleton]; omega

/-- On a quiet heap whose arrays and objects have identities below `N`, with no
stack overflow signal and fuel above `N`: if an array or object reachable from
the root lies on a cycle of element/member edges, `Stringify` raises the
circular-structure error. -/
theorem cycle_reported (host : Host) (heap : Heap) (N : Nat)
    (hover : ∀ depth, host.HasOverflowed depth = false) (hq : QuietHeap heap)
    (hN : ∀ id, isComposite heap id = true → id < N) (fuel : Nat) (hfuel : N + 1 ≤ fuel)
    (root w : Nat) (hroot : isComposite heap root = true)
    (hreach : Relation.ReflTransGen (Edge heap) root w)
    (hcyc : Relation.TransGen (Edge heap) w w) :
    Stringify host fuel (.JSObject root) heap = .done .throw_circular_structure := by
  obtain ⟨r, st1, e, _, _, hr, hc⟩ :=
    Serialize__total host heap N hover hq hN fuel [] List.nodup_nil (by simp) (by simpa using hfuel)
      false (.JSObject root) false (.String empty_string) (State.init heap)
      ⟨rfl, rfl, Builder.init_WF⟩ trivial (fun h => by cases h)
  have hcirc : r = .CIRCULAR := by
    by_contra hne
    obtain ⟨_, hcl⟩ := hc hne
    exact (hcl root rfl hroot w hreach).2 hcyc
  subst hcirc
  simp only [Stringify, SerializeObject, e]

theorem fastPathTest_long (current_index part_length : Nat) (h : current_index < 16384) :
    fastPathTest current_index 268435456 part_length = true := by
  unfold fastPathTest wrap32
  simp only [decide_eq_true_eq]
  omega

theorem SerializeString_longString_none (b : Builder) (hb : b.WF) :
    SerializeString longString b = none := by
  have hlen : longString.units.length = 268435456 := List.length_replicate _ _
  have hge := escaped_length_ge false longString.units (fun _ => longString.ascii rfl)
  rw [hlen] at hge
  have key : ∀ (ia : Bool) (c : Builder), c.WF →
      SerializeString_ ia false longString.units c = none := by
    intro ia c hc
    have h2 := hc.index_lt
    have h3 := hc.length_le
    simp only [kMaxPartLength] at h3
    cases h : SerializeString_ ia false longString.units c with
    | none => rfl
    | some c1 =>
      exfalso
      unfold SerializeString_ at h
      rw [hlen, fastPathTest_long _ _ (by omega)] at h
      simp only [if_true] at h
      have := SerializeStringUnchecked__some_bound _ _ _ _ h
      rw [hc.length_eq] at this
      omega
  unfold SerializeString
  simp only [show longString.two_byte = false from rfl, Bool.not_false, if_true]
  split
  · exact key true b hb
  · exact key false b hb

theorem Serialize__succ (host : Host) (fuel : Nat) (d : Bool) (v : Value) (comma : Bool)
    (key : Value) (st : State) :
    Serialize_ host (fuel + 1) d v comma key st
      = match toJsonStep host v key st with
        | none => .done (.EXCEPTION, st)
        | some (object1, st1) => dispatch host (Serialize_ host fuel) d object1 comma key st1 :=
  rfl

theorem lookup_head (k : Key) (v : Option Value) (rest : List (Key × Option Value)) :
    List.lookup k ((k, v) :: rest) = some v := by
  rw [List.lookup_cons, beq_self_eq_true]

/-- An object without `toJSON` whose only member, under the key `longString`, is
the object itself: the deferred key faults before the cycle is met. -/
theorem long_key_member_faults (host : Host) (heap : Heap) (object : Nat)
    (hover : host.HasOverflowed 0 = false)
    (hshape : (heap object).shape = .JSObject) (htj : (heap object).toJSON = none)
    (hproxy : (heap object).global_proxy = none)
    (hkeys : (heap object).keys = some [.name longString])
    (hprops : (heap object).props = [(Key.name longString, some (.JSObject object))]) :
    Stringify host 3 (.JSObject object) heap = .fault := by
  have hstep : ∀ (k : Value) (st : State), st.heap = heap →
      toJsonStep host (.JSObject object) k st = some (.JSObject object, st) := by
    intro k st hh
    simp only [toJsonStep, ApplyToJsonFunction, hh, htj]
    rw [← hh]
  have hpush : StackPush host object (State.init heap)
      = (.SUCCESS, { State.init heap with stack := [] ++ [object] }) :=
    StackPush_new host object (State.init heap) hover (by simp [State.init])
  obtain ⟨b1, e1, w1, _⟩ := Append_spec 0x7B Builder.init Builder.init_WF
  have hb : State.build { builder := Builder.init, stack := [] ++ [object], heap := heap }
      (Append 0x7B) = .done { builder := b1, stack := [] ++ [object], heap := heap } := by
    simp only [State.build, e1]
  have hkey : State.build { builder := b1, stack := [] ++ [object], heap := heap }
      (SerializeString longString) = .fault := by
    simp only [State.build, SerializeString_longString_none b1 w1]
  have hfetch : fetchProperty heap object (.name longString)
      = (longString, some (.JSObject object)) := by
    simp only [fetchProperty, GetProperty, hprops, lookup_head]
  have hprop : Serialize_ host 2 true (.JSObject object) false (.String longString)
      { builder := b1, stack := [] ++ [object], heap := heap } = .fault := by
    rw [Serialize__succ, hstep _ _ rfl]
    simp only [dispatch, hshape, deferredKey, SerializeDeferredKey, if_true,
      Bool.false_eq_true, if_false, hkey]
  have hobj : SerializeJSObject host (Serialize_ host 2) object (State.init heap) = .fault := by
    unfold SerializeJSObject
    rw [hpush]
    have h0 : (State.init heap).heap = heap := rfl
    have h1 : (State.init heap).builder = Builder.init := rfl
    have h2 : (State.init heap).stack = [] := rfl
    simp only [h0, h1, h2, hproxy, hkeys, hb, propertiesLoop, hfetch, SerializeProperty, hprop]
  unfold Stringify SerializeObject
  rw [Serialize__succ, hstep _ _ rfl]
  have h0 : (State.init heap).heap = heap := rfl
  simp only [dispatch, h0, hshape, deferredKey, Bool.false_eq_true, if_false, hobj]

/-- C6 at its failing input: for `x = {}` with `x[k] = x`, `k` an ASCII key of
`2^28` code units, the serialization of the member writes the deferred key
before it enters `x` again; the fast-path test wraps, the unchecked copy stores
past the active part, and `Stringify` faults instead of raising the
circular-structure error. -/
theorem Stringify_longKey_cycle_fault :
    Stringify sampleHost 3 (.JSObject 0) longKeyHeap = .fault :=
  long_key_member_faults sampleHost longKeyHeap 0 rfl rfl rfl rfl rfl rfl

set_option maxRecDepth 100000 in
/-- C13: for every code point `c` in 0..127 the NUL-terminated text stored in
`JsonEscapeTable` at offset `8 * c` is the reference escape of `c`; it has at
most 6 characters and its terminating NUL lies inside the 8-byte slot. -/
theorem JsonEscapeTable_reference :
    ∀ c < 128, escapeEntry c = referenceEscape c
      ∧ (escapeEntry c).length ≤ 6
      ∧ (escapeEntry c).length + 1 ≤ kJsonEscapeTableEntrySize
      ∧ JsonEscapeTable.getD (c * kJsonEscapeTableEntrySize + (escapeEntry c).length) 1 = 0 := by
  decide

/-- Witness of C13 at the line feed. -/
theorem JsonEscapeTable_reference_witness :
    escapeEntry 0x0A = referenceEscape 0x0A
      ∧ (escapeEntry 0x0A).length ≤ 6
      ∧ (escapeEntry 0x0A).length + 1 ≤ kJsonEscapeTableEntrySize
      ∧ JsonEscapeTable.getD (0x0A * kJsonEscapeTableEntrySize + (escapeEntry 0x0A).length) 1
          = 0 :=
  JsonEscapeTable_reference 0x0A (by decide)

/-! ## The logical output is append-only -/

theorem Extend_output (is_ascii : Bool) (b : Builder)
    (hfull : b.current_index = b.current_part.chars.length) :
    (Extend is_ascii b).output = b.output := by
  simp [Extend, Builder.output, hfull]

theorem ShrinkCurrentPart_same_output (b : Builder) :
    (ShrinkCurrentPart b).output = b.output := by
  have ha : (ShrinkCurrentPart b).accumulator = b.accumulator := by
    unfold ShrinkCurrentPart; split <;> rfl
  have hi : (ShrinkCurrentPart b).current_index = b.current_index := by
    unfold ShrinkCurrentPart; split <;> rfl
  simp only [Builder.output, ha, hi, ShrinkCurrentPart_output, List.take_take, min_self]

theorem Append__full (is_ascii : Bool) (c : Nat) (b : Builder) (hb : b.WF)
    (hfull : b.current_index + 1 = b.part_length) :
    Append_ is_ascii c b = some (Extend is_ascii
      { b with current_part := { b.current_part with
                 chars := b.current_part.chars.set b.current_index c },
               current_index := b.current_index + 1 }) := by
  have hlt : b.current_index < b.current_part.chars.length := by
    rw [hb.length_eq]; exact hb.index_lt
  simp [Append_, store, hlt, hfull]

/-- C14: with the logical output `concat(parts) ++ current_part_[0 .. current_index_)`,
in every accumulator state satisfying the invariant `Append_(c)` (in either
encoding) returns with the logical output `old ++ [c]`, and when the write fills
the active part it is the state after `Extend`; `Extend`, run on a full active
part (the only place it is called), `ShrinkCurrentPart` and `ChangeEncoding`
leave the logical output as it is; and when the top-level call returns
`SUCCESS`, `Stringify` returns the logical output. -/
theorem accumulator_append_only (b : Builder) (hb : b.WF) (c : Nat) :
    (∀ is_ascii, ∃ b1, Append_ is_ascii c b = some b1 ∧ b1.WF
        ∧ b1.output = b.output ++ [c])
      ∧ (∀ is_ascii, b.current_index + 1 = b.part_length →
          ∃ full, Append_ is_ascii c b = some (Extend is_ascii full)
            ∧ full.current_index = full.part_length
            ∧ full.output = b.output ++ [c]
            ∧ (Extend is_ascii full).output = full.output)
      ∧ (ShrinkCurrentPart b).output = b.output
      ∧ (ChangeEncoding b).output = b.output
      ∧ (∀ host fuel object heap st,
          SerializeObject host fuel object (State.init heap) = .done (.SUCCESS, st) →
          ∃ two_byte, Stringify host fuel object heap
            = .done (.string two_byte st.builder.output)) := by
  refine ⟨fun ia => ?_, fun ia hfull => ?_, ShrinkCurrentPart_same_output b,
    (ChangeEncoding_spec b hb).2.1, ?_⟩
  · obtain ⟨b1, e1, w1, o1, _⟩ := Append__spec ia c b hb
    exact ⟨b1, e1, w1, o1⟩
  · have hlt : b.current_index < b.current_part.chars.length := by
      rw [hb.length_eq]; exact hb.index_lt
    refine ⟨_, Append__full ia c b hb hfull, ?_, ?_, ?_⟩
    · exact hfull
    · simp only [Builder.output]
      rw [take_succ_set _ _ _ hlt]
      simp
    · apply Extend_output
      simp [hb.length_eq, hfull]
  · intro host fuel object heap st h
    obtain ⟨tb, e⟩ := NewConsString_Shrink st.builder
    exact ⟨tb, by simp only [Stringify, h, e]⟩

/-- Witness of C14 on the fresh accumulator and an opening bracket. -/
theorem accumulator_append_only_witness :
    Builder.init.WF
      ∧ ∃ b1, Append_ true 0x5B Builder.init = some b1 ∧ b1.WF
          ∧ b1.output = Builder.init.output ++ [0x5B] :=
  ⟨Builder.init_WF, (accumulator_append_only Builder.init Builder.init_WF 0x5B).1 true⟩

/-! ## The unchecked copy stays inside the active part -/

/-- C15: for a source of `n` code units and an accumulator state satisfying the
invariant with `current_index_ + 8 * n + 2 < part_length_` (exact arithmetic),
`SerializeStringUnchecked_` returns without a store outside the active part; it
advances the cursor by the number of units written, which is at most
`6 * n + 2 ≤ 8 * n + 2`; the units below the old cursor, the sealed parts and
`part_length_` are as before, and the new cursor is below `part_length_`. -/
theorem SerializeStringUnchecked__bound (two_byte_src : Bool) (src : List Nat) (b : Builder)
    (hb : b.WF) (h : b.current_index + 8 * src.length + 2 < b.part_length) :
    ∃ b1, SerializeStringUnchecked_ two_byte_src src b = some b1
      ∧ b.current_index ≤ b1.current_index
      ∧ b1.current_index - b.current_index ≤ 6 * src.length + 2
      ∧ 6 * src.length + 2 ≤ 8 * src.length + 2
      ∧ b1.current_index < b1.part_length
      ∧ b1.part_length = b.part_length
      ∧ b1.current_part.chars.length = b.part_length
      ∧ b1.accumulator = b.accumulator
      ∧ b1.current_part.chars.take b.current_index
          = b.current_part.chars.take b.current_index := by
  obtain ⟨b1, e1, w1, o1, _, a1, p1⟩ := SerializeStringUnchecked__spec two_byte_src src b hb h
  have hlen := escaped_length_le two_byte_src src
  have htake : b1.current_part.chars.take b1.current_index
      = b.current_part.chars.take b.current_index
        ++ (0x22 :: escaped two_byte_src src ++ [0x22]) := by
    have := o1
    simp only [Builder.output, a1, List.append_assoc] at this
    exact List.append_cancel_left this
  have hl := congrArg List.length htake
  have i1 := w1.index_lt
  have i0 := hb.index_lt
  have l1 := w1.length_eq
  have l0 := hb.length_eq
  simp only [List.length_take, List.length_append, List.length_cons, List.length_nil] at hl
  have hidx : b1.current_index
      = b.current_index + ((escaped two_byte_src src).length + 2) := by
    rw [Nat.min_eq_left (by omega), Nat.min_eq_left (by omega)] at hl
    omega
  refine ⟨b1, e1, by omega, by omega, by omega, i1, p1, by omega, a1, ?_⟩
  have h2 := congrArg (List.take b.current_index) htake
  rw [List.take_take, Nat.min_eq_left (by omega)] at h2
  rw [h2, List.take_append_of_le_length (by simp; omega), List.take_take, Nat.min_self]

/-- Witness of C15: the string `x` on the fresh accumulator. -/
theorem SerializeStringUnchecked__bound_witness :
    Builder.init.WF
      ∧ Builder.init.current_index + 8 * str_x.units.length + 2 < Builder.init.part_length
      ∧ ∃ b1, SerializeStringUnchecked_ false str_x.units Builder.init = some b1
          ∧ Builder.init.current_index ≤ b1.current_index
          ∧ b1.current_index - Builder.init.current_index ≤ 6 * str_x.units.length + 2
          ∧ 6 * str_x.units.length + 2 ≤ 8 * str_x.units.length + 2
          ∧ b1.current_index < b1.part_length
          ∧ b1.part_length = Builder.init.part_length
          ∧ b1.current_part.chars.length = Builder.init.part_length
          ∧ b1.accumulator = Builder.init.accumulator
          ∧ b1.current_part.chars.take Builder.init.current_index
              = Builder.init.current_part.chars.take Builder.init.current_index :=
  ⟨Builder.init_WF, by decide,
    SerializeStringUnchecked__bound false str_x.units Builder.init Builder.init_WF (by decide)⟩

theorem wideBuilder_reached : SerializeString wideEmpty Builder.init = some wideBuilder := by
  decide

theorem wideBuilder_WF : wideBuilder.WF := ⟨by decide, by decide, by decide⟩

/-- C17, as stated, fails: on the two-byte accumulator reached by emitting an
empty two-byte string, `ChangeEncoding` is not a no-op: it seals the active
part and resets the cursor. -/
theorem ChangeEncoding_wide_changes_state :
    SerializeString wideEmpty Builder.init = some wideBuilder
      ∧ wideBuilder.is_ascii = false
      ∧ ChangeEncoding wideBuilder ≠ wideBuilder
      ∧ (ChangeEncoding wideBuilder).accumulator.length = wideBuilder.accumulator.length + 1
      ∧ (ChangeEncoding wideBuilder).current_index = 0 := by
  decide

/-- C17, amended: `SerializeString` applies `ChangeEncoding` only while `is_ascii_`
is true: on a two-byte accumulator it runs `SerializeString_` on the state as it
is. `ChangeEncoding` itself has no guard: on a two-byte accumulator satisfying
the invariant it seals the shrunk active part, starts a fresh two-byte part at
cursor 0, and leaves the logical output, the encoding and `part_length_` as
they were. -/
theorem ChangeEncoding_when_wide (b : Builder) (hb : b.WF) (hwide : b.is_ascii = false) :
    (∀ s, SerializeString s b = SerializeString_ false s.two_byte s.units b)
      ∧ (ChangeEncoding b).output = b.output
      ∧ (ChangeEncoding b).is_ascii = b.is_ascii
      ∧ (ChangeEncoding b).part_length = b.part_length
      ∧ (ChangeEncoding b).accumulator = b.accumulator ++ [(ShrinkCurrentPart b).current_part]
      ∧ (ChangeEncoding b).current_part = NewRawString true b.part_length
      ∧ (ChangeEncoding b).current_index = 0 := by
  have hp : (ShrinkCurrentPart b).part_length = b.part_length := by
    unfold ShrinkCurrentPart; split <;> rfl
  have ha : (ShrinkCurrentPart b).accumulator = b.accumulator := by
    unfold ShrinkCurrentPart; split <;> rfl
  refine ⟨fun s => ?_, (ChangeEncoding_spec b hb).2.1, ?_, ?_, ?_, ?_, rfl⟩
  · unfold SerializeString
    cases hs : s.two_byte <;> simp [hwide]
  · rw [hwide]; rfl
  · simp only [ChangeEncoding, hp]
  · simp only [ChangeEncoding, ha]
  · simp only [ChangeEncoding, hp]

/-- Witness of C17 (amended) on `wideBuilder`. -/
theorem ChangeEncoding_when_wide_witness :
    wideBuilder.WF ∧ wideBuilder.is_ascii = false
      ∧ (ChangeEncoding wideBuilder).output = wideBuilder.output
      ∧ (ChangeEncoding wideBuilder).current_index = 0 :=
  ⟨wideBuilder_WF, rfl, (ChangeEncoding_when_wide wideBuilder wideBuilder_WF rfl).2.1,
    (ChangeEncoding_when_wide wideBuilder wideBuilder_WF rfl).2.2.2.2.2.2⟩

/-- C12: when the serialization of an array element or of an object member
returns `EXCEPTION`, `CIRCULAR` or `STACK_OVERFLOW`, the loop of the enclosing
`SerializeJSArray` (fast or slow) or `SerializeJSObject` returns that result in
the state the member left, whatever elements or keys remain; the enclosing
composite returns what its loop returned, `Serialize_` returns what the
composite returned, and `Stringify` returns no string. -/
theorem failure_propagates (host : Host) (recurse : Recurse) (r : Result)
    (hr : isFailure r = true) :
    (∀ e es i st s1 s2, appendSeparator i st = .done s1 →
        SerializeElement recurse e i s1 = .done (r, s2) →
        elementsLoop recurse (e :: es) i st = .done (r, s2))
      ∧ (∀ object remaining i st s1 e s2, appendSeparator i st = .done s1 →
        GetElement s1.heap object i = some e → e ≠ .Oddball .kUndefined →
        SerializeElement recurse e i s1 = .done (r, s2) →
        SerializeJSArraySlow recurse object (remaining + 1) i st = .done (r, s2))
      ∧ (∀ object key contents comma st key_handle property s1,
        fetchProperty st.heap object key = (key_handle, some property) →
        SerializeProperty recurse property comma key_handle st = .done (r, s1) →
        propertiesLoop recurse object (key :: contents) comma st = .done (r, s1))
      ∧ (∀ object elements st st0 st1 s2, StackPush host object st = (.SUCCESS, st0) →
        st0.build (Append 0x5B) = .done st1 →
        arrayBody host recurse object elements st1 = .done (r, s2) →
        SerializeJSArray host recurse object elements st = .done (r, s2))
      ∧ (∀ object target contents st st0 st1 s2, StackPush host object st = (.SUCCESS, st0) →
        (match (st0.heap object).global_proxy with
          | some prototype => prototype
          | none => object) = target →
        (st0.heap target).keys = some contents →
        st0.build (Append 0x7B) = .done st1 →
        propertiesLoop recurse target contents false st1 = .done (r, s2) →
        SerializeJSObject host recurse object st = .done (r, s2))
      ∧ (∀ fuel d object comma key st id st1 st2 s3,
        toJsonStep host object key st = some (.JSObject id, st1) →
        deferredKey d comma key st1 = .done st2 →
        ((∃ elements, (st1.heap id).shape = .JSArray elements
            ∧ SerializeJSArray host (Serialize_ host fuel) id elements st2 = .done (r, s3))
          ∨ ((st1.heap id).shape = .JSObject
            ∧ SerializeJSObject host (Serialize_ host fuel) id st2 = .done (r, s3))) →
        Serialize_ host (fuel + 1) d object comma key st = .done (r, s3))
      ∧ (∀ fuel object heap st,
        SerializeObject host fuel object (State.init heap) = .done (r, st) →
        ∃ returned, Stringify host fuel object heap = .done returned
          ∧ returned.isString = false) := by
  refine ⟨?_, ?_, ?_, ?_, ?_, ?_, ?_⟩
  · intro e es i st s1 s2 h1 h2
    cases r <;> simp [isFailure] at hr <;> simp [elementsLoop, h1, h2, elementResult]
  · intro object remaining i st s1 e s2 h1 hg hne h2
    cases r <;> simp [isFailure] at hr <;>
      simp [SerializeJSArraySlow, h1, hg, hne, h2, elementResult]
  · intro object key contents comma st key_handle property s1 hf h2
    cases r <;> simp [isFailure] at hr <;> simp [propertiesLoop, hf, h2, Result.toNat]
  · intro object elements st st0 st1 s2 hp h1 h2
    cases r <;> simp [isFailure] at hr <;> simp [SerializeJSArray, hp, h1, h2]
  · intro object target contents st st0 st1 s2 hp hg hk h1 h2
    cases hgp : (st0.heap object).global_proxy <;> simp only [hgp] at hg <;> subst hg <;>
      cases r <;> simp [isFailure] at hr <;> simp [SerializeJSObject, hp, hgp, hk, h1, h2]
  · intro fuel d object comma key st id st1 st2 s3 ht hd hc
    simp only [Serialize_, ht, dispatch]
    rcases hc with ⟨elements, hs, hc⟩ | ⟨hs, hc⟩
    · simp [hs, hd, hc]
    · simp [hs, hd, hc]
  · intro fuel object heap st h
    cases r <;> simp [isFailure] at hr <;> simp [Stringify, h, Returned.isString]

/-- Witness of C12 on `x = {}` with `x.self = x`: the member returns `CIRCULAR`
and `Stringify` returns no string. -/
theorem failure_propagates_witness :
    isFailure .CIRCULAR = true
      ∧ (∃ st, SerializeObject sampleHost 3 (.JSObject 4) (State.init sampleHeap)
          = .done (.CIRCULAR, st))
      ∧ ∃ returned, Stringify sampleHost 3 (.JSObject 4) sampleHeap = .done returned
          ∧ returned.isString = false :=
  ⟨rfl, ⟨_, rfl⟩,
    (failure_propagates sampleHost (Serialize_ sampleHost 2) .CIRCULAR rfl).2.2.2.2.2.2
      3 (.JSObject 4) sampleHeap _ rfl⟩

theorem Trace.concat {host : Host} {s1 s2 s3 : State} {l1 l2 : List HString}
    (a : Trace host s1 l1 s2) (b : Trace host s2 l2 s3) : Trace host s1 (l1 ++ l2) s3 := by
  induction a with
  | stop st => exact b
  | punctuation c hc h _ ih => exact .punctuation c hc h (ih b)
  | literal cs hcs h _ ih => exact .literal cs hcs h (ih b)
  | string s h _ ih => exact .string s h (ih b)
  | push object hover hnew _ ih => exact .push object hover hnew (ih b)
  | pop _ ih => exact .pop (ih b)
  | call heap1 _ ih => exact .call heap1 (ih b)

theorem Trace.preserves {host : Host} {R : State → Prop} (hR : StepInv host R)
    {st st1 : State} {log : List HString} (t : Trace host st log st1) (h : R st) : R st1 := by
  induction t with
  | stop st => exact h
  | punctuation c hc hb _ ih => exact ih (hR.punctuation _ _ _ hc h hb)
  | literal cs hcs hb _ ih => exact ih (hR.literal _ _ _ hcs h hb)
  | string s hb _ ih => exact ih (hR.string _ _ _ h hb)
  | push object hover hnew _ ih => exact ih (hR.push _ _ hover hnew h)
  | pop _ ih => exact ih (hR.pop _ h)
  | call heap1 _ ih => exact ih (hR.call _ _ h)

theorem Traced.here (host : Host) (st : State) : Traced host st st := ⟨[], .stop st⟩

theorem Traced.followed {host : Host} {s1 s2 s3 : State} (a : Traced host s1 s2)
    (b : Traced host s2 s3) : Traced host s1 s3 := by
  obtain ⟨l1, t1⟩ := a
  obtain ⟨l2, t2⟩ := b
  exact ⟨l1 ++ l2, t1.concat t2⟩

theorem Traced.keeps {host : Host} {R : State → Prop} (hR : StepInv host R)
    {st st1 : State} (t : Traced host st st1) (h : R st) : R st1 := by
  obtain ⟨log, t⟩ := t
  exact t.preserves hR h

theorem Literal.bool (host : Host) (value : Bool) :
    Literal host (if value then str_true else str_false) := by
  cases value
  · exact .false_
  · exact .true_

theorem build_traced (host : Host) (st st1 : State) (op : Builder → Option Builder)
    (hop : OpKind host op) (h : st.build op = .done st1) : Traced host st st1 := by
  cases hop with
  | punctuation c hc => exact ⟨[], .punctuation c hc h (.stop _)⟩
  | literal cs hcs => exact ⟨[], .literal cs hcs h (.stop _)⟩
  | string s => exact ⟨[s], .string s h (.stop _)⟩

theorem deferredKey_traced (host : Host) (d comma : Bool) (key : Value) (st st1 : State)
    (h : deferredKey d comma key st = .done st1) : Traced host st st1 := by
  unfold deferredKey at h
  split at h
  · unfold SerializeDeferredKey at h
    split at h
    · split at h
      · next s1 h1 =>
        have f1 : Traced host st s1 := by
          split at h1
          · exact build_traced host _ _ _ (by exact .punctuation _ rfl) h1
          · simp only [Run.done.injEq] at h1; subst h1; exact Traced.here host _
        split at h
        · next s2 h2 =>
          exact f1.followed ((build_traced host _ _ _ (.string _) h2).followed
            (build_traced host _ _ _ (by exact .punctuation _ rfl) h))
        · simp at h
        · simp at h
      · simp at h
      · simp at h
    · simp at h
  · simp only [Run.done.injEq] at h; subst h; exact Traced.here host _

theorem SerializeSmi_traced (host : Host) (value : Int) (st : State) (r : Result) (st1 : State)
    (h : SerializeSmi host value st = .done (r, st1)) : Traced host st st1 := by
  unfold SerializeSmi at h
  split at h
  · next s1 h1 =>
    simp only [Run.done.injEq, Prod.mk.injEq] at h
    obtain ⟨_, rfl⟩ := h
    exact build_traced host _ _ _ (.literal _ (by constructor)) h1
  · simp at h
  · simp at h

theorem SerializeDouble_traced (host : Host) (number : Dbl) (st : State) (r : Result)
    (st1 : State) (h : SerializeDouble host number st = .done (r, st1)) :
    Traced host st st1 := by
  unfold SerializeDouble at h
  split at h <;> split at h
  · next s1 h1 =>
    simp only [Run.done.injEq, Prod.mk.injEq] at h
    obtain ⟨_, rfl⟩ := h
    exact build_traced host _ _ _ (.literal _ (by constructor)) h1
  · simp at h
  · simp at h
  · next s1 h1 =>
    simp only [Run.done.injEq, Prod.mk.injEq] at h
    obtain ⟨_, rfl⟩ := h
    exact build_traced host _ _ _ (.literal _ (by constructor)) h1
  · simp at h
  · simp at h

theorem SerializeJSValue_traced (host : Host) (shape : Shape) (st : State) (r : Result)
    (st1 : State) (h : SerializeJSValue host shape st = .done (r, st1)) :
    Traced host st st1 := by
  unfold SerializeJSValue at h
  split at h
  · simp only [Run.done.injEq, Prod.mk.injEq] at h; rw [← h.2]; exact Traced.here host _
  · split at h
    · next s1 h1 =>
      simp only [Run.done.injEq, Prod.mk.injEq] at h
      obtain ⟨_, rfl⟩ := h
      exact build_traced host _ _ _ (.string _) h1
    · simp at h
    · simp at h
  · simp only [Run.done.injEq, Prod.mk.injEq] at h; rw [← h.2]; exact Traced.here host _
  · exact SerializeSmi_traced _ _ _ _ _ h
  · split at h
    · next p h1 =>
      simp only [Run.done.injEq, Prod.mk.injEq] at h
      obtain ⟨_, rfl⟩ := h
      exact SerializeDouble_traced _ _ _ _ _ h1
    · simp at h
    · simp at h
  · split at h
    · next s1 h1 =>
      simp only [Run.done.injEq, Prod.mk.injEq] at h
      obtain ⟨_, rfl⟩ := h
      exact build_traced host _ _ _ (.literal _ (Literal.bool _ _)) h1
    · simp at h
    · simp at h
  · simp at h

theorem appendSeparator_traced (host : Host) (i : Nat) (st st1 : State)
    (h : appendSeparator i st = .done st1) : Traced host st st1 := by
  unfold appendSeparator at h
  split at h
  · exact build_traced host _ _ _ (by exact .punctuation _ rfl) h
  · simp only [Run.done.injEq] at h; subst h; exact Traced.here host _

theorem elementResult_traced (host : Host) (r : Result) (st : State) (o : Option Result)
    (st1 : State) (h : elementResult r st = .done (o, st1)) : Traced host st st1 := by
  unfold elementResult at h
  split at h
  · simp only [Run.done.injEq, Prod.mk.injEq] at h; rw [← h.2]; exact Traced.here host _
  · split at h
    · split at h
      · next s1 h1 =>
        simp only [Run.done.injEq, Prod.mk.injEq] at h
        obtain ⟨_, rfl⟩ := h
        exact build_traced host _ _ _ (.literal _ (by constructor)) h1
      · simp at h
      · simp at h
    · simp only [Run.done.injEq, Prod.mk.injEq] at h; rw [← h.2]; exact Traced.here host _

theorem element_traced (host : Host) (recurse : Recurse) (hrec : RecTraced host recurse)
    (e : Value) (i : Nat) (s1 s2 s3 : State) (r : Result) (o : Option Result)
    (h2 : SerializeElement recurse e i s1 = .done (r, s2))
    (h3 : elementResult r s2 = .done (o, s3)) : Traced host s1 s3 :=
  (hrec _ _ _ _ _ _ _ h2).followed (elementResult_traced host _ _ _ _ h3)

theorem smiLoop_traced (host : Host) (es : List Int) (i : Nat) (st st1 : State)
    (h : smiLoop host es i st = .done st1) : Traced host st st1 := by
  induction es generalizing i st with
  | nil => simp only [smiLoop, Run.done.injEq] at h; subst h; exact Traced.here host _
  | cons e es ih =>
    simp only [smiLoop] at h
    split at h
    · next s1 h1 =>
      split at h
      · next r2 s2 h2 =>
        exact (appendSeparator_traced host _ _ _ h1).followed
          ((SerializeSmi_traced _ _ _ _ _ h2).followed (ih _ _ h))
      · simp at h
      · simp at h
    · simp at h
    · simp at h

theorem doubleLoop_traced (host : Host) (es : List Dbl) (i : Nat) (st st1 : State)
    (h : doubleLoop host es i st = .done st1) : Traced host st st1 := by
  induction es generalizing i st with
  | nil => simp only [doubleLoop, Run.done.injEq] at h; subst h; exact Traced.here host _
  | cons e es ih =>
    simp only [doubleLoop] at h
    split at h
    · next s1 h1 =>
      split at h
      · next r2 s2 h2 =>
        exact (appendSeparator_traced host _ _ _ h1).followed
          ((SerializeDouble_traced _ _ _ _ _ h2).followed (ih _ _ h))
      · simp at h
      · simp at h
    · simp at h
    · simp at h

theorem elementsLoop_traced (host : Host) (recurse : Recurse) (hrec : RecTraced host recurse)
    (es : List Value) (i : Nat) (st : State) (r : Result) (st1 : State)
    (h : elementsLoop recurse es i st = .done (r, st1)) : Traced host st st1 := by
  induction es generalizing i st with
  | nil =>
    simp only [elementsLoop, Run.done.injEq, Prod.mk.injEq] at h
    rw [← h.2]; exact Traced.here host _
  | cons e es ih =>
    simp only [elementsLoop] at h
    split at h
    · next s1 h1 =>
      have f1 := appendSeparator_traced host _ _ _ h1
      split at h
      · next r2 s2 h2 =>
        split at h
        · next s3 h3 =>
          exact f1.followed ((element_traced host recurse hrec e i s1 s2 s3 r2 _ h2 h3).followed
            (ih _ _ h))
        · next r1 s3 h3 =>
          simp only [Run.done.injEq, Prod.mk.injEq] at h
          obtain ⟨_, rfl⟩ := h
          exact f1.followed (element_traced host recurse hrec e i s1 s2 s3 r2 _ h2 h3)
        · simp at h
        · simp at h
      · simp at h
      · simp at h
    · simp at h
    · simp at h

theorem SerializeJSArraySlow_traced (host : Host) (recurse : Recurse)
    (hrec : RecTraced host recurse) (object remaining i : Nat) (st : State) (r : Result)
    (st1 : State) (h : SerializeJSArraySlow recurse object remaining i st = .done (r, st1)) :
    Traced host st st1 := by
  induction remaining generalizing i st with
  | zero =>
    simp only [SerializeJSArraySlow, Run.done.injEq, Prod.mk.injEq] at h
    rw [← h.2]; exact Traced.here host _
  | succ remaining ih =>
    simp only [SerializeJSArraySlow] at h
    split at h
    · next s1 h1 =>
      have f1 := appendSeparator_traced host _ _ _ h1
      split at h
      · simp at h
      · split at h
        · split at h
          · next s2 h2 =>
            exact f1.followed
              ((build_traced host _ _ _ (.literal _ (by constructor)) h2).followed (ih _ _ h))
          · simp at h
          · simp at h
        · split at h
          · next r2 s2 h2 =>
            split at h
            · next s3 h3 =>
              exact f1.followed ((element_traced host recurse hrec _ i s1 s2 s3 r2 _ h2 h3).followed
                (ih _ _ h))
            · next r1 s3 h3 =>
              simp only [Run.done.injEq, Prod.mk.injEq] at h
              obtain ⟨_, rfl⟩ := h
              exact f1.followed (element_traced host recurse hrec _ i s1 s2 s3 r2 _ h2 h3)
            · simp at h
            · simp at h
          · simp at h
          · simp at h
    · simp at h
    · simp at h

theorem arrayBody_traced (host : Host) (recurse : Recurse) (hrec : RecTraced host recurse)
    (object : Nat) (elements : Elements) (st : State) (r : Result) (st1 : State)
    (h : arrayBody host recurse object elements st = .done (r, st1)) : Traced host st st1 := by
  unfold arrayBody at h
  split at h
  · split at h
    · next s1 h1 =>
      simp only [Run.done.injEq, Prod.mk.injEq] at h
      obtain ⟨_, rfl⟩ := h
      exact smiLoop_traced host _ _ _ _ h1
    · simp at h
    · simp at h
  · split at h
    · next s1 h1 =>
      simp only [Run.done.injEq, Prod.mk.injEq] at h
      obtain ⟨_, rfl⟩ := h
      exact doubleLoop_traced host _ _ _ _ h1
    · simp at h
    · simp at h
  · exact elementsLoop_traced host recurse hrec _ _ _ _ _ h
  · exact SerializeJSArraySlow_traced host recurse hrec _ _ _ _ _ _ h

theorem propertiesLoop_traced (host : Host) (recurse : Recurse) (hrec : RecTraced host recurse)
    (object : Nat) (contents : List Key) (comma : Bool) (st : State) (r : Result)
    (st1 : State) (h : propertiesLoop recurse object contents comma st = .done (r, st1)) :
    Traced host st st1 := by
  induction contents generalizing comma st with
  | nil =>
    simp only [propertiesLoop, Run.done.injEq, Prod.mk.injEq] at h
    rw [← h.2]; exact Traced.here host _
  | cons key contents ih =>
    simp only [propertiesLoop] at h
    split at h
    · simp only [Run.done.injEq, Prod.mk.injEq] at h; rw [← h.2]; exact Traced.here host _
    · split at h
      · next result s1 h1 =>
        have f1 : Traced host st s1 := hrec _ _ _ _ _ _ _ h1
        split at h
        · simp only [Run.done.injEq, Prod.mk.injEq] at h
          obtain ⟨_, rfl⟩ := h
          exact f1
        · exact f1.followed (ih _ _ h)
      · simp at h
      · simp at h

theorem SerializeJSArray_traced (host : Host) (recurse : Recurse)
    (hrec : RecTraced host recurse) (object : Nat) (elements : Elements) (st : State)
    (r : Result) (st1 : State)
    (h : SerializeJSArray host recurse object elements st = .done (r, st1)) :
    Traced host st st1 := by
  unfold SerializeJSArray at h
  rcases StackPush_cases host object st with ⟨hp, ho, hn⟩ | ⟨hp, _⟩ | ⟨hp, _, _⟩
  · rw [hp] at h
    simp only at h
    have f0 : Traced host st { st with stack := st.stack ++ [object] } :=
      ⟨[], .push object ho hn (.stop _)⟩
    split at h
    · next s1 h1 =>
      have f1 := build_traced host _ _ _ (by exact .punctuation _ rfl) h1
      split at h
      · next s2 h2 =>
        have f2 := arrayBody_traced host recurse hrec _ _ _ _ _ h2
        split at h
        · next s3 h3 =>
          simp only [Run.done.injEq, Prod.mk.injEq] at h
          obtain ⟨_, rfl⟩ := h
          have f3 := build_traced host _ _ _ (by exact .punctuation _ rfl) h3
          exact f0.followed (f1.followed (f2.followed (f3.followed ⟨[], .pop (.stop _)⟩)))
        · simp at h
        · simp at h
      · next r2 s2 _ h2 =>
        simp only [Run.done.injEq, Prod.mk.injEq] at h
        obtain ⟨_, rfl⟩ := h
        exact f0.followed (f1.followed (arrayBody_traced host recurse hrec _ _ _ _ _ h2))
      · simp at h
      · simp at h
    · simp at h
    · simp at h
  · rw [hp] at h
    simp only [Run.done.injEq, Prod.mk.injEq] at h
    rw [← h.2]; exact Traced.here host _
  · rw [hp] at h
    simp only [Run.done.injEq, Prod.mk.injEq] at h
    rw [← h.2]; exact Traced.here host _

theorem SerializeJSObject_traced (host : Host) (recurse : Recurse)
    (hrec : RecTraced host recurse) (object : Nat) (st : State)
    (r : Result) (st1 : State)
    (h : SerializeJSObject host recurse object st = .done (r, st1)) :
    Traced host st st1 := by
  unfold SerializeJSObject at h
  rcases StackPush_cases host object st with ⟨hp, ho, hn⟩ | ⟨hp, _⟩ | ⟨hp, _, _⟩
  · rw [hp] at h
    simp only at h
    have f0 : Traced host st { st with stack := st.stack ++ [object] } :=
      ⟨[], .push object ho hn (.stop _)⟩
    split at h
    · simp only [Run.done.injEq, Prod.mk.injEq] at h
      rw [← h.2]; exact f0
    · split at h
      · next s1 h1 =>
        have f1 := build_traced host _ _ _ (by exact .punctuation _ rfl) h1
        split at h
        · next s2 h2 =>
          have f2 := propertiesLoop_traced host recurse hrec _ _ _ _ _ _ h2
          split at h
          · next s3 h3 =>
            simp only [Run.done.injEq, Prod.mk.injEq] at h
            obtain ⟨_, rfl⟩ := h
            have f3 := build_traced host _ _ _ (by exact .punctuation _ rfl) h3
            exact f0.followed (f1.followed (f2.followed (f3.followed ⟨[], .pop (.stop _)⟩)))
          · simp at h
          · simp at h
        · next r2 s2 _ h2 =>
          simp only [Run.done.injEq, Prod.mk.injEq] at h
          obtain ⟨_, rfl⟩ := h
          exact f0.followed (f1.followed (propertiesLoop_traced host recurse hrec _ _ _ _ _ _ h2))
        · simp at h
        · simp at h
      · simp at h
      · simp at h
  · rw [hp] at h
    simp only [Run.done.injEq, Prod.mk.injEq] at h
    rw [← h.2]; exact Traced.here host _
  · rw [hp] at h
    simp only [Run.done.injEq, Prod.mk.injEq] at h
    rw [← h.2]; exact Traced.here host _

theorem toJsonStep_traced (host : Host) (object key : Value) (st : State) (object1 : Value)
    (st1 : State) (h : toJsonStep host object key st = some (object1, st1)) :
    Traced host st st1 := by
  unfold toJsonStep at h
  split at h
  · split at h
    · simp at h
    · next v heap1 ha =>
      simp only [Option.some.injEq, Prod.mk.injEq] at h
      obtain ⟨_, rfl⟩ := h
      exact ⟨[], .call heap1 (.stop _)⟩
  · simp only [Option.some.injEq, Prod.mk.injEq] at h
    rw [← h.2]; exact Traced.here host _

theorem dispatch_traced (host : Host) (recurse : Recurse) (hrec : RecTraced host recurse)
    (d : Bool) (object : Value) (comma : Bool) (key : Value) (st : State) (r : Result)
    (st1 : State) (h : dispatch host recurse d object comma key st = .done (r, st1)) :
    Traced host st st1 := by
  unfold dispatch at h
  split at h
  · split at h
    · simp only [Run.done.injEq, Prod.mk.injEq] at h; rw [← h.2]; exact Traced.here host _
    · split at h
      · next s1 h1 =>
        exact (deferredKey_traced host _ _ _ _ _ h1).followed
          (SerializeJSArray_traced host recurse hrec _ _ _ _ _ h)
      · simp at h
      · simp at h
    · split at h
      · next s1 h1 =>
        exact (deferredKey_traced host _ _ _ _ _ h1).followed
          (SerializeJSObject_traced host recurse hrec _ _ _ _ h)
      · simp at h
      · simp at h
    · split at h
      · next s1 h1 =>
        exact (deferredKey_traced host _ _ _ _ _ h1).followed
          (SerializeJSValue_traced host _ _ _ _ h)
      · simp at h
      · simp at h
  · split at h
    · next s1 h1 =>
      split at h
      · next s2 h2 =>
        simp only [Run.done.injEq, Prod.mk.injEq] at h
        obtain ⟨_, rfl⟩ := h
        exact (deferredKey_traced host _ _ _ _ _ h1).followed
          (build_traced host _ _ _ (.string _) h2)
      · simp at h
      · simp at h
    · simp at h
    · simp at h
  · split at h
    · next s1 h1 =>
      exact (deferredKey_traced host _ _ _ _ _ h1).followed (SerializeSmi_traced host _ _ _ _ h)
    · simp at h
    · simp at h
  · split at h
    · next s1 h1 =>
      exact (deferredKey_traced host _ _ _ _ _ h1).followed (SerializeDouble_traced host _ _ _ _ h)
    · simp at h
    · simp at h
  · next kind =>
    simp only at h
    split at h
    · simp only [Run.done.injEq, Prod.mk.injEq] at h; rw [← h.2]; exact Traced.here host _
    · next text heq =>
      have hl : Literal host text := by
        cases kind <;> simp at heq <;> subst heq <;> constructor
      split at h
      · next s1 h1 =>
        split at h
        · next s2 h2 =>
          simp only [Run.done.injEq, Prod.mk.injEq] at h
          obtain ⟨_, rfl⟩ := h
          exact (deferredKey_traced host _ _ _ _ _ h1).followed
            (build_traced host _ _ _ (.literal _ hl) h2)
        · simp at h
        · simp at h
      · simp at h
      · simp at h
  · simp only [Run.done.injEq, Prod.mk.injEq] at h; rw [← h.2]; exact Traced.here host _

/-- Every completed call of `Serialize_` has a trace. -/
theorem Serialize__traced (host : Host) (fuel : Nat) : RecTraced host (Serialize_ host fuel) := by
  induction fuel with
  | zero =>
    intro d object comma key st r st1 h
    simp [Serialize_] at h
  | succ fuel ih =>
    intro d object comma key st r st1 h
    simp only [Serialize_] at h
    cases ht : toJsonStep host object key st with
    | none =>
      simp only [ht, Run.done.injEq, Prod.mk.injEq] at h
      rw [← h.2]; exact Traced.here host _
    | some p =>
      obtain ⟨object1, st0⟩ := p
      simp only [ht] at h
      exact (toJsonStep_traced host _ _ _ _ _ ht).followed
        (dispatch_traced host _ ih d object1 comma key st0 r st1 h)

theorem PartInv.Append_ {P : Builder → Prop} (hP : PartInv P) (c : Nat) (b b1 : Builder)
    (h : P b) (e : Append_ b.is_ascii c b = some b1) : P b1 ∧ b1.is_ascii = b.is_ascii := by
  unfold JsonStringifier.Append_ at e
  split at e
  · simp at e
  · next chars _ =>
    simp only [Option.some.injEq] at e
    subst e
    have hw := hP.write b chars (b.current_index + 1) h
    split
    · exact ⟨hP.extend _ hw, rfl⟩
    · exact ⟨hw, rfl⟩

theorem PartInv.Append_chars {P : Builder → Prop} (hP : PartInv P) (cs : List Nat)
    (b b1 : Builder) (h : P b) (e : Append_chars b.is_ascii cs b = some b1) :
    P b1 ∧ b1.is_ascii = b.is_ascii := by
  induction cs generalizing b with
  | nil =>
    simp only [JsonStringifier.Append_chars, Option.some.injEq] at e
    subst e; exact ⟨h, rfl⟩
  | cons c cs ih =>
    simp only [JsonStringifier.Append_chars] at e
    split at e
    · simp at e
    · next b2 e2 =>
      obtain ⟨p2, a2⟩ := hP.Append_ c b b2 h e2
      rw [← a2] at e
      obtain ⟨p3, a3⟩ := ih b2 p2 e
      exact ⟨p3, a3.trans a2⟩

theorem PartInv.Append {P : Builder → Prop} (hP : PartInv P) (c : Nat) (b b1 : Builder)
    (h : P b) (e : Append c b = some b1) : P b1 ∧ b1.is_ascii = b.is_ascii := by
  unfold JsonStringifier.Append at e
  cases ha : b.is_ascii <;> simp only [ha] at e
  · exact ha ▸ hP.Append_ c b b1 h (by rw [ha]; simpa using e)
  · exact ha ▸ hP.Append_ c b b1 h (by rw [ha]; simpa using e)

theorem PartInv.Append_str {P : Builder → Prop} (hP : PartInv P) (cs : List Nat)
    (b b1 : Builder) (h : P b) (e : Append_str cs b = some b1) :
    P b1 ∧ b1.is_ascii = b.is_ascii := by
  unfold JsonStringifier.Append_str at e
  cases ha : b.is_ascii <;> simp only [ha] at e
  · exact ha ▸ hP.Append_chars cs b b1 h (by rw [ha]; simpa using e)
  · exact ha ▸ hP.Append_chars cs b b1 h (by rw [ha]; simpa using e)

theorem PartInv.checkedLoop {P : Builder → Prop} (hP : PartInv P) (two_byte_src : Bool)
    (src : List Nat) (b b1 : Builder) (h : P b)
    (e : checkedLoop b.is_ascii two_byte_src src b = some b1) :
    P b1 ∧ b1.is_ascii = b.is_ascii := by
  induction src generalizing b with
  | nil =>
    simp only [JsonStringifier.checkedLoop, Option.some.injEq] at e
    subst e; exact ⟨h, rfl⟩
  | cons c src ih =>
    simp only [JsonStringifier.checkedLoop] at e
    split at e
    · simp at e
    · next b2 e2 =>
      have h2 : P b2 ∧ b2.is_ascii = b.is_ascii := by
        split at e2
        · exact hP.Append_ c b b2 h e2
        · exact hP.Append_chars _ b b2 h e2
      rw [← h2.2] at e
      obtain ⟨p3, a3⟩ := ih b2 h2.1 e
      exact ⟨p3, a3.trans h2.2⟩

theorem PartInv.unchecked {P : Builder → Prop} (hP : PartInv P) (two_byte_src : Bool)
    (src : List Nat) (b b1 : Builder) (h : P b)
    (e : SerializeStringUnchecked_ two_byte_src src b = some b1) :
    P b1 ∧ b1.is_ascii = b.is_ascii := by
  unfold SerializeStringUnchecked_ at e
  split at e
  · simp at e
  · split at e
    · simp at e
    · split at e
      · simp at e
      · simp only [Option.some.injEq] at e
        subst e
        exact ⟨hP.write b _ _ h, rfl⟩

theorem PartInv.SerializeString_ {P : Builder → Prop} (hP : PartInv P) (two_byte_src : Bool)
    (src : List Nat) (b b1 : Builder) (h : P b)
    (e : SerializeString_ b.is_ascii two_byte_src src b = some b1) :
    P b1 ∧ b1.is_ascii = b.is_ascii := by
  unfold JsonStringifier.SerializeString_ at e
  split at e
  · exact hP.unchecked _ _ b b1 h e
  · split at e
    · simp at e
    · next b2 e2 =>
      obtain ⟨p2, a2⟩ := hP.Append_ _ b b2 h e2
      split at e
      · simp at e
      · next b3 e3 =>
        rw [← a2] at e3
        obtain ⟨p3, a3⟩ := hP.checkedLoop _ _ b2 b3 p2 e3
        rw [← a2, ← a3] at e
        obtain ⟨p4, a4⟩ := hP.Append_ _ b3 b1 p3 e
        exact ⟨p4, a4.trans (a3.trans a2)⟩

theorem PartInv.SerializeString {P : Builder → Prop} (hP : PartInv P) (s : HString)
    (b b1 : Builder) (h : P b) (e : SerializeString s b = some b1) :
    P b1 ∧ b1.is_ascii = (b.is_ascii && !s.two_byte) := by
  unfold JsonStringifier.SerializeString at e
  cases ha : b.is_ascii <;> cases hs : s.two_byte <;> simp only [ha, hs] at e
  · obtain ⟨p, a⟩ := hP.SerializeString_ false s.units b b1 h (by rw [ha]; simpa using e)
    exact ⟨p, by simp [a, ha]⟩
  · obtain ⟨p, a⟩ := hP.SerializeString_ true s.units b b1 h (by rw [ha]; simpa using e)
    exact ⟨p, by simp [a, ha]⟩
  · obtain ⟨p, a⟩ := hP.SerializeString_ false s.units b b1 h (by rw [ha]; simpa using e)
    exact ⟨p, by simp [a, ha]⟩
  · have hc : (ChangeEncoding b).is_ascii = false := rfl
    obtain ⟨p, a⟩ := hP.SerializeString_ true s.units (ChangeEncoding b) b1
      (hP.change b h ha) (by rw [hc]; simpa using e)
    exact ⟨p, by simp [a, hc]⟩

/-- A property of the accumulator kept by its operations is kept by every
elementary operation of a serialization. -/
theorem PartInv.stepInv {P : Builder → Prop} (hP : PartInv P) (host : Host) :
    StepInv host (fun st => P st.builder) where
  punctuation := by
    intro st c st1 _ h e
    obtain ⟨b1, e1, rfl⟩ := build_done _ _ _ e
    exact (hP.Append c _ b1 h e1).1
  literal := by
    intro st cs st1 _ h e
    obtain ⟨b1, e1, rfl⟩ := build_done _ _ _ e
    exact (hP.Append_str cs _ b1 h e1).1
  string := by
    intro st s st1 h e
    obtain ⟨b1, e1, rfl⟩ := build_done _ _ _ e
    exact (hP.SerializeString s _ b1 h e1).1
  push := fun _ _ _ _ h => h
  pop := fun _ h => h
  call := fun _ _ h => h

theorem isPartLength_cases (n : Nat) (h : isPartLength n) :
    n = 32 ∨ n = 64 ∨ n = 128 ∨ n = 256 ∨ n = 512 ∨ n = 1024 ∨ n = 2048 ∨ n = 4096
      ∨ n = 8192 ∨ n = 16384 := by
  obtain ⟨⟨k, rfl⟩, h1, h2⟩ := h
  have hk : k < 15 := by
    by_contra hc
    have : 2 ^ 15 ≤ 2 ^ k := Nat.pow_le_pow_right (by decide) (by omega)
    omega
  have hk5 : 5 ≤ k := by
    by_contra hc
    have : 2 ^ k ≤ 2 ^ 4 := Nat.pow_le_pow_right (by decide) (by omega)
    omega
  interval_cases k <;> simp

theorem isPartLength_double (n : Nat) (h : isPartLength n) (hle : n ≤ 8192) :
    isPartLength (n * 2) := by
  obtain ⟨⟨k, rfl⟩, h1, h2⟩ := h
  exact ⟨⟨k + 1, by rw [Nat.pow_succ]⟩, by omega, by omega⟩

theorem Extend_part_length (is_ascii : Bool) (b : Builder) (h : isPartLength b.part_length) :
    (Extend is_ascii b).part_length = min (b.part_length * 2) 16384
      ∧ isPartLength (Extend is_ascii b).part_length
      ∧ b.part_length ≤ (Extend is_ascii b).part_length := by
  have hc := isPartLength_cases _ h
  by_cases hle : b.part_length ≤ 8192
  · have e : (Extend is_ascii b).part_length = b.part_length * 2 := by
      simp [Extend, kMaxPartLength, kPartLengthGrowthFactor, hle]
    rw [e]
    exact ⟨by omega, isPartLength_double _ h hle, by omega⟩
  · have e : (Extend is_ascii b).part_length = b.part_length := by
      simp [Extend, kMaxPartLength, kPartLengthGrowthFactor, hle]
    rw [e]
    exact ⟨by omega, h, le_refl _⟩

theorem ChangeEncoding_part_length (b : Builder) :
    (ChangeEncoding b).part_length = b.part_length := by
  unfold ChangeEncoding ShrinkCurrentPart
  split <;> rfl

theorem partLength_inv (n : Nat) :
    PartInv (fun b => isPartLength b.part_length ∧ n ≤ b.part_length) where
  write := fun _ _ _ h => h
  extend := by
    intro b h
    obtain ⟨_, h2, h3⟩ := Extend_part_length b.is_ascii b h.1
    exact ⟨h2, le_trans h.2 h3⟩
  change := by
    intro b h _
    rw [ChangeEncoding_part_length]
    exact h

/-- C16: the constructor sets `part_length_` to 32; on a part length that is a
power of two between 32 and 16384 `Extend` sets `part_length_` to
`min(part_length_ * 2, 16384)`; and every completed call of `Serialize_` that
starts with such a part length ends with such a part length, not smaller than
the one it started with. -/
theorem part_length_growth (host : Host) (fuel : Nat) (d : Bool) (object : Value)
    (comma : Bool) (key : Value) (st : State) (r : Result) (st1 : State)
    (hp : isPartLength st.builder.part_length)
    (h : Serialize_ host fuel d object comma key st = .done (r, st1)) :
    Builder.init.part_length = 32
      ∧ isPartLength Builder.init.part_length
      ∧ (∀ is_ascii b, isPartLength b.part_length →
          (Extend is_ascii b).part_length = min (b.part_length * 2) 16384)
      ∧ isPartLength st1.builder.part_length
      ∧ st.builder.part_length ≤ st1.builder.part_length := by
  refine ⟨rfl, ⟨⟨5, rfl⟩, by decide, by decide⟩,
    fun ia b hb => (Extend_part_length ia b hb).1, ?_⟩
  exact (Serialize__traced host fuel d object comma key st r st1 h).keeps
    ((partLength_inv st.builder.part_length).stepInv host) ⟨hp, le_refl _⟩

/-- Witness of C16: the object `{a:1,b:[true,null,"x"]}` from the fresh state. -/
theorem part_length_growth_witness :
    ∃ st1, Serialize_ sampleHost 3 false (.JSObject 1) false (.String empty_string)
        (State.init sampleHeap) = .done (.SUCCESS, st1)
      ∧ isPartLength st1.builder.part_length
      ∧ (State.init sampleHeap).builder.part_length ≤ st1.builder.part_length :=
  ⟨_, rfl, (part_length_growth sampleHost 3 false (.JSObject 1) false (.String empty_string)
    (State.init sampleHeap) .SUCCESS _ ⟨⟨5, rfl⟩, by decide, by decide⟩ rfl).2.2.2⟩

theorem wideSince_inv (sealed : List Part) : PartInv (WideSince sealed) where
  write := fun _ _ _ h => h
  extend := by
    intro b h
    obtain ⟨h1, h2, rest, h3, h4⟩ := h
    refine ⟨h1, by simp [Extend, NewRawString, h1], rest ++ [b.current_part], ?_, ?_⟩
    · simp [Extend, h3]
    · intro p hp
      rcases List.mem_append.mp hp with hp | hp
      · exact h4 p hp
      · rw [List.mem_singleton.mp hp]; exact h2
  change := by
    intro b h ha
    rw [h.1] at ha
    cases ha

/-- C19: once `is_ascii_` is false (with a two-byte active part, as
`ChangeEncoding` leaves it), `Extend`, `ShrinkCurrentPart`, `ChangeEncoding`,
`Append`, `Append` of a text and `SerializeString` leave it false, and so does
every completed call of `Serialize_`; after such a call the active part is a
two-byte string and every part sealed during the call is a two-byte string. -/
theorem encoding_one_way (host : Host) (fuel : Nat) (d : Bool) (object : Value)
    (comma : Bool) (key : Value) (st : State) (r : Result) (st1 : State)
    (hwide : st.builder.is_ascii = false) (hpart : st.builder.current_part.two_byte = true)
    (h : Serialize_ host fuel d object comma key st = .done (r, st1)) :
    (st1.builder.is_ascii = false ∧ st1.builder.current_part.two_byte = true
        ∧ ∃ rest, st1.builder.accumulator = st.builder.accumulator ++ rest
            ∧ ∀ p ∈ rest, p.two_byte = true)
      ∧ (∀ b : Builder, b.is_ascii = false →
          (Extend false b).is_ascii = false ∧ (Extend false b).current_part.two_byte = true
            ∧ (ShrinkCurrentPart b).is_ascii = false ∧ (ChangeEncoding b).is_ascii = false
            ∧ (∀ c b1, Append c b = some b1 → b1.is_ascii = false)
            ∧ (∀ cs b1, Append_str cs b = some b1 → b1.is_ascii = false)
            ∧ (∀ s b1, SerializeString s b = some b1 → b1.is_ascii = false)) := by
  constructor
  · exact (Serialize__traced host fuel d object comma key st r st1 h).keeps
      ((wideSince_inv st.builder.accumulator).stepInv host)
      ⟨hwide, hpart, [], by simp, by simp⟩
  · intro b hb
    have hP : PartInv (fun _ : Builder => True) :=
      ⟨fun _ _ _ _ => trivial, fun _ _ => trivial, fun _ _ _ => trivial⟩
    refine ⟨hb, rfl, ?_, rfl, ?_, ?_, ?_⟩
    · unfold ShrinkCurrentPart; split <;> exact hb
    · intro c b1 e; rw [(hP.Append c b b1 trivial e).2, hb]
    · intro cs b1 e; rw [(hP.Append_str cs b b1 trivial e).2, hb]
    · intro s b1 e; rw [(hP.SerializeString s b b1 trivial e).2, hb]; rfl

/-- Witness of C19: the array `[1, "2", undefined]` serialized on the two-byte
accumulator `wideBuilder`. -/
theorem encoding_one_way_witness :
    ∃ st1, Serialize_ sampleHost 3 false (.JSObject 3) false (.String empty_string)
        { builder := wideBuilder, stack := [], heap := sampleHeap } = .done (.SUCCESS, st1)
      ∧ st1.builder.is_ascii = false ∧ st1.builder.current_part.two_byte = true :=
  ⟨_, rfl,
    (encoding_one_way sampleHost 3 false (.JSObject 3) false (.String empty_string)
      { builder := wideBuilder, stack := [], heap := sampleHeap } .SUCCESS _ rfl rfl rfl).1.1,
    (encoding_one_way sampleHost 3 false (.JSObject 3) false (.String empty_string)
      { builder := wideBuilder, stack := [], heap := sampleHeap } .SUCCESS _ rfl rfl rfl).1.2.1⟩

set_option maxRecDepth 100000 in
theorem escapeEntry_range : ∀ c < 128, ∀ x ∈ escapeEntry c, 0x20 ≤ x ∧ x ≤ 0x7F := by
  decide

theorem escaped_range (units : List Nat) (h : ∀ c ∈ units, c < 128) :
    ∀ x ∈ escaped false units, 0x20 ≤ x ∧ x ≤ 0x7F := by
  intro x hx
  unfold escaped at hx
  obtain ⟨c, hc, hx⟩ := List.mem_flatMap.mp hx
  split at hx
  · next hd =>
    rw [List.mem_singleton.mp hx]
    simp [DoNotEscape] at hd
    omega
  · exact escapeEntry_range c (h c hc) x hx

theorem quoted_range (s : HString) (h : s.two_byte = false) :
    ∀ x ∈ quoted s, 0x20 ≤ x ∧ x ≤ 0x7F := by
  intro x hx
  unfold quoted at hx
  rw [h] at hx
  rcases List.mem_cons.mp hx with rfl | hx
  · decide
  · rcases List.mem_append.mp hx with hx | hx
    · exact escaped_range s.units (s.ascii h) x hx
    · rw [List.mem_singleton.mp hx]; decide

theorem Literal_range (host : Host)
    (hint : ∀ i, ∀ c ∈ host.IntToCString i, 0x20 ≤ c ∧ c ≤ 0x7E)
    (hdbl : ∀ number, ∀ c ∈ host.DoubleToCString number, 0x20 ≤ c ∧ c ≤ 0x7E)
    (cs : List Nat) (h : Literal host cs) : ∀ c ∈ cs, 0x20 ≤ c ∧ c ≤ 0x7F := by
  cases h with
  | null => decide
  | true_ => decide
  | false_ => decide
  | int i => intro c hc; have := hint i c hc; omega
  | double number => intro c hc; have := hdbl number c hc; omega

theorem narrowRange_inv (host : Host)
    (hint : ∀ i, ∀ c ∈ host.IntToCString i, 0x20 ≤ c ∧ c ≤ 0x7E)
    (hdbl : ∀ number, ∀ c ∈ host.DoubleToCString number, 0x20 ≤ c ∧ c ≤ 0x7E) :
    StepInv host NarrowRange where
  punctuation := by
    intro st c st1 hc h e
    obtain ⟨w, o, _, _, a⟩ := build_Append st st1 c h.1 e
    refine ⟨w, fun ha x hx => ?_⟩
    rw [o] at hx
    rcases List.mem_append.mp hx with hx | hx
    · exact h.2 (a ▸ ha) x hx
    · rw [List.mem_singleton.mp hx]
      simp [isPunctuation] at hc
      omega
  literal := by
    intro st cs st1 hcs h e
    obtain ⟨w, o, _, _, a⟩ := build_Append_str st st1 cs h.1 e
    refine ⟨w, fun ha x hx => ?_⟩
    rw [o] at hx
    rcases List.mem_append.mp hx with hx | hx
    · exact h.2 (a ▸ ha) x hx
    · exact Literal_range host hint hdbl cs hcs x hx
  string := by
    intro st s st1 h e
    obtain ⟨b1, e1, rfl⟩ := build_done _ _ _ e
    obtain ⟨w, o, a⟩ := SerializeString_some s st.builder b1 h.1 e1
    refine ⟨w, fun ha x hx => ?_⟩
    simp only [] at ha hx
    rw [a] at ha
    simp only [Bool.and_eq_true, Bool.not_eq_true'] at ha
    rw [o] at hx
    rcases List.mem_append.mp hx with hx | hx
    · exact h.2 ha.1 x hx
    · exact quoted_range s ha.2 x hx
  push := fun _ _ _ _ h => h
  pop := fun _ h => h
  call := fun _ _ h => h

theorem decimalText_range (i : Int) : ∀ c ∈ decimalText i, 0x20 ≤ c ∧ c ≤ 0x7E := by
  intro c hc
  unfold decimalText decimal at hc
  split at hc
  · rcases List.mem_cons.mp hc with rfl | hc
    · decide
    · obtain ⟨d, _, rfl⟩ := List.mem_map.mp hc
      omega
  · obtain ⟨d, _, rfl⟩ := List.mem_map.mp hc
    omega

theorem sampleHost_double_range (number : Dbl) :
    ∀ c ∈ sampleHost.DoubleToCString number, 0x20 ≤ c ∧ c ≤ 0x7E := by
  intro c hc
  cases number with
  | finite id =>
    have : c ∈ decimal id := hc
    unfold decimal at this
    obtain ⟨d, _, rfl⟩ := List.mem_map.mp this
    omega
  | infinite => cases hc
  | nan => cases hc

set_option maxRecDepth 100000 in
/-- C18, as stated, fails: the ASCII string holding DEL is written with the DEL
itself (its table entry is the character), the encoding stays ASCII, and 0x7F
is neither in `0x20 ..= 0x7E` nor a tab, line feed or carriage return. -/
theorem SerializeString_writes_DEL :
    Stringify sampleHost 1 (.String str_del) sampleHeap
        = .done (.string false [0x22, 0x7F, 0x22])
      ∧ (∃ b1, SerializeString str_del Builder.init = some b1 ∧ b1.is_ascii = true
          ∧ 0x7F ∈ b1.output)
      ∧ ¬ ((0x20 ≤ 0x7F ∧ 0x7F ≤ 0x7E) ∨ 0x7F = 0x09 ∨ 0x7F = 0x0A ∨ 0x7F = 0x0D) := by
  refine ⟨rfl, ⟨_, rfl, rfl, by decide⟩, by decide⟩

/-- C18, amended: on a host whose number formatters return printable ASCII, every
completed call of `Serialize_` that starts from an accumulator satisfying the
invariant with all units of the logical output in `0x20 ..= 0x7F`, and ends with
`is_ascii_` true, ends with all units of the logical output in `0x20 ..= 0x7F`:
DEL is copied as it is, every control character (tab, line feed and carriage
return included) is written as an escape, and no unit at or above 0x80 is
written. -/
theorem narrow_output_range (host : Host)
    (hint : ∀ i, ∀ c ∈ host.IntToCString i, 0x20 ≤ c ∧ c ≤ 0x7E)
    (hdbl : ∀ number, ∀ c ∈ host.DoubleToCString number, 0x20 ≤ c ∧ c ≤ 0x7E)
    (fuel : Nat) (d : Bool) (object : Value) (comma : Bool) (key : Value) (st : State)
    (r : Result) (st1 : State) (hw : st.builder.WF)
    (hout : ∀ c ∈ st.builder.output, 0x20 ≤ c ∧ c ≤ 0x7F)
    (h : Serialize_ host fuel d object comma key st = .done (r, st1))
    (hascii : st1.builder.is_ascii = true) :
    ∀ c ∈ st1.builder.output, 0x20 ≤ c ∧ c ≤ 0x7F ∧ c < 0x80 := by
  have hR : NarrowRange st1 :=
    (Serialize__traced host fuel d object comma key st r st1 h).keeps
      (narrowRange_inv host hint hdbl) ⟨hw, fun _ => hout⟩
  intro c hc
  have := hR.2 hascii c hc
  omega

/-- Witness of C18 (amended): the object `{a:1,b:[true,null,"x"]}` from the fresh state. -/
theorem narrow_output_range_witness :
    ∃ st1, Serialize_ sampleHost 3 false (.JSObject 1) false (.String empty_string)
        (State.init sampleHeap) = .done (.SUCCESS, st1)
      ∧ st1.builder.is_ascii = true
      ∧ ∀ c ∈ st1.builder.output, 0x20 ≤ c ∧ c ≤ 0x7F ∧ c < 0x80 :=
  ⟨_, rfl, rfl,
    narrow_output_range sampleHost decimalText_range sampleHost_double_range 3 false
      (.JSObject 1) false (.String empty_string) (State.init sampleHeap) .SUCCESS _
      Builder.init_WF (by simp [State.init, Builder.init_output]) rfl rfl⟩

/-! ## The cycle stack holds no object twice -/

theorem nodup_inv (host : Host) : StepInv host (fun st => st.stack.Nodup) where
  punctuation := by
    intro st c st1 _ h e
    obtain ⟨b1, _, rfl⟩ := build_done _ _ _ e
    exact h
  literal := by
    intro st cs st1 _ h e
    obtain ⟨b1, _, rfl⟩ := build_done _ _ _ e
    exact h
  string := by
    intro st s st1 h e
    obtain ⟨b1, _, rfl⟩ := build_done _ _ _ e
    exact h
  push := by
    intro st object _ hnew h
    show (st.stack ++ [object]).Nodup
    rw [List.nodup_append]
    exact ⟨h, List.nodup_singleton _, by
      intro a ha hb
      exact hnew (List.mem_singleton.mp hb ▸ ha)⟩
  pop := by
    intro st h
    exact List.Nodup.sublist (List.take_sublist _ _) h
  call := fun _ _ h => h

/-- C20: every completed call of `Serialize_` that starts with a cycle stack
without repetition ends with one (the constructor starts with the empty stack);
and in any state, when the host reports no stack overflow, `StackPush(v)`
returns `CIRCULAR` with the state as it was exactly when `v` is on the stack,
and otherwise returns `SUCCESS` with `v` appended on top of the unchanged
entries; when the host reports stack overflow it returns `STACK_OVERFLOW` with
the state as it was. -/
theorem StackPush_discipline (host : Host) (fuel : Nat) (d : Bool) (object : Value)
    (comma : Bool) (key : Value) (st : State) (r : Result) (st1 : State)
    (hn : st.stack.Nodup)
    (h : Serialize_ host fuel d object comma key st = .done (r, st1)) :
    st1.stack.Nodup
      ∧ (∀ heap, (State.init heap).stack.Nodup)
      ∧ (∀ v (s : State), host.HasOverflowed s.stack.length = false →
          ((StackPush host v s).1 = .CIRCULAR ↔ v ∈ s.stack)
            ∧ (v ∈ s.stack → StackPush host v s = (.CIRCULAR, s))
            ∧ (v ∉ s.stack →
                StackPush host v s = (.SUCCESS, { s with stack := s.stack ++ [v] })))
      ∧ (∀ v (s : State), host.HasOverflowed s.stack.length = true →
          StackPush host v s = (.STACK_OVERFLOW, s)) := by
  refine ⟨(Serialize__traced host fuel d object comma key st r st1 h).keeps
    (nodup_inv host) hn, fun _ => List.nodup_nil, ?_, ?_⟩
  · intro v s ho
    rcases StackPush_cases host v s with ⟨hp, _, hnew⟩ | ⟨_, ho1⟩ | ⟨hp, _, hold⟩
    · refine ⟨?_, fun hm => absurd hm hnew, fun _ => hp⟩
      rw [hp]
      exact ⟨(fun e => by cases e), fun hm => absurd hm hnew⟩
    · rw [ho] at ho1; cases ho1
    · refine ⟨?_, fun _ => hp, fun hm => absurd hold hm⟩
      rw [hp]
      exact ⟨fun _ => hold, fun _ => rfl⟩
  · intro v s ho
    rcases StackPush_cases host v s with ⟨_, ho1, _⟩ | ⟨hp, _⟩ | ⟨_, ho1, _⟩
    · rw [ho] at ho1; cases ho1
    · exact hp
    · rw [ho] at ho1; cases ho1

/-- Witness of C20: the cyclic object `x.self = x` from the fresh state; the call
returns `CIRCULAR` and leaves `x` on the stack once. -/
theorem StackPush_discipline_witness :
    ∃ st1, Serialize_ sampleHost 3 false (.JSObject 4) false (.String empty_string)
        (State.init sampleHeap) = .done (.CIRCULAR, st1)
      ∧ st1.stack = [4] ∧ st1.stack.Nodup :=
  ⟨_, rfl, rfl,
    (StackPush_discipline sampleHost 3 false (.JSObject 4) false (.String empty_string)
      (State.init sampleHeap) .CIRCULAR _ List.nodup_nil rfl).1⟩

theorem Trace.encoding {host : Host} {st st1 : State} {log : List HString}
    (t : Trace host st log st1) (hw : st.builder.WF) :
    st1.builder.WF
      ∧ st1.builder.is_ascii = (st.builder.is_ascii && log.all (fun s => !s.two_byte)) := by
  induction t with
  | stop st => exact ⟨hw, by simp⟩
  | punctuation c hc h _ ih =>
    obtain ⟨w, _, _, _, a⟩ := build_Append _ _ c hw h
    obtain ⟨w1, a1⟩ := ih w
    exact ⟨w1, by rw [a1, a]⟩
  | literal cs hcs h _ ih =>
    obtain ⟨w, _, _, _, a⟩ := build_Append_str _ _ cs hw h
    obtain ⟨w1, a1⟩ := ih w
    exact ⟨w1, by rw [a1, a]⟩
  | string s h _ ih =>
    obtain ⟨b1, e1, rfl⟩ := build_done _ _ _ h
    obtain ⟨w, _, a⟩ := SerializeString_some s _ b1 hw e1
    obtain ⟨w1, a1⟩ := ih w
    refine ⟨w1, ?_⟩
    rw [a1]
    simp only [a, List.all_cons, Bool.and_assoc]
  | push object hover hnew _ ih => exact ih hw
  | pop _ ih => exact ih hw
  | call heap1 _ ih => exact ih hw

/-- C11, as stated, fails: the string `a` held in the two-byte representation has
no code unit at or above 0x80, and `Stringify` returns a two-byte string. -/
theorem Stringify_wide_without_non_ascii :
    (∀ c ∈ wideA.units, c < 0x80)
      ∧ Stringify sampleHost 1 (.String wideA) sampleHeap
          = .done (.string true [0x22, 0x61, 0x22]) := by
  refine ⟨by decide, rfl⟩

/-- C11, amended: the encoding follows the representation of the strings, not
their code units. Every completed call of `Serialize_` from an accumulator
satisfying the invariant has a trace of its accumulator operations such that
`is_ascii_` is true at the end exactly when it was true at the start and every
string given to `SerializeString` on the way (values and keys) is in the ASCII
representation. A string with a code unit at or above 0x80 is in the two-byte
representation, so it makes the output two-byte; a two-byte string without such
a unit does so as well. -/
theorem encoding_follows_representation (host : Host) (fuel : Nat) (d : Bool)
    (object : Value) (comma : Bool) (key : Value) (st : State) (r : Result) (st1 : State)
    (hw : st.builder.WF)
    (h : Serialize_ host fuel d object comma key st = .done (r, st1)) :
    (∃ log, Trace host st log st1
        ∧ (st1.builder.is_ascii = true ↔
            st.builder.is_ascii = true ∧ ∀ s ∈ log, s.two_byte = false))
      ∧ (∀ s : HString, (∃ c ∈ s.units, 0x80 ≤ c) → s.two_byte = true)
      ∧ (∀ (s : HString) (b b1 : Builder), b.WF → SerializeString s b = some b1 →
          b1.is_ascii = (b.is_ascii && !s.two_byte)) := by
  refine ⟨?_, ?_, ?_⟩
  · obtain ⟨log, t⟩ := Serialize__traced host fuel d object comma key st r st1 h
    refine ⟨log, t, ?_⟩
    rw [(t.encoding hw).2]
    simp
  · intro s ⟨c, hc, hge⟩
    cases hs : s.two_byte
    · have := s.ascii hs c hc
      omega
    · rfl
  · intro s b b1 hb e
    exact (SerializeString_some s b b1 hb e).2.2

/-- Witness of C11 (amended): the object `{a:1,b:[true,null,"x"]}`, whose keys and
string are ASCII strings, from the fresh state. -/
theorem encoding_follows_representation_witness :
    ∃ st1, Serialize_ sampleHost 3 false (.JSObject 1) false (.String empty_string)
        (State.init sampleHeap) = .done (.SUCCESS, st1)
      ∧ st1.builder.is_ascii = true
      ∧ ∃ log, Trace sampleHost (State.init sampleHeap) log st1
          ∧ (st1.builder.is_ascii = true ↔
              (State.init sampleHeap).builder.is_ascii = true ∧ ∀ s ∈ log, s.two_byte = false) :=
  ⟨_, rfl, rfl,
    (encoding_follows_representation sampleHost 3 false (.JSObject 1) false
      (.String empty_string) (State.init sampleHeap) .SUCCESS _ Builder.init_WF rfl).1⟩

/-- C23: every completed call of `Serialize_` from an accumulator satisfying the
invariant that returns `SUCCESS` or `UNCHANGED` leaves the cycle stack as it
was on entry; so the array `[a, a]` with `a = {}` is serialized as `[{},{}]`:
the second occurrence of `a` meets the stack the first one met and is not
reported as `CIRCULAR`. -/
theorem Serialize__stack_restored (host : Host) (fuel : Nat) (d : Bool) (object : Value)
    (comma : Bool) (key : Value) (st : State) (r : Result) (st1 : State)
    (hw : st.builder.WF)
    (h : Serialize_ host fuel d object comma key st = .done (r, st1))
    (hr : r = .SUCCESS ∨ r = .UNCHANGED) :
    st1.stack = st.stack
      ∧ Stringify sampleHost 3 (.JSObject 8) sampleHeap = .done (.string false text_shared) := by
  have hp := Serialize__done host fuel d object comma key st r st1 hw h
  refine ⟨?_, rfl⟩
  rcases hr with hr | hr
  · exact (hp.success hr).1
  · exact (hp.unchanged hr).2

/-- Witness of C23: the empty object 9, the element of `[a, a]`, serialized with
the array 8 on the cycle stack. -/
theorem Serialize__stack_restored_witness :
    ∃ st1, Serialize_ sampleHost 2 false (.JSObject 9) false (.Smi 0)
        { builder := Builder.init, stack := [8], heap := sampleHeap } = .done (.SUCCESS, st1)
      ∧ st1.stack = [8] :=
  ⟨_, rfl,
    (Serialize__stack_restored sampleHost 2 false (.JSObject 9) false (.Smi 0)
      { builder := Builder.init, stack := [8], heap := sampleHeap } .SUCCESS _
      Builder.init_WF rfl (Or.inl rfl)).1⟩

/-! ## The fast-path test in `int` arithmetic -/

/-- Below the wrapping range the fast-path test is the exact comparison, and its
success leaves room for the escaped text and the two quotes. -/
theorem fastPathTest_sound_below (current_index length part_length : Nat)
    (h : current_index + 8 * length + 2 < 2147483648)
    (ht : fastPathTest current_index length part_length = true) :
    current_index + 6 * length + 2 < part_length := by
  rw [fastPathTest_exact _ _ _ h] at ht
  have := of_decide_eq_true ht
  omega

/-- C24 at its failing input: for the length `n = 2^28 < 2^31`, the cursor 0 and
the part length 32 of the fresh accumulator, `n << 3` wraps to `-2^31`, the
test `current_index_ + (n << 3) + 2 < part_length_` succeeds, and
`0 + 6 * n + 2 < 32` is false. -/
theorem fastPathTest_unsound :
    (268435456 : Nat) < 2 ^ 31
      ∧ Builder.init.current_index = 0 ∧ Builder.init.part_length = 32
      ∧ wrap32 ((268435456 : Int) * 8) = -2147483648
      ∧ fastPathTest 0 268435456 32 = true
      ∧ ¬ (0 + 6 * 268435456 + 2 < 32) := by
  refine ⟨by decide, rfl, rfl, by unfold wrap32; decide, fastPathTest_longString, by decide⟩

/-- C22 at its failing input: the fresh accumulator satisfies
`current_index_ < part_length_`, the fast-path test accepts the ASCII string of
`2^28` code units, and the unchecked copy stores outside the active part: no
state with `current_index_ < part_length_` comes out of `SerializeString_`. -/
theorem SerializeString__overruns_part :
    Builder.init.WF
      ∧ ShrinkAssert Builder.init = true
      ∧ fastPathTest Builder.init.current_index 268435456 Builder.init.part_length = true
      ∧ longString.units.length = 268435456
      ∧ SerializeStringUnchecked_ false longString.units Builder.init = none
      ∧ SerializeString_ true false longString.units Builder.init = none := by
  have hlen : longString.units.length = 268435456 := List.length_replicate _ _
  have hge := escaped_length_ge false longString.units (fun _ => longString.ascii rfl)
  rw [hlen] at hge
  have hu : SerializeStringUnchecked_ false longString.units Builder.init = none := by
    cases h : SerializeStringUnchecked_ false longString.units Builder.init with
    | none => rfl
    | some b1 =>
      exfalso
      have := SerializeStringUnchecked__some_bound _ _ _ _ h
      rw [show Builder.init.current_index = 0 from rfl,
        show Builder.init.current_part.chars.length = 32 from rfl] at this
      omega
  refine ⟨Builder.init_WF, rfl, fastPathTest_longString, hlen, hu, ?_⟩
  unfold SerializeString_
  rw [hlen, show Builder.init.current_index = 0 from rfl,
    show Builder.init.part_length = 32 from rfl, fastPathTest_longString]
  simp only [if_true]
  exact hu

theorem quotesLate_reached :
    ((SerializeString wideEmpty Builder.init).bind (SerializeString empty_string)).bind
      (SerializeString empty_string) = some quotesLate := by
  decide

theorem quotesEarly_reached :
    ((SerializeString empty_string Builder.init).bind (SerializeString empty_string)).bind
      (SerializeString wideEmpty) = some quotesEarly := by
  decide

theorem quotesLate_WF : quotesLate.WF := ⟨by decide, by decide, by decide⟩

theorem quotesEarly_WF : quotesEarly.WF := ⟨by decide, by decide, by decide⟩

/-- C21 at its failing input: two reachable two-byte accumulator states with the
same logical output (six quotes), and the ASCII string of `2^29 + 3` code
units, for which `length << 3` wraps to 24. In the first state the fast-path
test fails and the checked path appends the quoted text; in the second the test
succeeds and the unchecked copy stores outside the active part. -/
theorem SerializeString__paths_differ :
    ((SerializeString wideEmpty Builder.init).bind (SerializeString empty_string)).bind
        (SerializeString empty_string) = some quotesLate
      ∧ ((SerializeString empty_string Builder.init).bind (SerializeString empty_string)).bind
        (SerializeString wideEmpty) = some quotesEarly
      ∧ quotesLate.output = quotesEarly.output
      ∧ quotesLate.is_ascii = quotesEarly.is_ascii
      ∧ veryLongString.units.length = 536870915
      ∧ fastPathTest quotesLate.current_index 536870915 quotesLate.part_length = false
      ∧ fastPathTest quotesEarly.current_index 536870915 quotesEarly.part_length = true
      ∧ (∃ b1, SerializeString veryLongString quotesLate = some b1
          ∧ b1.output = quotesLate.output ++ quoted veryLongString)
      ∧ SerializeString veryLongString quotesEarly = none := by
  have hlen : veryLongString.units.length = 536870915 := List.length_replicate _ _
  have hlate : fastPathTest quotesLate.current_index 536870915 quotesLate.part_length
      = false := by
    unfold fastPathTest wrap32; decide
  have hearly : fastPathTest quotesEarly.current_index 536870915 quotesEarly.part_length
      = true := by
    unfold fastPathTest wrap32; decide
  refine ⟨quotesLate_reached, quotesEarly_reached, by decide, rfl, hlen, hlate, hearly,
    ?_, ?_⟩
  · obtain ⟨b1, e1, w1, o1, _⟩ := Append__spec false 0x22 quotesLate quotesLate_WF
    obtain ⟨b2, e2, w2, o2, _⟩ := checkedLoop_spec false false veryLongString.units b1 w1
    obtain ⟨b3, e3, _, o3, _⟩ := Append__spec false 0x22 b2 w2
    refine ⟨b3, ?_, ?_⟩
    · unfold SerializeString
      simp only [show quotesLate.is_ascii = false from rfl,
        show veryLongString.two_byte = false from rfl, Bool.not_false, if_true]
      unfold SerializeString_
      rw [hlen, hlate]
      simp only [e1, e2, e3]
      rfl
    · rw [o3, o2, o1]
      unfold quoted
      rw [show veryLongString.two_byte = false from rfl]
      simp only [List.append_assoc, List.singleton_append, List.cons_append, List.nil_append]
  · have hge := escaped_length_ge false veryLongString.units
      (fun _ => veryLongString.ascii rfl)
    rw [hlen] at hge
    cases h : SerializeString veryLongString quotesEarly with
    | none => rfl
    | some b1 =>
      exfalso
      unfold SerializeString at h
      simp only [show quotesEarly.is_ascii = false from rfl,
        show veryLongString.two_byte = false from rfl, Bool.not_false, if_true] at h
      unfold SerializeString_ at h
      rw [hlen, hearly] at h
      simp only [if_true, Bool.false_eq_true, if_false] at h
      have := SerializeStringUnchecked__some_bound _ _ _ _ h
      rw [show quotesEarly.current_index = 2 from rfl,
        show quotesEarly.current_part.chars.length = 32 from rfl] at this
      omega

theorem selfHeap_succ (n : Nat) : selfHeap (n + 1) = functionObject := rfl

theorem selfHeap_quiet : QuietHeap selfHeap where
  no_hook := by
    intro id f h
    cases id with
    | zero => cases h
    | succ n => cases h
  keys_ok := by
    intro id
    cases id with
    | zero => exact ⟨_, rfl⟩
    | succ n => exact ⟨_, rfl⟩
  fetch_ok := by
    intro id contents h key hk
    cases id with
    | zero =>
      have hc : contents = [Key.name key_self] := by
        have : some [Key.name key_self] = some contents := h
        exact (Option.some.inj this).symm
      subst hc
      rw [List.mem_singleton.mp hk]
      refine ⟨?_, .JSObject 0, ?_, trivial⟩
      · show key_self.units.length < maxSafeLength
        decide
      · simp [fetchProperty, GetProperty, selfHeap, plainObject]
    | succ n =>
      have hc : contents = [] := by
        have : some [] = some contents := h
        exact (Option.some.inj this).symm
      subst hc
      cases hk
  elements_ok := by
    intro id elements h
    cases id with
    | zero => cases h
    | succ n => cases h
  to_string_ok := by
    intro id o h
    cases id with
    | zero => cases h
    | succ n => cases h
  to_number_ok := by
    intro id h
    cases id with
    | zero => cases h
    | succ n => cases h

theorem selfHeap_edge : Edge selfHeap 0 0 := by
  refine ⟨?_, rfl⟩
  simp [children, selfHeap, plainObject, enumerated, fetchProperty, GetProperty]

/-- The cycle lemma applies: on `selfHeap` the object 0 lies on a cycle and
`Stringify` raises the circular-structure error. -/
theorem cycle_reported_selfHeap :
    Stringify quietHost 2 (.JSObject 0) selfHeap = .done .throw_circular_structure :=
  cycle_reported quietHost selfHeap 1 (fun _ => rfl) selfHeap_quiet
    (by
      intro id h
      cases id with
      | zero => exact Nat.zero_lt_one
      | succ n => cases h)
    2 (le_refl _) 0 0 rfl Relation.ReflTransGen.refl (Relation.TransGen.single selfHeap_edge)

/-! ## The round trip at a long string -/

/-- C5 at its failing input: the ASCII string of `2^28` letters `a` has a literal
that decodes back to it, but `SerializeString` on the fresh accumulator emits
nothing: the fast-path test wraps and the unchecked copy stores outside the
active part. So it is not the case that for every string and every accumulator
state satisfying the invariant `SerializeString` returns with an appended text
that decodes to the string. -/
theorem SerializeString_roundtrip_longString :
    longString.units.length = 268435456
      ∧ decodeString (quoted longString) = some longString.units
      ∧ SerializeString longString Builder.init = none
      ∧ ¬ (∀ (s : HString) (b : Builder), b.WF →
          ∃ b1, SerializeString s b = some b1
            ∧ decodeString (b1.output.drop b.output.length) = some s.units) := by
  have hnone := SerializeString_longString_none Builder.init Builder.init_WF
  refine ⟨List.length_replicate _ _, decodeString_quoted longString, hnone, ?_⟩
  intro h
  obtain ⟨b1, e, _⟩ := h longString Builder.init Builder.init_WF
  rw [hnone] at e
  cases e

end JsonStringifier
